import Mathlib

/-!
Verification of the `flat-veb` van Emde Boas tree implementation.

The Rust sources are shallowly embedded as follows.

* A `Shape` describes a concrete instantiation of the generic types:
  `Shape.base b` is `SmallSet<b, T>` with `T` a `2^b`-bit word
  (so `CAPACITY = 2^b` equals the bit width of `T`), and
  `Shape.comp us ls` is `VEBTree<UPPER_CAPACITY, Upper, Lower>` where
  `us`/`ls` are the shapes of `Upper`/`Lower`.
* `St sh` is the state of an instance of shape `sh`: a `SmallSet` is its
  word of flag bits (a `Nat` kept below `2^(2^b)`); a composite node is
  its `upper` state, the list of `lower` cluster states, and the cached
  `min`/`max` fields (machine `usize` values modelled as `Nat`, with
  `usize::MAX` modelled by the constant `SENTINEL`; all values that
  actually occur are far below `2^64`, so no wrap-around can occur).
* Each Rust method becomes a Lean function by structural recursion on the
  shape; mutation becomes explicit state passing, and the `expect` calls
  (which panic if the option is `none`) are modelled by `Option.getD _ 0`;
  it is proved separately that on reachable states those options are
  always `some`.
-/

/-- `usize::MAX` on a 64-bit platform: the empty-set sentinel value. -/
def SENTINEL : Nat := 2 ^ 64 - 1

/-- Fuel-driven helper for `trailingZeros`. -/
def trailingZerosAux : Nat → Nat → Nat
  | 0, _ => 0
  | fuel + 1, w => if w % 2 = 1 then 0 else trailingZerosAux fuel (w / 2) + 1

/-- Models the `trailing_zeros` intrinsic on a nonzero word: the index of
the least significant set bit.  (The `w = 0` case is never used by the
source: every call is guarded by a nonzero test.) -/
def trailingZeros (w : Nat) : Nat := trailingZerosAux w w

/-- Fuel-driven helper for `lg2`. -/
def lg2Aux : Nat → Nat → Nat
  | 0, _ => 0
  | fuel + 1, w => if 2 ≤ w then lg2Aux fuel (w / 2) + 1 else 0

/-- Base-2 logarithm (index of the most significant set bit of a nonzero
word), used to model the `leading_zeros` intrinsic. -/
def lg2 (w : Nat) : Nat := lg2Aux w w

/-- Models the `leading_zeros` intrinsic of a `W`-bit word holding `w`
(with `w < 2^W`). -/
def leadingZeros (W w : Nat) : Nat := if w = 0 then W else W - 1 - lg2 w

/-- The shape of a concrete `flat_veb` set type: either a `SmallSet` base
case over `2^b` values, or a composite `VEBTree` with the given upper and
lower shapes (`outer.rs`, `small_set.rs`). -/
inductive Shape where
  | base (b : Nat)
  | comp (us ls : Shape)
deriving DecidableEq

/-- `BITS` of a shape: `SmallSet<BITS, _>` has `BITS = b`, and a composite
tree has `BITS = Upper::BITS + Lower::BITS` (`outer.rs` line 54). -/
def sbits : Shape → Nat
  | .base b => b
  | .comp us ls => sbits us + sbits ls

/-- `CAPACITY = 1 << BITS` of a shape (`lib.rs` line 89). -/
def scap (sh : Shape) : Nat := 2 ^ sbits sh

/-- The fields of a composite `VEBTree` node (`outer.rs` lines 12-20). -/
structure NodeSt (U L : Type) where
  upper : U
  lower : List L
  mn : Nat
  mx : Nat

/-- The state of an instance of shape `sh`: the flag word of a `SmallSet`,
or the fields of a composite node. -/
@[reducible] def St : Shape → Type
  | .base _ => Nat
  | .comp us ls => NodeSt (St us) (St ls)

/-- `new()`: the all-empty instance — a zero word for `SmallSet`
(`small_set.rs` line 57), and for a composite node a fresh empty upper,
`UPPER_CAPACITY` fresh empty lowers and `min = max = usize::MAX`
(`outer.rs` lines 62-69). -/
def emptySt : (sh : Shape) → St sh
  | .base _ => (0 : Nat)
  | .comp us ls => ⟨emptySt us, List.replicate (scap us) (emptySt ls), SENTINEL, SENTINEL⟩

/-- `is_empty()`: zero word test for `SmallSet` (`small_set.rs` line 83);
`min == usize::MAX` for a composite node (`outer.rs` line 100). -/
def isEmpty : (sh : Shape) → St sh → Bool
  | .base _, (w : Nat) => w == 0
  | .comp _ _, ⟨_, _, mn, _⟩ => mn == SENTINEL

/-- `contains(x)` (`small_set.rs` line 87, `outer.rs` lines 104-125). -/
def contains : (sh : Shape) → St sh → Nat → Bool
  | .base _, (w : Nat), x => (w >>> x) &&& 1 != 0
  | .comp us ls, ⟨_, lows, mn, mx⟩, x =>
    if x < mn then false
    else if mx < x then false
    else if x = mn then true
    else if x = mx then true
    else contains ls (lows.getD (x >>> sbits ls) (emptySt ls)) (x &&& (scap ls - 1))

/-- `first()` (`small_set.rs` line 120, `outer.rs` line 236). -/
def first : (sh : Shape) → St sh → Option Nat
  | .base _, (w : Nat) => if w != 0 then some (trailingZeros w) else none
  | .comp _ _, ⟨_, _, mn, _⟩ => if mn != SENTINEL then some mn else none

/-- `last()` (`small_set.rs` line 124, `outer.rs` line 240). -/
def last : (sh : Shape) → St sh → Option Nat
  | .base b, (w : Nat) => if w != 0 then some (scap (.base b) - 1 - leadingZeros (scap (.base b)) w) else none
  | .comp _ _, ⟨_, _, mn, mx⟩ => if mn != SENTINEL then some mx else none

/-- `next(x)` (`small_set.rs` lines 104-108, `outer.rs` lines 190-211).
In the base case, `!y` on a `W`-bit word is complement within the width,
i.e. `(2^W - 1) ^^^ y` (the word is kept `< 2^W`).  The two `expect`
calls of the composite fall-through path are modelled by `Option.getD _ 0`. -/
def next : (sh : Shape) → St sh → Nat → Option Nat
  | .base b, (w : Nat), x =>
    let bigEnough := w &&& ((2 ^ scap (.base b) - 1) ^^^ ((1 <<< x) - 1))
    if bigEnough != 0 then some (trailingZeros bigEnough) else none
  | .comp us ls, ⟨up, lows, mn, mx⟩, x =>
    if mn = SENTINEL ∨ mx < x then none
    else if x ≤ mn then some mn
    else
      let ux := x >>> sbits ls
      let lx := x &&& (scap ls - 1)
      let low := lows.getD ux (emptySt ls)
      let fallback : Option Nat :=
        let ux2 := (next us up (ux + 1)).getD 0
        let lx2 := (first ls (lows.getD ux2 (emptySt ls))).getD 0
        some ((ux2 <<< sbits ls) + lx2)
      match last ls low with
      | some l =>
        if lx ≤ l then some ((ux <<< sbits ls) + (next ls low lx).getD 0)
        else fallback
      | none => fallback

/-- `prev(x)` (`small_set.rs` lines 110-118, `outer.rs` lines 213-234).
The `expect` calls are modelled by `Option.getD _ 0`. -/
def prev : (sh : Shape) → St sh → Nat → Option Nat
  | .base b, (w : Nat), x =>
    let W := scap (.base b)
    let smallEnough := if x = W - 1 then w else w &&& ((1 <<< (x + 1)) - 1)
    if smallEnough != 0 then some (W - 1 - leadingZeros W smallEnough) else none
  | .comp us ls, ⟨up, lows, mn, _⟩, x =>
    if mn = SENTINEL ∨ x < mn then none
    else
      let ux := x >>> sbits ls
      let lx := x &&& (scap ls - 1)
      let low := lows.getD ux (emptySt ls)
      let fallback : Option Nat :=
        if 0 < ux then
          match prev us up (ux - 1) with
          | some ux2 =>
            let lx2 := (last ls (lows.getD ux2 (emptySt ls))).getD 0
            some ((ux2 <<< sbits ls) + lx2)
          | none => some mn
        else some mn
      match first ls low with
      | some f =>
        if f ≤ lx then some ((ux <<< sbits ls) + (prev ls low lx).getD 0)
        else fallback
      | none => fallback

/-- `insert(x)`, returning the `bool` result and the new state
(`small_set.rs` lines 92-96, `outer.rs` lines 127-153).  The
`core::mem::swap` of `x` and `self.min` is the `(mn, x)` pair swap. -/
def vebInsert : (sh : Shape) → St sh → Nat → Bool × St sh
  | .base _, (w : Nat), x => (!((w >>> x) &&& 1 != 0), w ||| (1 <<< x))
  | .comp us ls, ⟨up, lows, mn, mx⟩, x =>
    if mn = SENTINEL then (true, ⟨up, lows, x, x⟩)
    else
      let xm := if x < mn then (mn, x) else (x, mn)
      if xm.1 = xm.2 then (false, ⟨up, lows, xm.2, mx⟩)
      else
        let mx1 := if mx < xm.1 then xm.1 else mx
        let ux := xm.1 >>> sbits ls
        let lx := xm.1 &&& (scap ls - 1)
        let low := lows.getD ux (emptySt ls)
        let up1 := if isEmpty ls low then (vebInsert us up ux).2 else up
        let r := vebInsert ls low lx
        (r.1, ⟨up1, lows.set ux r.2, xm.2, mx1⟩)

/-- `remove(x)`, returning the `bool` result and the new state
(`small_set.rs` lines 98-102, `outer.rs` lines 155-188).  Note that the
singleton case sets `max = 0` (not the sentinel), that when `x == min`
the new `min` is written before the recursive removal, and that
`self.prev(x - 1)` for the `max` recomputation runs on the state whose
`lower`/`upper`/`min` are already updated but whose `max` is still old,
exactly as the `&mut self` code does. -/
def remove : (sh : Shape) → St sh → Nat → Bool × St sh
  | .base b, (w : Nat), x => ((w >>> x) &&& 1 != 0, w &&& ((2 ^ scap (.base b) - 1) ^^^ (1 <<< x)))
  | .comp us ls, ⟨up, lows, mn, mx⟩, x =>
    if mn = mx then
      if x = mn then (true, ⟨up, lows, SENTINEL, 0⟩) else (false, ⟨up, lows, mn, mx⟩)
    else
      let x1 := if x = mn then (next (.comp us ls) ⟨up, lows, mn, mx⟩ (x + 1)).getD 0 else x
      let mn1 := if x = mn then x1 else mn
      let ux := x1 >>> sbits ls
      let lx := x1 &&& (scap ls - 1)
      let r := remove ls (lows.getD ux (emptySt ls)) lx
      let lows1 := lows.set ux r.2
      if r.1 then
        let up1 := if isEmpty ls r.2 then (remove us up ux).2 else up
        let mx1 := if x1 ≠ mn1 ∧ x1 = mx
          then (prev (.comp us ls) ⟨up1, lows1, mn1, mx⟩ (x1 - 1)).getD 0
          else mx
        (true, ⟨up1, lows1, mn1, mx1⟩)
      else (false, ⟨up, lows1, mn1, mx⟩)

/-- `clear()` (`small_set.rs` line 79, `outer.rs` lines 91-98). -/
def clear : (sh : Shape) → St sh → St sh
  | .base _, _ => (0 : Nat)
  | .comp us ls, ⟨up, lows, _, _⟩ => ⟨clear us up, lows.map (fun l => clear ls l), SENTINEL, SENTINEL⟩

/-- Fuel-driven helper for `sizedShape` (the fuel is always sufficient for
the argument). -/
def sizedShapeAux : Nat → Nat → Shape
  | 0, n => .base n
  | fuel + 1, n =>
    if n ≤ 7 then .base n
    else .comp (sizedShapeAux fuel (n / 2)) (sizedShapeAux fuel ((n + 1) / 2))

/-- `GetVEBTreeSize<BITS>` / `SizedVEBTree<BITS>` (`sizes.rs`): `BITS` in
4..=7 is served by a `SmallSet` of width `2^BITS`, and larger `BITS` by a
composite node whose upper half has `BITS / 2` bits and whose lower half
has `(BITS + 1) / 2` bits. -/
def sizedShape (n : Nat) : Shape := sizedShapeAux n n

/-- The number of bits of `usize` on a 64-bit platform. -/
def USIZE_BITS : Nat := 64

/-- `new_with_capacity` (`dyn_capacity.rs` lines 42-65), modelled as the
pure size selection it performs: the expanded macro tries the concrete
sizes `BITS = 4, 5, ..., 49` in increasing order and returns the first
whose `CAPACITY` is at least the request; `none` models the final
`panic!("Too high capacity")`. -/
def new_with_capacity (capacityReq : Nat) : Option Nat :=
  (List.range' 4 46).find? (fun n => capacityReq ≤ scap (sizedShape n))

/-- `new_with_bits` (`dyn_capacity.rs` lines 75-82): the
`assert!(bits < size_of::<usize>() * 8)` panic is modelled as `none`,
otherwise it delegates to `new_with_capacity(1 << bits)`. -/
def new_with_bits (bits : Nat) : Option Nat :=
  if bits < USIZE_BITS then new_with_capacity (2 ^ bits) else none

/-- The `VEBIterator` state (`lib.rs` lines 150-153): a borrowed tree and
the cursor `next_start`. -/
structure VEBIterator (sh : Shape) where
  tree : St sh
  nextStart : Nat

/-- `VEBTree::iter` (`lib.rs` lines 139-144): the cursor starts at 0. -/
def iter (sh : Shape) (s : St sh) : VEBIterator sh := ⟨s, 0⟩

/-- `<VEBIterator as Iterator>::next` (`lib.rs` lines 155-167): when the
cursor has reached `CAPACITY` the iterator is exhausted; otherwise it
returns `tree.next(next_start)` and advances the cursor to `value + 1`. -/
def iterStep (sh : Shape) (it : VEBIterator sh) : Option (Nat × VEBIterator sh) :=
  if it.nextStart = scap sh then none
  else
    match next sh it.tree it.nextStart with
    | none => none
    | some v => some (v, ⟨it.tree, v + 1⟩)

/-- The list of values produced by up to `fuel` calls of
`<VEBIterator as Iterator>::next`, stopping at the first `None`. -/
def iterOut (sh : Shape) (it : VEBIterator sh) : Nat → List Nat
  | 0 => []
  | fuel + 1 =>
    match iterStep sh it with
    | none => []
    | some (v, it2) => v :: iterOut sh it2 fuel

/-- A mutating operation of the public interface. -/
inductive Op where
  | ins (x : Nat)
  | del (x : Nat)

/-- The position argument of an operation. -/
def Op.arg : Op → Nat
  | .ins x => x
  | .del x => x

/-- Apply one operation to a state, discarding the `bool` result. -/
def applyOp (sh : Shape) (s : St sh) : Op → St sh
  | .ins x => (vebInsert sh s x).2
  | .del x => (remove sh s x).2

/-- Apply a sequence of operations from left to right. -/
def applyOps (sh : Shape) (ops : List Op) (s : St sh) : St sh :=
  ops.foldl (applyOp sh) s

/-- All position arguments of the sequence respect the
`debug_assert!(x < Self::CAPACITY)` contract. -/
def OpsOK (sh : Shape) (ops : List Op) : Prop := ∀ o ∈ ops, o.arg < scap sh

/-- A state is reachable when some in-range sequence of insert/remove
operations produces it from the freshly constructed empty instance. -/
def Reachable (sh : Shape) (s : St sh) : Prop :=
  ∃ ops, OpsOK sh ops ∧ applyOps sh ops (emptySt sh) = s

/-- Reference implementation: insertion into a sorted list of distinct
values, keeping it sorted and duplicate-free. -/
def rInsert (x : Nat) : List Nat → List Nat
  | [] => [x]
  | y :: t => if x < y then x :: y :: t else if x = y then y :: t else y :: rInsert x t

/-- Reference implementation: removal from a list. -/
def rRemove (x : Nat) : List Nat → List Nat
  | [] => []
  | y :: t => if x = y then t else y :: rRemove x t

/-- Reference implementation: membership. -/
def rContains (l : List Nat) (x : Nat) : Bool := l.contains x

/-- Reference implementation: the first (hence, in a sorted list, the
smallest) entry that is `≥ x`. -/
def rNext (l : List Nat) (x : Nat) : Option Nat := l.find? (fun y => x ≤ y)

/-- Reference implementation: the last (hence, in a sorted list, the
largest) entry that is `≤ x`. -/
def rPrev (l : List Nat) (x : Nat) : Option Nat := (l.filter (fun y => y ≤ x)).getLast?

/-- Reference implementation: the minimum of a sorted list. -/
def rFirst (l : List Nat) : Option Nat := l.head?

/-- Reference implementation: the maximum of a sorted list. -/
def rLast (l : List Nat) : Option Nat := l.getLast?

/-- Apply one operation to the reference sorted list. -/
def applyRefOp (l : List Nat) : Op → List Nat
  | .ins x => rInsert x l
  | .del x => rRemove x l

/-- Apply a sequence of operations to the reference sorted list. -/
def applyRefOps (ops : List Op) (l : List Nat) : List Nat :=
  ops.foldl applyRefOp l

/-- Abstraction function: membership of `y` in the set represented by a
state.  A value is in a composite node when the node is nonempty and the
value either equals the cached `min` or its (cluster index, low bits)
decomposition is present in the corresponding `lower` substructure. -/
def melem : (sh : Shape) → St sh → Nat → Bool
  | .base _, (w : Nat), y => w.testBit y
  | .comp us ls, ⟨_, lows, mn, _⟩, y =>
    if mn = SENTINEL then false
    else y == mn || melem ls (lows.getD (y / 2 ^ sbits ls) (emptySt ls)) (y % 2 ^ sbits ls)

/-- Membership of `y` in the `lower` substructure of a composite node. -/
def subMem (ls : Shape) (lows : List (St ls)) (y : Nat) : Bool :=
  melem ls (lows.getD (y / 2 ^ sbits ls) (emptySt ls)) (y % 2 ^ sbits ls)

/-- The `upper`/`lower` coherence part of the representation invariant:
an in-range cluster index is a member of `upper` iff its cluster holds at
least one value. -/
def UpperTracks (us ls : Shape) (up : St us) (lows : List (St ls)) : Prop :=
  ∀ u, u < scap us →
    (melem us up u = true ↔ ∃ z, melem ls (lows.getD u (emptySt ls)) z = true)

/-- The full representation invariant of a state. -/
def TreeInv : (sh : Shape) → St sh → Prop
  | .base b, (w : Nat) => w < 2 ^ 2 ^ b
  | .comp us ls, ⟨up, lows, mn, mx⟩ =>
    TreeInv us up ∧
    lows.length = scap us ∧
    (∀ l ∈ lows, TreeInv ls l) ∧
    UpperTracks us ls up lows ∧
    (mn = SENTINEL → ∀ l ∈ lows, ∀ z, melem ls l z = false) ∧
    (mn ≠ SENTINEL →
      mn < scap (.comp us ls) ∧
      (∀ y, subMem ls lows y = true → mn < y) ∧
      mn ≤ mx ∧ mx < scap (.comp us ls) ∧
      (∀ y, subMem ls lows y = true → y ≤ mx) ∧
      (mn < mx → subMem ls lows mx = true))

/-- The representation invariant minus every condition on the top-level
cached `max`: this is all that `prev` relies on (it never reads `max`),
and it is what still holds in the middle of `remove` when `prev` is called
to recompute `max`. -/
def TreeInvSM : (sh : Shape) → St sh → Prop
  | .base b, (w : Nat) => w < 2 ^ 2 ^ b
  | .comp us ls, ⟨up, lows, mn, _⟩ =>
    TreeInv us up ∧
    lows.length = scap us ∧
    (∀ l ∈ lows, TreeInv ls l) ∧
    UpperTracks us ls up lows ∧
    (mn = SENTINEL → ∀ l ∈ lows, ∀ z, melem ls l z = false) ∧
    (mn ≠ SENTINEL →
      mn < scap (.comp us ls) ∧
      (∀ y, subMem ls lows y = true → mn < y))

/-- `o` is the smallest member of `S` that is `≥ x` (`none` iff none exists). -/
def IsNextOf (S : Nat → Bool) (x : Nat) : Option Nat → Prop
  | none => ∀ y, x ≤ y → S y = false
  | some v => x ≤ v ∧ S v = true ∧ ∀ y, x ≤ y → S y = true → v ≤ y

/-- `o` is the largest member of `S` that is `≤ x` (`none` iff none exists). -/
def IsPrevOf (S : Nat → Bool) (x : Nat) : Option Nat → Prop
  | none => ∀ y, y ≤ x → S y = false
  | some v => v ≤ x ∧ S v = true ∧ ∀ y, y ≤ x → S y = true → y ≤ v
/-- The correspondence between a tree state and the reference sorted list:
the list is sorted, bounded by the capacity, and holds exactly the
members of the state. -/
def Corr (sh : Shape) (s : St sh) (l : List Nat) : Prop :=
  l.Sorted (· < ·) ∧ (∀ z ∈ l, z < scap sh) ∧ (∀ y, melem sh s y = rContains l y)

theorem scap_pos (sh : Shape) : 0 < scap sh := Nat.two_pow_pos _

theorem scap_comp (us ls : Shape) : scap (.comp us ls) = scap us * scap ls := by
  simp [scap, sbits, Nat.pow_add]

theorem scap_us_le (us ls : Shape) : scap us ≤ scap (.comp us ls) := by
  rw [scap_comp]; exact Nat.le_mul_of_pos_right _ (scap_pos ls)

theorem scap_ls_le (us ls : Shape) : scap ls ≤ scap (.comp us ls) := by
  rw [scap_comp]; exact Nat.le_mul_of_pos_left _ (scap_pos us)

theorem trailingZerosAux_spec :
    ∀ fuel w, w ≠ 0 → w < 2 ^ fuel →
      w.testBit (trailingZerosAux fuel w) = true ∧
      ∀ j, j < trailingZerosAux fuel w → w.testBit j = false := by
  intro fuel
  induction fuel with
  | zero => intro w hw hlt; simp at hlt; omega
  | succ fuel ih =>
    intro w hw hlt
    by_cases hodd : w % 2 = 1
    · refine ⟨?_, by simp [trailingZerosAux, hodd]⟩
      simp [trailingZerosAux, hodd]
    · have hw2 : w / 2 ≠ 0 := by omega
      have hlt2 : w / 2 < 2 ^ fuel := by
        rw [Nat.pow_succ] at hlt; omega
      obtain ⟨h1, h2⟩ := ih (w / 2) hw2 hlt2
      simp only [trailingZerosAux, hodd, if_false]
      refine ⟨by rw [Nat.testBit_succ]; exact h1, ?_⟩
      intro j hj
      cases j with
      | zero => simp [hodd]
      | succ j => rw [Nat.testBit_succ]; exact h2 j (by omega)

theorem trailingZeros_spec {w : Nat} (hw : w ≠ 0) :
    w.testBit (trailingZeros w) = true ∧
    ∀ j, j < trailingZeros w → w.testBit j = false :=
  trailingZerosAux_spec w w hw (Nat.lt_two_pow w)

theorem lg2Aux_spec :
    ∀ fuel w, 0 < w → w < 2 ^ fuel →
      2 ^ lg2Aux fuel w ≤ w ∧ w < 2 ^ (lg2Aux fuel w + 1) := by
  intro fuel
  induction fuel with
  | zero => intro w hw hlt; simp at hlt; omega
  | succ fuel ih =>
    intro w hw hlt
    by_cases h2 : 2 ≤ w
    · have hw2 : 0 < w / 2 := by omega
      have hlt2 : w / 2 < 2 ^ fuel := by rw [Nat.pow_succ] at hlt; omega
      obtain ⟨ha, hb⟩ := ih (w / 2) hw2 hlt2
      simp only [lg2Aux, h2, if_true]
      have e1 : 2 ^ (lg2Aux fuel (w / 2) + 1) = 2 ^ lg2Aux fuel (w / 2) * 2 := Nat.pow_succ ..
      have e2 : 2 ^ (lg2Aux fuel (w / 2) + 1 + 1) = 2 ^ (lg2Aux fuel (w / 2) + 1) * 2 :=
        Nat.pow_succ ..
      omega
    · have hw1 : w = 1 := by omega
      subst hw1
      simp [lg2Aux]

theorem lg2_spec {w : Nat} (hw : 0 < w) : 2 ^ lg2 w ≤ w ∧ w < 2 ^ (lg2 w + 1) :=
  lg2Aux_spec w w hw (Nat.lt_two_pow w)

theorem testBit_lg2 {w : Nat} (hw : 0 < w) : w.testBit (lg2 w) = true := by
  obtain ⟨h1, h2⟩ := lg2_spec hw
  have hpos : 0 < 2 ^ lg2 w := Nat.two_pow_pos _
  have hdiv : w / 2 ^ lg2 w = 1 := by
    have hl : 1 ≤ w / 2 ^ lg2 w := (Nat.le_div_iff_mul_le hpos).2 (by omega)
    have hr : w / 2 ^ lg2 w < 2 := by
      rw [Nat.div_lt_iff_lt_mul hpos]
      rw [Nat.pow_succ] at h2; omega
    omega
  rw [Nat.testBit_to_div_mod, hdiv]
  decide

theorem testBit_le_lg2 {w j : Nat} (h : w.testBit j = true) : j ≤ lg2 w := by
  have hj := Nat.testBit_implies_ge h
  have hw : 0 < w := lt_of_lt_of_le (Nat.two_pow_pos j) hj
  obtain ⟨-, h2⟩ := lg2_spec hw
  by_contra hc
  push_neg at hc
  have hle : 2 ^ (lg2 w + 1) ≤ 2 ^ j := Nat.pow_le_pow_right (by omega) (by omega)
  omega

theorem lg2_lt {w W : Nat} (hw : 0 < w) (hW : w < 2 ^ W) : lg2 w < W := by
  obtain ⟨h1, -⟩ := lg2_spec hw
  by_contra hc
  push_neg at hc
  have hle : 2 ^ W ≤ 2 ^ lg2 w := Nat.pow_le_pow_right (by omega) hc
  omega

theorem sub_leadingZeros {W w : Nat} (hw0 : w ≠ 0) (hlt : w < 2 ^ W) :
    W - 1 - leadingZeros W w = lg2 w := by
  have h1 : lg2 w < W := lg2_lt (Nat.pos_of_ne_zero hw0) hlt
  simp only [leadingZeros, hw0, if_false]
  omega

theorem bitProj (w x : Nat) : ((w >>> x) &&& 1 != 0) = w.testBit x := by
  unfold Nat.testBit
  rw [Nat.land_comm]

theorem cluster_lt {c y z : Nat} (hc : 0 < c) (h : y / c < z / c) : y < z := by
  have hy := Nat.div_add_mod y c
  have hz := Nat.div_add_mod z c
  have hmy : y % c < c := Nat.mod_lt _ hc
  have hmul : c * (y / c + 1) ≤ c * (z / c) := Nat.mul_le_mul_left c (by omega)
  have e : c * (y / c + 1) = c * (y / c) + c := by ring
  omega

theorem same_cluster_le {c y z : Nat} (h : y / c = z / c) : y ≤ z ↔ y % c ≤ z % c := by
  have hy := Nat.div_add_mod y c
  have hz := Nat.div_add_mod z c
  rw [h] at hy
  generalize c * (z / c) = a at hy hz
  omega

theorem same_cluster_lt {c y z : Nat} (h : y / c = z / c) : y < z ↔ y % c < z % c := by
  have hy := Nat.div_add_mod y c
  have hz := Nat.div_add_mod z c
  rw [h] at hy
  generalize c * (z / c) = a at hy hz
  omega

theorem encode_div {u l lb : Nat} (hl : l < 2 ^ lb) : (u * 2 ^ lb + l) / 2 ^ lb = u := by
  rw [Nat.mul_comm u, Nat.mul_add_div (Nat.two_pow_pos lb), Nat.div_eq_of_lt hl, Nat.add_zero]

theorem encode_mod {u l lb : Nat} (hl : l < 2 ^ lb) : (u * 2 ^ lb + l) % 2 ^ lb = l := by
  rw [Nat.mul_comm u, Nat.mul_add_mod, Nat.mod_eq_of_lt hl]

theorem encode_lt {u l lb c : Nat} (hu : u < c) (hl : l < 2 ^ lb) :
    u * 2 ^ lb + l < c * 2 ^ lb := by
  have : u + 1 ≤ c := hu
  have h2 : (u + 1) * 2 ^ lb ≤ c * 2 ^ lb := Nat.mul_le_mul_right _ this
  have e : (u + 1) * 2 ^ lb = u * 2 ^ lb + 2 ^ lb := by ring
  omega

theorem decomp_eq (y lb : Nat) : y / 2 ^ lb * 2 ^ lb + y % 2 ^ lb = y := by
  have h := Nat.div_add_mod y (2 ^ lb)
  rw [Nat.mul_comm] at h
  omega

theorem div_lt_of_lt_mul {y c lb : Nat} (h : y < c * 2 ^ lb) : y / 2 ^ lb < c := by
  rw [Nat.div_lt_iff_lt_mul (Nat.two_pow_pos lb)]
  omega

theorem lt_mul_of_div_lt {y c lb : Nat} (h : y / 2 ^ lb < c) : y < c * 2 ^ lb := by
  by_contra hc
  push_neg at hc
  have := (Nat.le_div_iff_mul_le (Nat.two_pow_pos lb)).2 hc
  omega

theorem getD_eq_getElem {α : Type} (l : List α) (d : α) {i : Nat} (h : i < l.length) :
    l.getD i d = l[i] := by
  simp [List.getD_eq_getElem?_getD, List.getElem?_eq_getElem h]

theorem getD_mem {α : Type} (l : List α) (d : α) {i : Nat} (h : i < l.length) :
    l.getD i d ∈ l := by
  rw [getD_eq_getElem l d h]
  exact List.getElem_mem h

theorem getD_default {α : Type} (l : List α) (d : α) {i : Nat} (h : l.length ≤ i) :
    l.getD i d = d := by
  simp [List.getD_eq_getElem?_getD, List.getElem?_eq_none h]

theorem getD_set_self {α : Type} (l : List α) (a d : α) {i : Nat} (h : i < l.length) :
    (l.set i a).getD i d = a := by
  rw [getD_eq_getElem _ d (by simpa using h)]
  simp

theorem getD_set_ne {α : Type} (l : List α) (a d : α) {i j : Nat} (h : i ≠ j) :
    (l.set i a).getD j d = l.getD j d := by
  simp [List.getD_eq_getElem?_getD, List.getElem?_set_ne h]

theorem getD_replicate {α : Type} (a d : α) {n i : Nat} :
    (List.replicate n a).getD i d = if i < n then a else d := by
  by_cases h : i < n
  · rw [getD_eq_getElem _ d (by simpa using h)]
    simp [h]
  · rw [getD_default _ d (by simpa using Nat.le_of_not_lt h)]
    simp [h]

theorem set_getD_self {α : Type} (l : List α) (d : α) {i : Nat} :
    l.set i (l.getD i d) = l := by
  by_cases h : i < l.length
  · rw [getD_eq_getElem l d h]
    apply List.ext_getElem (by simp)
    intro j h1 h2
    by_cases hj : i = j
    · subst hj; simp
    · simp [List.getElem_set_ne hj]
  · exact List.set_eq_of_length_le (by omega)
theorem melem_comp (us ls : Shape) (up : St us) (lows : List (St ls)) (mn mx y : Nat) :
    melem (.comp us ls) ⟨up, lows, mn, mx⟩ y =
      if mn = SENTINEL then false else (y == mn || subMem ls lows y) := rfl

theorem melem_emptySt (sh : Shape) : ∀ y, melem sh (emptySt sh) y = false := by
  cases sh with
  | base b => intro y; simp [melem, emptySt, Nat.zero_testBit]
  | comp us ls => intro y; simp [melem, emptySt]

theorem treeInv_toSM : ∀ (sh : Shape) (s : St sh), TreeInv sh s → TreeInvSM sh s := by
  intro sh s h
  cases sh with
  | base b => exact h
  | comp us ls =>
    obtain ⟨up, lows, mn, mx⟩ := s
    simp only [TreeInv] at h
    simp only [TreeInvSM]
    obtain ⟨h1, h2, h3, h4, h5, h6⟩ := h
    exact ⟨h1, h2, h3, h4, h5, fun hmn => ⟨(h6 hmn).1, (h6 hmn).2.1⟩⟩

theorem subMem_lt {us ls : Shape} {lows : List (St ls)}
    (hlen : lows.length = scap us) (hInv : ∀ l ∈ lows, TreeInv ls l)
    (ihl : ∀ l : St ls, TreeInvSM ls l → ∀ y, melem ls l y = true → y < scap ls) :
    ∀ y, subMem ls lows y = true → y < scap (.comp us ls) := by
  intro y hy
  rw [subMem] at hy
  by_cases hu : y / 2 ^ sbits ls < lows.length
  · have hcl := hInv _ (getD_mem lows (emptySt ls) hu)
    have hlow := ihl _ (treeInv_toSM ls _ hcl) _ hy
    have : y < scap us * 2 ^ sbits ls := lt_mul_of_div_lt (by omega)
    rw [scap_comp]
    exact this
  · rw [getD_default lows (emptySt ls) (by omega), melem_emptySt] at hy
    exact absurd hy (by simp)

theorem melem_lt :
    ∀ (sh : Shape) (s : St sh), TreeInvSM sh s → ∀ y, melem sh s y = true → y < scap sh := by
  intro sh
  induction sh with
  | base b =>
    intro w hI y hy
    have hge := Nat.testBit_implies_ge hy
    show y < 2 ^ b
    by_contra hc
    push_neg at hc
    have hpow : (2 : Nat) ^ 2 ^ b ≤ 2 ^ y := Nat.pow_le_pow_right (by omega) hc
    simp only [TreeInvSM] at hI
    omega
  | comp us ls ihu ihl =>
    intro s hI y hy
    obtain ⟨up, lows, mn, mx⟩ := s
    simp only [TreeInvSM] at hI
    obtain ⟨h1, h2, h3, h4, h5, h6⟩ := hI
    rw [melem_comp] at hy
    by_cases hmn : mn = SENTINEL
    · simp [hmn] at hy
    · simp only [hmn, if_false, Bool.or_eq_true, beq_iff_eq] at hy
      rcases hy with rfl | hy
      · exact (h6 hmn).1
      · exact subMem_lt h2 h3 ihl y hy

theorem isEmpty_iff_no_melem :
    ∀ (sh : Shape) (s : St sh), TreeInvSM sh s →
      (isEmpty sh s = true ↔ ∀ y, melem sh s y = false) := by
  intro sh s hI
  cases sh with
  | base b =>
    constructor
    · intro h y
      have hw : (s : Nat) = 0 := by simpa [isEmpty] using h
      simp [melem, hw, Nat.zero_testBit]
    · intro h
      by_contra hne
      have hw : (s : Nat) ≠ 0 := by simpa [isEmpty] using hne
      have := (trailingZeros_spec hw).1
      exact absurd (h (trailingZeros s)) (by simp [melem, this])
  | comp us ls =>
    obtain ⟨up, lows, mn, mx⟩ := s
    simp only [TreeInvSM] at hI
    obtain ⟨h1, h2, h3, h4, h5, h6⟩ := hI
    constructor
    · intro h y
      have hmn : mn = SENTINEL := by simpa [isEmpty] using h
      simp [melem_comp, hmn]
    · intro h
      by_contra hne
      have hmn : mn ≠ SENTINEL := by simpa [isEmpty] using hne
      have := h mn
      rw [melem_comp] at this
      simp [hmn] at this
theorem next_base_char (b w x j : Nat) (hw : w < 2 ^ 2 ^ b) :
    (w &&& ((2 ^ scap (.base b) - 1) ^^^ ((1 <<< x) - 1))).testBit j
      = (w.testBit j && decide (x ≤ j)) := by
  have hW : scap (.base b) = 2 ^ b := rfl
  rw [Nat.one_shiftLeft, Nat.testBit_and, Nat.testBit_xor, hW,
    Nat.testBit_two_pow_sub_one, Nat.testBit_two_pow_sub_one]
  by_cases hjW : j < 2 ^ b
  · by_cases hjx : j < x
    · have h1 : ¬ x ≤ j := by omega
      simp [hjW, hjx, h1]
    · have h1 : x ≤ j := by omega
      simp [hjW, hjx, h1]
  · have h0 : w.testBit j = false :=
      Nat.testBit_lt_two_pow (lt_of_lt_of_le hw (Nat.pow_le_pow_right (by omega) (by omega)))
    simp [h0]

theorem next_base_spec {b w : Nat} (hw : w < 2 ^ 2 ^ b) (x : Nat) :
    IsNextOf (fun y => w.testBit y) x (next (.base b) w x) := by
  have hchar := fun j => next_base_char b w x j hw
  have hunf : next (.base b) w x =
      (if (w &&& ((2 ^ scap (.base b) - 1) ^^^ ((1 <<< x) - 1))) != 0
        then some (trailingZeros (w &&& ((2 ^ scap (.base b) - 1) ^^^ ((1 <<< x) - 1))))
        else none) := rfl
  set bigE := w &&& ((2 ^ scap (.base b) - 1) ^^^ ((1 <<< x) - 1)) with hbigE
  by_cases h0 : bigE = 0
  · rw [hunf, if_neg (by simp [h0])]
    intro y hy
    have := hchar y
    rw [h0, Nat.zero_testBit] at this
    rcases hb : w.testBit y with _ | _
    · exact hb
    · rw [hb] at this
      simp [hy] at this
  · rw [hunf, if_pos (by simp [h0])]
    obtain ⟨ht, hmin⟩ := trailingZeros_spec h0
    have h1 := hchar (trailingZeros bigE)
    rw [ht] at h1
    refine ⟨?_, ?_, ?_⟩
    · have := h1.symm
      simp only [Bool.true_eq, Bool.and_eq_true, decide_eq_true_eq] at this
      exact this.2
    · have := h1.symm
      simp only [Bool.true_eq, Bool.and_eq_true] at this
      exact this.1
    · intro y hy hS
      by_contra hc
      push_neg at hc
      have hbit := hmin y hc
      rw [hchar y] at hbit
      have hS2 : w.testBit y = true := hS
      rw [hS2] at hbit
      simp [hy] at hbit

theorem prev_base_char (b w x j : Nat) (hw : w < 2 ^ 2 ^ b) (hx : x < 2 ^ b) :
    (if x = scap (.base b) - 1 then w else w &&& ((1 <<< (x + 1)) - 1)).testBit j
      = (w.testBit j && decide (j ≤ x)) := by
  have hW : scap (.base b) = 2 ^ b := rfl
  by_cases hxe : x = scap (.base b) - 1
  · rw [if_pos hxe]
    by_cases hjx : j ≤ x
    · simp [hjx]
    · have h0 : w.testBit j = false := by
        apply Nat.testBit_lt_two_pow
        apply lt_of_lt_of_le hw
        apply Nat.pow_le_pow_right (by omega)
        have hp : 0 < 2 ^ b := Nat.two_pow_pos b
        omega
      simp [h0, hjx]
  · rw [if_neg hxe, Nat.one_shiftLeft, Nat.and_pow_two_sub_one_eq_mod,
      Nat.testBit_mod_two_pow]
    by_cases hjx : j ≤ x
    · have : j < x + 1 := by omega
      simp [this, hjx, Bool.and_comm]
    · have : ¬ j < x + 1 := by omega
      simp [this, hjx]

theorem prev_base_spec {b w : Nat} (hw : w < 2 ^ 2 ^ b) {x : Nat} (hx : x < 2 ^ b) :
    IsPrevOf (fun y => w.testBit y) x (prev (.base b) w x) := by
  have hchar := fun j => prev_base_char b w x j hw hx
  have hunf : prev (.base b) w x =
      (if (if x = scap (.base b) - 1 then w else w &&& ((1 <<< (x + 1)) - 1)) != 0
        then some (scap (.base b) - 1 -
          leadingZeros (scap (.base b)) (if x = scap (.base b) - 1 then w else w &&& ((1 <<< (x + 1)) - 1)))
        else none) := rfl
  set sE := (if x = scap (.base b) - 1 then w else w &&& ((1 <<< (x + 1)) - 1)) with hsE
  have hsEle : sE ≤ w := by
    rw [hsE]
    by_cases hxe : x = scap (.base b) - 1
    · rw [if_pos hxe]
    · rw [if_neg hxe, Nat.one_shiftLeft, Nat.and_pow_two_sub_one_eq_mod]
      exact Nat.mod_le ..
  by_cases h0 : sE = 0
  · rw [hunf, if_neg (by simp [h0])]
    intro y hy
    have := hchar y
    rw [h0, Nat.zero_testBit] at this
    rcases hb : w.testBit y with _ | _
    · exact hb
    · rw [hb] at this
      simp [hy] at this
  · rw [hunf, if_pos (by simp [h0])]
    have hsub : scap (.base b) - 1 - leadingZeros (scap (.base b)) sE = lg2 sE := by
      apply sub_leadingZeros h0
      show sE < 2 ^ 2 ^ b
      omega
    rw [hsub]
    have ht := testBit_lg2 (Nat.pos_of_ne_zero h0)
    have h1 := hchar (lg2 sE)
    rw [ht] at h1
    refine ⟨?_, ?_, ?_⟩
    · have := h1.symm
      simp only [Bool.true_eq, Bool.and_eq_true, decide_eq_true_eq] at this
      exact this.2
    · have := h1.symm
      simp only [Bool.true_eq, Bool.and_eq_true] at this
      exact this.1
    · intro y hy hS
      apply testBit_le_lg2
      have hS2 : w.testBit y = true := hS
      rw [hchar y, hS2]
      simp [hy]

theorem first_spec :
    ∀ (sh : Shape) (s : St sh), TreeInvSM sh s → IsNextOf (melem sh s) 0 (first sh s) := by
  intro sh s hI
  cases sh with
  | base b =>
    by_cases h0 : (s : Nat) = 0
    · have : first (.base b) s = none := by simp [first, h0]
      rw [this]
      intro y hy
      simp [melem, h0, Nat.zero_testBit]
    · have : first (.base b) s = some (trailingZeros s) := by simp [first, h0]
      rw [this]
      obtain ⟨ht, hmin⟩ := trailingZeros_spec h0
      refine ⟨Nat.zero_le _, ht, ?_⟩
      intro y hy hS
      by_contra hc
      push_neg at hc
      have hmy := hmin y hc
      have hS2 : Nat.testBit s y = true := hS
      simp [hmy] at hS2
  | comp us ls =>
    obtain ⟨up, lows, mn, mx⟩ := s
    simp only [TreeInvSM] at hI
    obtain ⟨h1, h2, h3, h4, h5, h6⟩ := hI
    by_cases hmn : mn = SENTINEL
    · have : first (.comp us ls) ⟨up, lows, mn, mx⟩ = none := by simp [first, hmn]
      rw [this]
      intro y hy
      simp [melem_comp, hmn]
    · have : first (.comp us ls) ⟨up, lows, mn, mx⟩ = some mn := by simp [first, hmn]
      rw [this]
      refine ⟨Nat.zero_le _, by simp [melem_comp, hmn], ?_⟩
      intro y hy hS
      rw [melem_comp] at hS
      simp only [hmn, if_false, Bool.or_eq_true, beq_iff_eq] at hS
      rcases hS with rfl | hS
      · exact le_refl _
      · exact Nat.le_of_lt ((h6 hmn).2 y hS)

theorem last_spec :
    ∀ (sh : Shape) (s : St sh), TreeInv sh s → IsPrevOf (melem sh s) (scap sh - 1) (last sh s) := by
  intro sh s hI
  cases sh with
  | base b =>
    simp only [TreeInv] at hI
    by_cases h0 : (s : Nat) = 0
    · have : last (.base b) s = none := by simp [last, h0]
      rw [this]
      intro y hy
      simp [melem, h0, Nat.zero_testBit]
    · have hval : scap (.base b) - 1 - leadingZeros (scap (.base b)) s = lg2 s :=
        sub_leadingZeros h0 hI
      have : last (.base b) s = some (lg2 s) := by simp [last, h0, hval]
      rw [this]
      refine ⟨?_, by simpa [melem] using testBit_lg2 (Nat.pos_of_ne_zero h0), ?_⟩
      · have := lg2_lt (Nat.pos_of_ne_zero h0) hI
        show lg2 (s : Nat) ≤ 2 ^ b - 1
        omega
      · intro y hy hS
        exact testBit_le_lg2 hS
  | comp us ls =>
    obtain ⟨up, lows, mn, mx⟩ := s
    simp only [TreeInv] at hI
    obtain ⟨h1, h2, h3, h4, h5, h6⟩ := hI
    by_cases hmn : mn = SENTINEL
    · have : last (.comp us ls) ⟨up, lows, mn, mx⟩ = none := by simp [last, hmn]
      rw [this]
      intro y hy
      simp [melem_comp, hmn]
    · obtain ⟨hm1, hm2, hm3, hm4, hm5, hm6⟩ := h6 hmn
      have : last (.comp us ls) ⟨up, lows, mn, mx⟩ = some mx := by simp [last, hmn]
      rw [this]
      refine ⟨by omega, ?_, ?_⟩
      · rw [melem_comp]
        simp only [hmn, if_false]
        by_cases hmm : mn = mx
        · simp [hmm]
        · have := hm6 (by omega)
          simp [this]
      · intro y hy hS
        rw [melem_comp] at hS
        simp only [hmn, if_false, Bool.or_eq_true, beq_iff_eq] at hS
        rcases hS with rfl | hS
        · exact hm3
        · exact hm5 y hS
theorem contains_comp_eq (us ls : Shape) (up : St us) (lows : List (St ls)) (mn mx x : Nat) :
    contains (.comp us ls) ⟨up, lows, mn, mx⟩ x =
      if x < mn then false
      else if mx < x then false
      else if x = mn then true
      else if x = mx then true
      else contains ls (lows.getD (x / 2 ^ sbits ls) (emptySt ls)) (x % 2 ^ sbits ls) := by
  show (if x < mn then false
      else if mx < x then false
      else if x = mn then true
      else if x = mx then true
      else contains ls (lows.getD (x >>> sbits ls) (emptySt ls)) (x &&& (scap ls - 1))) = _
  rw [Nat.shiftRight_eq_div_pow, show scap ls - 1 = 2 ^ sbits ls - 1 from rfl,
    Nat.and_pow_two_sub_one_eq_mod]

theorem subMem_encode {ls : Shape} (lows : List (St ls)) {u l : Nat}
    (hl : l < scap ls) :
    subMem ls lows (u * 2 ^ sbits ls + l) = melem ls (lows.getD u (emptySt ls)) l := by
  have hl2 : l < 2 ^ sbits ls := hl
  rw [subMem, encode_div hl2, encode_mod hl2]

theorem subMem_decomp (ls : Shape) (lows : List (St ls)) (y : Nat) :
    subMem ls lows y = melem ls (lows.getD (y / 2 ^ sbits ls) (emptySt ls)) (y % 2 ^ sbits ls) :=
  rfl

theorem contains_eq_melem :
    ∀ (sh : Shape) (s : St sh), TreeInv sh s → scap sh ≤ SENTINEL →
      ∀ x, x < scap sh → contains sh s x = melem sh s x := by
  intro sh
  induction sh with
  | base b => intro s hI hS x hx; exact bitProj s x
  | comp us ls ihu ihl =>
    intro s hI hS x hx
    obtain ⟨up, lows, mn, mx⟩ := s
    simp only [TreeInv] at hI
    obtain ⟨h1, h2, h3, h4, h5, h6⟩ := hI
    rw [contains_comp_eq, melem_comp]
    by_cases hmn : mn = SENTINEL
    · subst hmn
      have hxm : x < SENTINEL := by omega
      rw [if_pos hxm, if_pos rfl]
    · obtain ⟨hm1, hm2, hm3, hm4, hm5, hm6⟩ := h6 hmn
      simp only [hmn, if_false]
      by_cases hxlt : x < mn
      · rw [if_pos hxlt]
        have hne : (x == mn) = false := by simp; omega
        rw [hne, Bool.false_or]
        rcases hb : subMem ls lows x with _ | _
        · rfl
        · have := hm2 x hb
          omega
      · rw [if_neg hxlt]
        by_cases hxgt : mx < x
        · rw [if_pos hxgt]
          have hne : (x == mn) = false := by simp; omega
          rw [hne, Bool.false_or]
          rcases hb : subMem ls lows x with _ | _
          · rfl
          · have := hm5 x hb
            omega
        · rw [if_neg hxgt]
          by_cases hxmn : x = mn
          · simp [hxmn]
          · rw [if_neg hxmn]
            have hne : (x == mn) = false := by simp [hxmn]
            rw [hne, Bool.false_or]
            by_cases hxmx : x = mx
            · rw [if_pos hxmx]
              have hsub : subMem ls lows mx = true := hm6 (by omega)
              rw [hxmx, hsub]
            · rw [if_neg hxmx]
              have hulen : x / 2 ^ sbits ls < lows.length := by
                rw [h2]
                apply div_lt_of_lt_mul
                show x < scap us * scap ls
                rw [← scap_comp]
                exact hx
              have hclI : TreeInv ls (lows.getD (x / 2 ^ sbits ls) (emptySt ls)) :=
                h3 _ (getD_mem lows (emptySt ls) hulen)
              have hmod : x % 2 ^ sbits ls < scap ls :=
                Nat.mod_lt _ (Nat.two_pow_pos _)
              rw [ihl _ hclI (le_trans (scap_ls_le us ls) hS) _ hmod]
              rfl
theorem melem_comp_iff {us ls : Shape} {up : St us} {lows : List (St ls)} {mn mx y : Nat}
    (hmn : mn ≠ SENTINEL) :
    melem (.comp us ls) ⟨up, lows, mn, mx⟩ y = true ↔ (y = mn ∨ subMem ls lows y = true) := by
  rw [melem_comp]
  simp [hmn]

theorem next_comp_eq (us ls : Shape) (up : St us) (lows : List (St ls)) (mn mx x : Nat) :
    next (.comp us ls) ⟨up, lows, mn, mx⟩ x =
      if mn = SENTINEL ∨ mx < x then none
      else if x ≤ mn then some mn
      else
        match last ls (lows.getD (x / 2 ^ sbits ls) (emptySt ls)) with
        | some l =>
          if x % 2 ^ sbits ls ≤ l then
            some (x / 2 ^ sbits ls * 2 ^ sbits ls
              + (next ls (lows.getD (x / 2 ^ sbits ls) (emptySt ls)) (x % 2 ^ sbits ls)).getD 0)
          else
            some ((next us up (x / 2 ^ sbits ls + 1)).getD 0 * 2 ^ sbits ls
              + (first ls (lows.getD ((next us up (x / 2 ^ sbits ls + 1)).getD 0) (emptySt ls))).getD 0)
        | none =>
          some ((next us up (x / 2 ^ sbits ls + 1)).getD 0 * 2 ^ sbits ls
            + (first ls (lows.getD ((next us up (x / 2 ^ sbits ls + 1)).getD 0) (emptySt ls))).getD 0) := by
  simp only [next, Nat.shiftRight_eq_div_pow, Nat.shiftLeft_eq,
    show scap ls - 1 = 2 ^ sbits ls - 1 from rfl, Nat.and_pow_two_sub_one_eq_mod]

theorem next_fallback_spec (us ls : Shape) (up : St us) (lows : List (St ls)) (mn mx x : Nat)
    (ihu : ∀ (s2 : St us), TreeInv us s2 → ∀ z, z < scap us →
      IsNextOf (melem us s2) z (next us s2 z))
    (hIfull : TreeInv (.comp us ls) ⟨up, lows, mn, mx⟩)
    (hmn : mn ≠ SENTINEL)
    (hx : x < scap (.comp us ls)) (hxmn : mn < x) (hmx2 : x ≤ mx)
    (hclmax : ∀ z, melem ls (lows.getD (x / 2 ^ sbits ls) (emptySt ls)) z = true →
      z < x % 2 ^ sbits ls) :
    IsNextOf (melem (.comp us ls) ⟨up, lows, mn, mx⟩) x
      (some ((next us up (x / 2 ^ sbits ls + 1)).getD 0 * 2 ^ sbits ls
        + (first ls (lows.getD ((next us up (x / 2 ^ sbits ls + 1)).getD 0) (emptySt ls))).getD 0)) := by
  have hSM := treeInv_toSM _ _ hIfull
  have hI := hIfull
  simp only [TreeInv] at hI
  obtain ⟨h1, h2, h3, h4, h5, h6⟩ := hI
  obtain ⟨hm1, hm2, hm3, hm4, hm5, hm6⟩ := h6 hmn
  have hxcap : x < scap us * 2 ^ sbits ls := by rw [scap_comp] at hx; exact hx
  have hux : x / 2 ^ sbits ls < scap us := div_lt_of_lt_mul hxcap
  have hmnmx : mn < mx := by omega
  have hsubmx := hm6 hmnmx
  rw [subMem_decomp] at hsubmx
  have hmxcap : mx < scap us * 2 ^ sbits ls := by rw [scap_comp] at hm4; exact hm4
  have humx : mx / 2 ^ sbits ls < scap us := div_lt_of_lt_mul hmxcap
  have hdivle : x / 2 ^ sbits ls ≤ mx / 2 ^ sbits ls := Nat.div_le_div_right hmx2
  have humxne : x / 2 ^ sbits ls ≠ mx / 2 ^ sbits ls := by
    intro he
    have hmem : melem ls (lows.getD (x / 2 ^ sbits ls) (emptySt ls))
        (mx % 2 ^ sbits ls) = true := by
      rw [he]; exact hsubmx
    have hlt := hclmax _ hmem
    have hle : x % 2 ^ sbits ls ≤ mx % 2 ^ sbits ls := (same_cluster_le he).1 hmx2
    omega
  have humxmem : melem us up (mx / 2 ^ sbits ls) = true := by
    apply (h4 _ humx).2
    exact ⟨mx % 2 ^ sbits ls, hsubmx⟩
  have hnu := ihu up h1 (x / 2 ^ sbits ls + 1) (by omega)
  rcases hnuv : next us up (x / 2 ^ sbits ls + 1) with _ | u2
  · rw [hnuv] at hnu
    have := hnu (mx / 2 ^ sbits ls) (by omega)
    rw [humxmem] at this
    exact absurd this (by simp)
  · rw [hnuv] at hnu
    obtain ⟨hu1, hu2, hu3⟩ := hnu
    simp only [Option.getD_some]
    have hu2cap : u2 < scap us := melem_lt us up (treeInv_toSM us up h1) u2 hu2
    have hu2len : u2 < lows.length := by omega
    obtain ⟨z0, hz0⟩ := (h4 u2 hu2cap).1 hu2
    have hclI2 : TreeInv ls (lows.getD u2 (emptySt ls)) := h3 _ (getD_mem lows _ hu2len)
    have hfs := first_spec ls _ (treeInv_toSM ls _ hclI2)
    rcases hfv : first ls (lows.getD u2 (emptySt ls)) with _ | f
    · rw [hfv] at hfs
      have := hfs z0 (Nat.zero_le _)
      rw [hz0] at this
      exact absurd this (by simp)
    · rw [hfv] at hfs
      obtain ⟨-, hf2, hf3⟩ := hfs
      simp only [Option.getD_some]
      have hfcap : f < scap ls := melem_lt ls _ (treeInv_toSM ls _ hclI2) f hf2
      have hdx := decomp_eq x (sbits ls)
      have hxmod : x % 2 ^ sbits ls < 2 ^ sbits ls := Nat.mod_lt _ (Nat.two_pow_pos _)
      refine ⟨?_, ?_, ?_⟩
      · have hmm : (x / 2 ^ sbits ls + 1) * 2 ^ sbits ls ≤ u2 * 2 ^ sbits ls :=
          Nat.mul_le_mul_right _ hu1
        have he : (x / 2 ^ sbits ls + 1) * 2 ^ sbits ls
            = x / 2 ^ sbits ls * 2 ^ sbits ls + 2 ^ sbits ls := by ring
        omega
      · rw [melem_comp_iff hmn]
        right
        rw [subMem_encode lows hfcap]
        exact hf2
      · intro y hy hS
        have hycap : y < scap (.comp us ls) := melem_lt _ _ hSM y hS
        rw [melem_comp_iff hmn] at hS
        rcases hS with rfl | hS
        · omega
        · rw [subMem_decomp] at hS
          have hdy := decomp_eq y (sbits ls)
          have hdyle : x / 2 ^ sbits ls ≤ y / 2 ^ sbits ls := Nat.div_le_div_right hy
          have huyne : y / 2 ^ sbits ls ≠ x / 2 ^ sbits ls := by
            intro he
            have hmem : melem ls (lows.getD (x / 2 ^ sbits ls) (emptySt ls))
                (y % 2 ^ sbits ls) = true := by
              rw [← he]; exact hS
            have hlt := hclmax _ hmem
            have hle : x % 2 ^ sbits ls ≤ y % 2 ^ sbits ls := (same_cluster_le he.symm).1 hy
            omega
          have huycap : y / 2 ^ sbits ls < scap us := by
            apply div_lt_of_lt_mul
            show y < scap us * 2 ^ sbits ls
            rw [scap_comp] at hycap
            exact hycap
          have huymem : melem us up (y / 2 ^ sbits ls) = true := by
            apply (h4 _ huycap).2
            exact ⟨y % 2 ^ sbits ls, hS⟩
          have hle2 := hu3 _ (by omega) huymem
          by_cases heq : y / 2 ^ sbits ls = u2
          · have hmem2 : melem ls (lows.getD u2 (emptySt ls)) (y % 2 ^ sbits ls) = true := by
              rw [← heq]; exact hS
            have hfle := hf3 _ (Nat.zero_le _) hmem2
            have he2 : y / 2 ^ sbits ls * 2 ^ sbits ls = u2 * 2 ^ sbits ls := by rw [heq]
            omega
          · have hgt : u2 < y / 2 ^ sbits ls := by omega
            have hlt2 : u2 * 2 ^ sbits ls + f < y :=
              cluster_lt (Nat.two_pow_pos (sbits ls)) (by rw [encode_div hfcap]; exact hgt)
            omega

theorem next_spec :
    ∀ (sh : Shape) (s : St sh), TreeInv sh s → ∀ x, x < scap sh →
      IsNextOf (melem sh s) x (next sh s x) := by
  intro sh
  induction sh with
  | base b =>
    intro s hI x hx
    exact next_base_spec (b := b) hI x
  | comp us ls ihu ihl =>
    intro s hI x hx
    obtain ⟨up, lows, mn, mx⟩ := s
    have hIfull := hI
    simp only [TreeInv] at hI
    obtain ⟨h1, h2, h3, h4, h5, h6⟩ := hI
    have hSM := treeInv_toSM _ _ hIfull
    rw [next_comp_eq]
    by_cases hcase0 : mn = SENTINEL ∨ mx < x
    · rw [if_pos hcase0]
      intro y hy
      rcases hcase0 with hmn | hmx
      · rw [melem_comp]
        simp [hmn]
      · by_cases hmn : mn = SENTINEL
        · rw [melem_comp]
          simp [hmn]
        · obtain ⟨hm1, hm2, hm3, hm4, hm5, hm6⟩ := h6 hmn
          rw [melem_comp]
          simp only [hmn, if_false]
          have hne : (y == mn) = false := by simp; omega
          rw [hne, Bool.false_or]
          rcases hb : subMem ls lows y with _ | _
          · rfl
          · have := hm5 y hb
            omega
    · push_neg at hcase0
      obtain ⟨hmn, hmx2⟩ := hcase0
      obtain ⟨hm1, hm2, hm3, hm4, hm5, hm6⟩ := h6 hmn
      rw [if_neg (by push_neg; exact ⟨hmn, hmx2⟩)]
      by_cases hxmn : x ≤ mn
      · rw [if_pos hxmn]
        refine ⟨hxmn, by simp [melem_comp, hmn], ?_⟩
        intro y hy hS
        rw [melem_comp_iff hmn] at hS
        rcases hS with rfl | hS
        · exact le_refl _
        · exact Nat.le_of_lt (hm2 y hS)
      · rw [if_neg hxmn]
        push_neg at hxmn
        have hxcap : x < scap us * 2 ^ sbits ls := by
          show x < scap us * 2 ^ sbits ls
          have : x < scap (.comp us ls) := hx
          rw [scap_comp] at this
          exact this
        have hux : x / 2 ^ sbits ls < scap us := div_lt_of_lt_mul hxcap
        have hlen : x / 2 ^ sbits ls < lows.length := by omega
        have hlowI : TreeInv ls (lows.getD (x / 2 ^ sbits ls) (emptySt ls)) :=
          h3 _ (getD_mem lows (emptySt ls) hlen)
        have hlast := last_spec ls _ hlowI
        have hlx : x % 2 ^ sbits ls < scap ls := Nat.mod_lt _ (Nat.two_pow_pos _)
        rcases hlastv : last ls (lows.getD (x / 2 ^ sbits ls) (emptySt ls)) with _ | l
        case neg.none =>
          rw [hlastv] at hlast

          have hclempty : ∀ z, melem ls (lows.getD (x / 2 ^ sbits ls) (emptySt ls)) z = false := by
            intro z
            rcases hb : melem ls (lows.getD (x / 2 ^ sbits ls) (emptySt ls)) z with _ | _
            · rfl
            · have hzlt := melem_lt ls _ (treeInv_toSM ls _ hlowI) z hb
              have := hlast z (by omega)
              rw [hb] at this
              exact absurd this (by simp)
          have hclmax : ∀ z, melem ls (lows.getD (x / 2 ^ sbits ls) (emptySt ls)) z = true →
              z < x % 2 ^ sbits ls := by
            intro z hz
            rw [hclempty z] at hz
            exact absurd hz (by simp)
          exact next_fallback_spec us ls up lows mn mx x ihu hIfull hmn hx hxmn hmx2 hclmax
        case neg.some =>
          rw [hlastv] at hlast
          obtain ⟨hl1, hl2, hl3⟩ := hlast
          by_cases hlxle : x % 2 ^ sbits ls ≤ l
          · simp only [if_pos hlxle]
            have hnextl := ihl _ hlowI (x % 2 ^ sbits ls) (by omega)
            rcases hnv : next ls (lows.getD (x / 2 ^ sbits ls) (emptySt ls)) (x % 2 ^ sbits ls)
              with _ | v
            · rw [hnv] at hnextl
              have := hnextl l hlxle
              rw [hl2] at this
              exact absurd this (by simp)
            · rw [hnv] at hnextl
              obtain ⟨hv1, hv2, hv3⟩ := hnextl
              simp only [Option.getD_some]
              have hvcap : v < scap ls := melem_lt ls _ (treeInv_toSM ls _ hlowI) v hv2
              have hdx := decomp_eq x (sbits ls)
              refine ⟨by omega, ?_, ?_⟩
              · rw [melem_comp_iff hmn]
                right
                rw [subMem_encode lows hvcap]
                exact hv2
              · intro y hy hS
                have hycap : y < scap (.comp us ls) :=
                  melem_lt _ _ hSM y hS
                rw [melem_comp_iff hmn] at hS
                rcases hS with rfl | hS
                · omega
                · have hdy := decomp_eq y (sbits ls)
                  have hdivle : x / 2 ^ sbits ls ≤ y / 2 ^ sbits ls :=
                    Nat.div_le_div_right hy
                  by_cases huy : y / 2 ^ sbits ls = x / 2 ^ sbits ls
                  · have hmem : melem ls (lows.getD (x / 2 ^ sbits ls) (emptySt ls))
                        (y % 2 ^ sbits ls) = true := by
                      rw [subMem_decomp, huy] at hS
                      exact hS
                    have hlyx : x % 2 ^ sbits ls ≤ y % 2 ^ sbits ls :=
                      (same_cluster_le huy.symm).1 hy
                    have hvle := hv3 _ hlyx hmem
                    rw [huy] at hdy
                    omega
                  · have hgt : x / 2 ^ sbits ls < y / 2 ^ sbits ls := by omega
                    have : x / 2 ^ sbits ls * 2 ^ sbits ls + v < y :=
                      cluster_lt (Nat.two_pow_pos (sbits ls))
                        (by rw [encode_div hvcap]; exact hgt)
                    omega
          · simp only [if_neg hlxle]
            have hclmax : ∀ z, melem ls (lows.getD (x / 2 ^ sbits ls) (emptySt ls)) z = true →
                z < x % 2 ^ sbits ls := by
              intro z hz
              have hzlt := melem_lt ls _ (treeInv_toSM ls _ hlowI) z hz
              have := hl3 z (by omega) hz
              omega
            exact next_fallback_spec us ls up lows mn mx x ihu hIfull hmn hx hxmn hmx2 hclmax
theorem prev_comp_eq (us ls : Shape) (up : St us) (lows : List (St ls)) (mn mx x : Nat) :
    prev (.comp us ls) ⟨up, lows, mn, mx⟩ x =
      if mn = SENTINEL ∨ x < mn then none
      else
        match first ls (lows.getD (x / 2 ^ sbits ls) (emptySt ls)) with
        | some f =>
          if f ≤ x % 2 ^ sbits ls then
            some (x / 2 ^ sbits ls * 2 ^ sbits ls
              + (prev ls (lows.getD (x / 2 ^ sbits ls) (emptySt ls)) (x % 2 ^ sbits ls)).getD 0)
          else
            if 0 < x / 2 ^ sbits ls then
              match prev us up (x / 2 ^ sbits ls - 1) with
              | some ux2 =>
                some (ux2 * 2 ^ sbits ls + (last ls (lows.getD ux2 (emptySt ls))).getD 0)
              | none => some mn
            else some mn
        | none =>
          if 0 < x / 2 ^ sbits ls then
            match prev us up (x / 2 ^ sbits ls - 1) with
            | some ux2 =>
              some (ux2 * 2 ^ sbits ls + (last ls (lows.getD ux2 (emptySt ls))).getD 0)
            | none => some mn
          else some mn := by
  simp only [prev, Nat.shiftRight_eq_div_pow, Nat.shiftLeft_eq,
    show scap ls - 1 = 2 ^ sbits ls - 1 from rfl, Nat.and_pow_two_sub_one_eq_mod]

theorem prev_fallback_spec (us ls : Shape) (up : St us) (lows : List (St ls)) (mn mx x : Nat)
    (ihu : ∀ (s2 : St us), TreeInvSM us s2 → ∀ z, z < scap us →
      IsPrevOf (melem us s2) z (prev us s2 z))
    (hISM : TreeInvSM (.comp us ls) ⟨up, lows, mn, mx⟩)
    (hmn : mn ≠ SENTINEL)
    (hx : x < scap (.comp us ls)) (hmnx : mn ≤ x)
    (hclge : ∀ z, melem ls (lows.getD (x / 2 ^ sbits ls) (emptySt ls)) z = true →
      x % 2 ^ sbits ls < z) :
    IsPrevOf (melem (.comp us ls) ⟨up, lows, mn, mx⟩) x
      (if 0 < x / 2 ^ sbits ls then
        match prev us up (x / 2 ^ sbits ls - 1) with
        | some ux2 =>
          some (ux2 * 2 ^ sbits ls + (last ls (lows.getD ux2 (emptySt ls))).getD 0)
        | none => some mn
      else some mn) := by
  have hI := hISM
  simp only [TreeInvSM] at hI
  obtain ⟨h1, h2, h3, h4, h5, h6⟩ := hI
  obtain ⟨hm1, hm2⟩ := h6 hmn
  have hxcap : x < scap us * 2 ^ sbits ls := by rw [scap_comp] at hx; exact hx
  have hux : x / 2 ^ sbits ls < scap us := div_lt_of_lt_mul hxcap
  have hdx := decomp_eq x (sbits ls)
  have hxmod : x % 2 ^ sbits ls < 2 ^ sbits ls := Nat.mod_lt _ (Nat.two_pow_pos _)
  have hmnmem : melem (.comp us ls) ⟨up, lows, mn, mx⟩ mn = true := by
    rw [melem_comp_iff hmn]; left; rfl
  have hsub_not_cluster : ∀ y, y ≤ x → subMem ls lows y = true →
      y / 2 ^ sbits ls < x / 2 ^ sbits ls := by
    intro y hy hS
    have hdyle : y / 2 ^ sbits ls ≤ x / 2 ^ sbits ls := Nat.div_le_div_right hy
    rcases Nat.lt_or_ge (y / 2 ^ sbits ls) (x / 2 ^ sbits ls) with h | h
    · exact h
    · exfalso
      have he : y / 2 ^ sbits ls = x / 2 ^ sbits ls := by omega
      rw [subMem_decomp, he] at hS
      have := hclge _ hS
      have : y % 2 ^ sbits ls ≤ x % 2 ^ sbits ls := (same_cluster_le he).1 hy
      omega
  by_cases hux0 : 0 < x / 2 ^ sbits ls
  · rw [if_pos hux0]
    have hpu := ihu up (treeInv_toSM us up h1) (x / 2 ^ sbits ls - 1) (by omega)
    rcases hpv : prev us up (x / 2 ^ sbits ls - 1) with _ | u2
    · rw [hpv] at hpu
      refine ⟨hmnx, hmnmem, ?_⟩
      intro y hy hS
      rw [melem_comp_iff hmn] at hS
      rcases hS with rfl | hS
      · exact le_refl _
      · exfalso
        have huy := hsub_not_cluster y hy hS
        have huycap : y / 2 ^ sbits ls < scap us := by omega
        have huymem : melem us up (y / 2 ^ sbits ls) = true := by
          apply (h4 _ huycap).2
          rw [subMem_decomp] at hS
          exact ⟨y % 2 ^ sbits ls, hS⟩
        have := hpu (y / 2 ^ sbits ls) (by omega)
        rw [huymem] at this
        exact absurd this (by simp)
    · rw [hpv] at hpu
      show IsPrevOf (melem (.comp us ls) ⟨up, lows, mn, mx⟩) x
        (some (u2 * 2 ^ sbits ls + (last ls (lows.getD u2 (emptySt ls))).getD 0))
      obtain ⟨hu1, hu2, hu3⟩ := hpu
      have hu2cap : u2 < scap us := melem_lt us up (treeInv_toSM us up h1) u2 hu2
      have hu2len : u2 < lows.length := by omega
      obtain ⟨z0, hz0⟩ := (h4 u2 hu2cap).1 hu2
      have hclI2 : TreeInv ls (lows.getD u2 (emptySt ls)) := h3 _ (getD_mem lows _ hu2len)
      have hls := last_spec ls _ hclI2
      rcases hlv : last ls (lows.getD u2 (emptySt ls)) with _ | l2
      · rw [hlv] at hls
        have hz0cap : z0 < scap ls := melem_lt ls _ (treeInv_toSM ls _ hclI2) z0 hz0
        have := hls z0 (by omega)
        rw [hz0] at this
        exact absurd this (by simp)
      · rw [hlv] at hls
        obtain ⟨hl1, hl2, hl3⟩ := hls
        simp only [Option.getD_some]
        have hl2cap : l2 < scap ls := melem_lt ls _ (treeInv_toSM ls _ hclI2) l2 hl2
        have hl2cap2 : l2 < 2 ^ sbits ls := hl2cap
        refine ⟨?_, ?_, ?_⟩
        · have hlt : u2 * 2 ^ sbits ls + l2 < (u2 + 1) * 2 ^ sbits ls := by
            have he : (u2 + 1) * 2 ^ sbits ls = u2 * 2 ^ sbits ls + 2 ^ sbits ls := by ring
            omega
          have hle : (u2 + 1) * 2 ^ sbits ls ≤ x / 2 ^ sbits ls * 2 ^ sbits ls :=
            Nat.mul_le_mul_right _ (by omega)
          omega
        · rw [melem_comp_iff hmn]
          right
          rw [subMem_encode lows hl2cap]
          exact hl2
        · intro y hy hS
          rw [melem_comp_iff hmn] at hS
          rcases hS with rfl | hS
          · have : subMem ls lows (u2 * 2 ^ sbits ls + l2) = true := by
              rw [subMem_encode lows hl2cap]; exact hl2
            exact Nat.le_of_lt (hm2 _ this)
          · have huy := hsub_not_cluster y hy hS
            have huycap : y / 2 ^ sbits ls < scap us := by omega
            have huymem : melem us up (y / 2 ^ sbits ls) = true := by
              apply (h4 _ huycap).2
              rw [subMem_decomp] at hS
              exact ⟨y % 2 ^ sbits ls, hS⟩
            have hyle2 := hu3 (y / 2 ^ sbits ls) (by omega) huymem
            have hdy := decomp_eq y (sbits ls)
            by_cases heq : y / 2 ^ sbits ls = u2
            · rw [subMem_decomp, heq] at hS
              have hylecap : y % 2 ^ sbits ls < scap ls :=
                melem_lt ls _ (treeInv_toSM ls _ hclI2) _ hS
              have := hl3 _ (by omega) hS
              rw [heq] at hdy
              omega
            · have hgt : y / 2 ^ sbits ls < u2 := by omega
              have : y < u2 * 2 ^ sbits ls + l2 := by
                have h9 : (y / 2 ^ sbits ls + 1) * 2 ^ sbits ls ≤ u2 * 2 ^ sbits ls :=
                  Nat.mul_le_mul_right _ (by omega)
                have he : (y / 2 ^ sbits ls + 1) * 2 ^ sbits ls
                    = y / 2 ^ sbits ls * 2 ^ sbits ls + 2 ^ sbits ls := by ring
                omega
              omega
  · rw [if_neg hux0]
    refine ⟨hmnx, hmnmem, ?_⟩
    intro y hy hS
    rw [melem_comp_iff hmn] at hS
    rcases hS with rfl | hS
    · exact le_refl _
    · exfalso
      have huy := hsub_not_cluster y hy hS
      have h0 : x / 2 ^ sbits ls = 0 := Nat.le_zero.mp (Nat.le_of_not_lt hux0)
      rw [h0] at huy
      exact absurd huy (Nat.not_lt_zero _)

theorem prev_spec :
    ∀ (sh : Shape) (s : St sh), TreeInvSM sh s → ∀ x, x < scap sh →
      IsPrevOf (melem sh s) x (prev sh s x) := by
  intro sh
  induction sh with
  | base b =>
    intro s hI x hx
    exact prev_base_spec (b := b) hI hx
  | comp us ls ihu ihl =>
    intro s hI x hx
    obtain ⟨up, lows, mn, mx⟩ := s
    have hISM := hI
    simp only [TreeInvSM] at hI
    obtain ⟨h1, h2, h3, h4, h5, h6⟩ := hI
    rw [prev_comp_eq]
    by_cases hcase0 : mn = SENTINEL ∨ x < mn
    · rw [if_pos hcase0]
      intro y hy
      rcases hcase0 with hmn | hmx
      · rw [melem_comp]
        simp [hmn]
      · by_cases hmn : mn = SENTINEL
        · rw [melem_comp]
          simp [hmn]
        · obtain ⟨hm1, hm2⟩ := h6 hmn
          rw [melem_comp]
          simp only [hmn, if_false]
          have hne : (y == mn) = false := by simp; omega
          rw [hne, Bool.false_or]
          rcases hb : subMem ls lows y with _ | _
          · rfl
          · have := hm2 y hb
            omega
    · push_neg at hcase0
      obtain ⟨hmn, hmnx⟩ := hcase0
      obtain ⟨hm1, hm2⟩ := h6 hmn
      rw [if_neg (by push_neg; exact ⟨hmn, hmnx⟩)]
      have hxcap : x < scap us * 2 ^ sbits ls := by rw [scap_comp] at hx; exact hx
      have hux : x / 2 ^ sbits ls < scap us := div_lt_of_lt_mul hxcap
      have hlen : x / 2 ^ sbits ls < lows.length := by omega
      have hlowI : TreeInv ls (lows.getD (x / 2 ^ sbits ls) (emptySt ls)) :=
        h3 _ (getD_mem lows (emptySt ls) hlen)
      have hfs := first_spec ls _ (treeInv_toSM ls _ hlowI)
      have hlx : x % 2 ^ sbits ls < scap ls := Nat.mod_lt _ (Nat.two_pow_pos _)
      rcases hfv : first ls (lows.getD (x / 2 ^ sbits ls) (emptySt ls)) with _ | f
      · rw [hfv] at hfs
        have hclge : ∀ z, melem ls (lows.getD (x / 2 ^ sbits ls) (emptySt ls)) z = true →
            x % 2 ^ sbits ls < z := by
          intro z hz
          have := hfs z (Nat.zero_le _)
          rw [hz] at this
          exact absurd this (by simp)
        exact prev_fallback_spec us ls up lows mn mx x ihu hISM hmn hx hmnx hclge
      · rw [hfv] at hfs
        obtain ⟨hf1, hf2, hf3⟩ := hfs
        by_cases hfle : f ≤ x % 2 ^ sbits ls
        · simp only [if_pos hfle]
          have hprevl := ihl _ (treeInv_toSM ls _ hlowI) (x % 2 ^ sbits ls) (by omega)
          rcases hpv : prev ls (lows.getD (x / 2 ^ sbits ls) (emptySt ls)) (x % 2 ^ sbits ls)
            with _ | v
          · rw [hpv] at hprevl
            have := hprevl f hfle
            rw [hf2] at this
            exact absurd this (by simp)
          · rw [hpv] at hprevl
            obtain ⟨hv1, hv2, hv3⟩ := hprevl
            simp only [Option.getD_some]
            have hvcap : v < scap ls := melem_lt ls _ (treeInv_toSM ls _ hlowI) v hv2
            have hdx := decomp_eq x (sbits ls)
            refine ⟨by omega, ?_, ?_⟩
            · rw [melem_comp_iff hmn]
              right
              rw [subMem_encode lows hvcap]
              exact hv2
            · intro y hy hS
              rw [melem_comp_iff hmn] at hS
              rcases hS with rfl | hS
              · have : subMem ls lows (x / 2 ^ sbits ls * 2 ^ sbits ls + v) = true := by
                  rw [subMem_encode lows hvcap]; exact hv2
                exact Nat.le_of_lt (hm2 _ this)
              · have hdy := decomp_eq y (sbits ls)
                have hdyle : y / 2 ^ sbits ls ≤ x / 2 ^ sbits ls := Nat.div_le_div_right hy
                by_cases huy : y / 2 ^ sbits ls = x / 2 ^ sbits ls
                · have hmem : melem ls (lows.getD (x / 2 ^ sbits ls) (emptySt ls))
                      (y % 2 ^ sbits ls) = true := by
                    rw [subMem_decomp, huy] at hS
                    exact hS
                  have hlyx : y % 2 ^ sbits ls ≤ x % 2 ^ sbits ls :=
                    (same_cluster_le huy).1 hy
                  have hvle := hv3 _ hlyx hmem
                  rw [huy] at hdy
                  omega
                · have hgt : y / 2 ^ sbits ls < x / 2 ^ sbits ls := by omega
                  have hlt2 : y < x / 2 ^ sbits ls * 2 ^ sbits ls + v :=
                    cluster_lt (Nat.two_pow_pos (sbits ls))
                      (by rw [encode_div hvcap]; exact hgt)
                  omega
        · simp only [if_neg hfle]
          have hclge : ∀ z, melem ls (lows.getD (x / 2 ^ sbits ls) (emptySt ls)) z = true →
              x % 2 ^ sbits ls < z := by
            intro z hz
            have := hf3 z (Nat.zero_le _) hz
            omega
          exact prev_fallback_spec us ls up lows mn mx x ihu hISM hmn hx hmnx hclge
theorem subMem_all_false {ls : Shape} {lows : List (St ls)}
    (h : ∀ l ∈ lows, ∀ z, melem ls l z = false) : ∀ y, subMem ls lows y = false := by
  intro y
  rw [subMem]
  by_cases hlt : y / 2 ^ sbits ls < lows.length
  · exact h _ (getD_mem lows _ hlt) _
  · rw [getD_default lows _ (by omega)]
    exact melem_emptySt ls _

theorem subMem_set {ls : Shape} (lows : List (St ls)) (nl : St ls) {u : Nat}
    (hu : u < lows.length) (y : Nat) :
    subMem ls (lows.set u nl) y =
      if y / 2 ^ sbits ls = u then melem ls nl (y % 2 ^ sbits ls) else subMem ls lows y := by
  rw [subMem, subMem]
  by_cases he : y / 2 ^ sbits ls = u
  · rw [if_pos he, he, getD_set_self lows nl _ hu]
  · rw [if_neg he, getD_set_ne lows nl _ (Ne.symm he)]

theorem encode_eq_iff {lb y u l : Nat} (hl : l < 2 ^ lb) :
    y = u * 2 ^ lb + l ↔ (y / 2 ^ lb = u ∧ y % 2 ^ lb = l) := by
  constructor
  · rintro rfl
    exact ⟨encode_div hl, encode_mod hl⟩
  · rintro ⟨h1, h2⟩
    rw [← h1, ← h2]
    exact (decomp_eq y lb).symm

theorem cluster_nonempty_of_not_isEmpty {ls : Shape} {low : St ls}
    (hI : TreeInvSM ls low) (h : isEmpty ls low = false) :
    ∃ z, melem ls low z = true := by
  by_contra hc
  push_neg at hc
  have hall : ∀ z, melem ls low z = false := by
    intro z
    rcases hb : melem ls low z with _ | _
    · rfl
    · exact absurd hb (hc z)
  have := (isEmpty_iff_no_melem ls low hI).2 hall
  rw [h] at this
  exact absurd this (by simp)

theorem insert_go_spec (us ls : Shape) (up : St us) (lows : List (St ls)) (mn mx x1 mn1 : Nat)
    (ihu : ∀ (s2 : St us), TreeInv us s2 → scap us ≤ SENTINEL → ∀ z, z < scap us →
      TreeInv us (vebInsert us s2 z).2 ∧
      (vebInsert us s2 z).1 = !melem us s2 z ∧
      (∀ y, melem us (vebInsert us s2 z).2 y = (melem us s2 y || (y == z))))
    (ihl : ∀ (s2 : St ls), TreeInv ls s2 → scap ls ≤ SENTINEL → ∀ z, z < scap ls →
      TreeInv ls (vebInsert ls s2 z).2 ∧
      (vebInsert ls s2 z).1 = !melem ls s2 z ∧
      (∀ y, melem ls (vebInsert ls s2 z).2 y = (melem ls s2 y || (y == z))))
    (hIfull : TreeInv (.comp us ls) ⟨up, lows, mn, mx⟩)
    (hS : scap (.comp us ls) ≤ SENTINEL)
    (hmn : mn ≠ SENTINEL)
    (hmn1mn : mn1 ≤ mn) (hmnx1 : mn ≤ x1) (hmn1x1 : mn1 < x1)
    (hx1cap : x1 < scap (.comp us ls)) :
    TreeInv (.comp us ls)
      ⟨(if isEmpty ls (lows.getD (x1 / 2 ^ sbits ls) (emptySt ls))
          then (vebInsert us up (x1 / 2 ^ sbits ls)).2 else up),
        lows.set (x1 / 2 ^ sbits ls)
          (vebInsert ls (lows.getD (x1 / 2 ^ sbits ls) (emptySt ls)) (x1 % 2 ^ sbits ls)).2,
        mn1,
        if mx < x1 then x1 else mx⟩ ∧
    (vebInsert ls (lows.getD (x1 / 2 ^ sbits ls) (emptySt ls)) (x1 % 2 ^ sbits ls)).1
      = !subMem ls lows x1 ∧
    (∀ y, melem (.comp us ls)
        ⟨(if isEmpty ls (lows.getD (x1 / 2 ^ sbits ls) (emptySt ls))
            then (vebInsert us up (x1 / 2 ^ sbits ls)).2 else up),
          lows.set (x1 / 2 ^ sbits ls)
            (vebInsert ls (lows.getD (x1 / 2 ^ sbits ls) (emptySt ls)) (x1 % 2 ^ sbits ls)).2,
          mn1,
          if mx < x1 then x1 else mx⟩ y
      = ((y == mn1) || subMem ls lows y || (y == x1))) := by
  have hI := hIfull
  simp only [TreeInv] at hI
  obtain ⟨h1, h2, h3, h4, h5, h6⟩ := hI
  obtain ⟨hm1, hm2, hm3, hm4, hm5, hm6⟩ := h6 hmn
  have hx1capm : x1 < scap us * 2 ^ sbits ls := by rw [scap_comp] at hx1cap; exact hx1cap
  have hux1 : x1 / 2 ^ sbits ls < scap us := div_lt_of_lt_mul hx1capm
  have hlen1 : x1 / 2 ^ sbits ls < lows.length := by omega
  have hlx1 : x1 % 2 ^ sbits ls < scap ls := Nat.mod_lt _ (Nat.two_pow_pos _)
  have hlowI : TreeInv ls (lows.getD (x1 / 2 ^ sbits ls) (emptySt ls)) :=
    h3 _ (getD_mem lows _ hlen1)
  obtain ⟨rInv, rret, rmel⟩ :=
    ihl _ hlowI (le_trans (scap_ls_le us ls) hS) (x1 % 2 ^ sbits ls) hlx1
  have hmn1SENT : mn1 ≠ SENTINEL := by omega
  have hdx1 := decomp_eq x1 (sbits ls)
  have hup1 : TreeInv us
        (if isEmpty ls (lows.getD (x1 / 2 ^ sbits ls) (emptySt ls))
          then (vebInsert us up (x1 / 2 ^ sbits ls)).2 else up) ∧
      ∀ u, melem us
        (if isEmpty ls (lows.getD (x1 / 2 ^ sbits ls) (emptySt ls))
          then (vebInsert us up (x1 / 2 ^ sbits ls)).2 else up) u
        = (melem us up u || (u == x1 / 2 ^ sbits ls)) := by
    rcases hemp : isEmpty ls (lows.getD (x1 / 2 ^ sbits ls) (emptySt ls)) with _ | _
    · rw [if_neg (by simp)]
      obtain ⟨z, hz⟩ := cluster_nonempty_of_not_isEmpty (treeInv_toSM ls _ hlowI) hemp
      have hmem : melem us up (x1 / 2 ^ sbits ls) = true := (h4 _ hux1).2 ⟨z, hz⟩
      refine ⟨h1, ?_⟩
      intro u
      by_cases hu : u = x1 / 2 ^ sbits ls
      · subst hu
        simp [hmem]
      · simp [hu]
    · rw [if_pos rfl]
      obtain ⟨uInv, -, umel⟩ := ihu up h1 (le_trans (scap_us_le us ls) hS) _ hux1
      exact ⟨uInv, umel⟩
  obtain ⟨hup1I, hup1mel⟩ := hup1
  have hsub1 : ∀ y, subMem ls
      (lows.set (x1 / 2 ^ sbits ls)
        (vebInsert ls (lows.getD (x1 / 2 ^ sbits ls) (emptySt ls)) (x1 % 2 ^ sbits ls)).2) y
      = (subMem ls lows y || (y == x1)) := by
    intro y
    rw [subMem_set lows _ hlen1]
    by_cases he : y / 2 ^ sbits ls = x1 / 2 ^ sbits ls
    · rw [if_pos he, rmel]
      rw [subMem_decomp, he]
      congr 1
      have : (y == x1) = (y % 2 ^ sbits ls == x1 % 2 ^ sbits ls) := by
        rcases hb : (y % 2 ^ sbits ls == x1 % 2 ^ sbits ls) with _ | _
        · simp only [beq_eq_false_iff_ne] at hb
          simp only [beq_eq_false_iff_ne]
          intro hyx
          exact hb (by rw [hyx])
        · simp only [beq_iff_eq] at hb
          simp only [beq_iff_eq]
          have hdy := decomp_eq y (sbits ls)
          rw [he] at hdy
          omega
      rw [this]
    · rw [if_neg he]
      have : (y == x1) = false := by
        simp only [beq_eq_false_iff_ne]
        intro hyx
        exact he (by rw [hyx])
      rw [this, Bool.or_false]
  refine ⟨?_, ?_, ?_⟩
  · simp only [TreeInv]
    refine ⟨hup1I, by simpa using h2, ?_, ?_, ?_, ?_⟩
    · intro l hl
      rcases List.mem_or_eq_of_mem_set hl with hmem | rfl
      · exact h3 _ hmem
      · exact rInv
    · intro u hu
      rw [hup1mel u]
      by_cases he : u = x1 / 2 ^ sbits ls
      · subst he
        constructor
        · rintro -
          refine ⟨x1 % 2 ^ sbits ls, ?_⟩
          rw [getD_set_self lows _ _ hlen1, rmel]
          simp
        · rintro -
          simp
      · rw [getD_set_ne lows _ _ (Ne.symm he)]
        have : (u == x1 / 2 ^ sbits ls) = false := by simp [he]
        rw [this, Bool.or_false]
        exact h4 u hu
    · intro habs
      exact absurd habs hmn1SENT
    · rintro -
      have hscap : mn1 < scap (.comp us ls) := by omega
      refine ⟨hscap, ?_, ?_, ?_, ?_, ?_⟩
      · intro y hy
        rw [hsub1 y] at hy
        simp only [Bool.or_eq_true, beq_iff_eq] at hy
        rcases hy with hy | rfl
        · have := hm2 y hy
          omega
        · exact hmn1x1
      · split <;> omega
      · split <;> omega
      · intro y hy
        rw [hsub1 y] at hy
        simp only [Bool.or_eq_true, beq_iff_eq] at hy
        rcases hy with hy | rfl
        · have := hm5 y hy
          split <;> omega
        · split <;> omega
      · intro hlt
        rw [hsub1]
        by_cases hmxlt : mx < x1
        · rw [if_pos hmxlt] at hlt ⊢
          simp
        · rw [if_neg hmxlt] at hlt ⊢
          by_cases hx1mx : x1 = mx
          · simp [hx1mx]
          · have hmnmx : mn < mx := by omega
            rw [hm6 hmnmx]
            simp
  · rw [rret]
    rfl
  · intro y
    rw [melem_comp, if_neg hmn1SENT, hsub1 y, Bool.or_assoc]
theorem insert_spec :
    ∀ (sh : Shape) (s : St sh), TreeInv sh s → scap sh ≤ SENTINEL → ∀ x, x < scap sh →
      TreeInv sh (vebInsert sh s x).2 ∧
      (vebInsert sh s x).1 = !melem sh s x ∧
      (∀ y, melem sh (vebInsert sh s x).2 y = (melem sh s y || (y == x))) := by
  intro sh
  induction sh with
  | base b =>
    intro w hI hS x hx
    have hxb : x < 2 ^ b := hx
    have hW : (w : Nat) < 2 ^ 2 ^ b := hI
    refine ⟨?_, ?_, ?_⟩
    · show (w ||| (1 <<< x) : Nat) < 2 ^ 2 ^ b
      rw [Nat.one_shiftLeft]
      apply Nat.lt_pow_two_of_testBit
      intro i hi
      rw [Nat.testBit_or]
      have h1 : Nat.testBit w i = false :=
        Nat.testBit_lt_two_pow (lt_of_lt_of_le hW (Nat.pow_le_pow_right (by omega) hi))
      have h2 : Nat.testBit (2 ^ x) i = false := by
        rw [Nat.testBit_two_pow]
        simp
        omega
      rw [h1, h2]
      rfl
    · show (!((w >>> x) &&& 1 != 0)) = !melem (.base b) w x
      rw [bitProj]
      rfl
    · intro y
      show (w ||| (1 <<< x) : Nat).testBit y = (Nat.testBit w y || (y == x))
      rw [Nat.one_shiftLeft, Nat.testBit_or]
      congr 1
      rw [Nat.testBit_two_pow]
      by_cases h : x = y
      · subst h
        simp
      · have h2 : (y == x) = false := by simp [Ne.symm h]
        rw [h2]
        simp [h]
  | comp us ls ihu ihl =>
    intro s hI hS x hx
    obtain ⟨up, lows, mn, mx⟩ := s
    have hIfull := hI
    simp only [TreeInv] at hI
    obtain ⟨h1, h2, h3, h4, h5, h6⟩ := hI
    have hxS : x < SENTINEL := by
      have := scap_pos (.comp us ls)
      omega
    by_cases hmn : mn = SENTINEL
    · subst hmn
      have hsubF := subMem_all_false (h5 rfl)
      have hunf : vebInsert (.comp us ls) ⟨up, lows, SENTINEL, mx⟩ x = (true, ⟨up, lows, x, x⟩) := by
        simp [vebInsert]
      rw [hunf]
      have hxne : x ≠ SENTINEL := by omega
      refine ⟨?_, ?_, ?_⟩
      · simp only [TreeInv]
        refine ⟨h1, h2, h3, h4, fun habs => absurd habs hxne, ?_⟩
        rintro -
        refine ⟨hx, ?_, le_refl x, hx, ?_, ?_⟩
        · intro y hy
          rw [hsubF y] at hy
          exact absurd hy (by simp)
        · intro y hy
          rw [hsubF y] at hy
          exact absurd hy (by simp)
        · intro hlt
          omega
      · rw [melem_comp]
        simp
      · intro y
        rw [melem_comp, melem_comp, if_pos rfl, if_neg hxne, hsubF y]
        simp
    · obtain ⟨hm1, hm2, hm3, hm4, hm5, hm6⟩ := h6 hmn
      by_cases hxmn : x = mn
      · subst hxmn
        have hunf : vebInsert (.comp us ls) ⟨up, lows, x, mx⟩ x = (false, ⟨up, lows, x, mx⟩) := by
          simp [vebInsert, hmn]
        rw [hunf]
        refine ⟨hIfull, ?_, ?_⟩
        · rw [melem_comp, if_neg hmn]
          simp
        · intro y
          rw [melem_comp, if_neg hmn]
          by_cases hy : y = x
          · subst hy
            simp
          · have hyx : (y == x) = false := by simp [hy]
            rw [hyx, Bool.or_false]
      · by_cases hlt : x < mn
        · have hmnltx : ¬(mn = x) := by omega
          have hunf : vebInsert (.comp us ls) ⟨up, lows, mn, mx⟩ x =
              ((vebInsert ls (lows.getD (mn / 2 ^ sbits ls) (emptySt ls)) (mn % 2 ^ sbits ls)).1,
               ⟨if isEmpty ls (lows.getD (mn / 2 ^ sbits ls) (emptySt ls))
                   then (vebInsert us up (mn / 2 ^ sbits ls)).2 else up,
                 lows.set (mn / 2 ^ sbits ls)
                   (vebInsert ls (lows.getD (mn / 2 ^ sbits ls) (emptySt ls)) (mn % 2 ^ sbits ls)).2,
                 x,
                 if mx < mn then mn else mx⟩) := by
            simp only [vebInsert, Nat.shiftRight_eq_div_pow, Nat.shiftLeft_eq,
              show scap ls - 1 = 2 ^ sbits ls - 1 from rfl, Nat.and_pow_two_sub_one_eq_mod,
              if_neg hmn, if_pos hlt, if_neg hmnltx]
          obtain ⟨gInv, gret, gmel⟩ :=
            insert_go_spec us ls up lows mn mx mn x ihu ihl hIfull hS hmn (by omega)
              (le_refl mn) hlt hm1
          rw [hunf]
          refine ⟨gInv, ?_, ?_⟩
          · rw [gret, melem_comp, if_neg hmn]
            have hyx : (x == mn) = false := by simp [hxmn]
            rw [hyx, Bool.false_or]
            have hsx : subMem ls lows x = false := by
              rcases hb : subMem ls lows x with _ | _
              · rfl
              · have := hm2 x hb
                omega
            have hsmn : subMem ls lows mn = false := by
              rcases hb : subMem ls lows mn with _ | _
              · rfl
              · have := hm2 mn hb
                omega
            rw [hsx, hsmn]
          · intro y
            rw [gmel y, melem_comp, if_neg hmn]
            cases (y == x) <;> cases (y == mn) <;> cases subMem ls lows y <;> rfl
        · have hgt : mn < x := by omega
          have hunf : vebInsert (.comp us ls) ⟨up, lows, mn, mx⟩ x =
              ((vebInsert ls (lows.getD (x / 2 ^ sbits ls) (emptySt ls)) (x % 2 ^ sbits ls)).1,
               ⟨if isEmpty ls (lows.getD (x / 2 ^ sbits ls) (emptySt ls))
                   then (vebInsert us up (x / 2 ^ sbits ls)).2 else up,
                 lows.set (x / 2 ^ sbits ls)
                   (vebInsert ls (lows.getD (x / 2 ^ sbits ls) (emptySt ls)) (x % 2 ^ sbits ls)).2,
                 mn,
                 if mx < x then x else mx⟩) := by
            simp only [vebInsert, Nat.shiftRight_eq_div_pow, Nat.shiftLeft_eq,
              show scap ls - 1 = 2 ^ sbits ls - 1 from rfl, Nat.and_pow_two_sub_one_eq_mod,
              if_neg hmn, if_neg hlt, if_neg hxmn]
          obtain ⟨gInv, gret, gmel⟩ :=
            insert_go_spec us ls up lows mn mx x mn ihu ihl hIfull hS hmn (le_refl mn)
              (by omega) hgt hx
          rw [hunf]
          refine ⟨gInv, ?_, ?_⟩
          · rw [gret, melem_comp, if_neg hmn]
            have hyx : (x == mn) = false := by simp [hxmn]
            rw [hyx, Bool.false_or]
          · intro y
            rw [gmel y, melem_comp, if_neg hmn]
theorem remove_base_char (b w x j : Nat) (hw : w < 2 ^ 2 ^ b) (hx : x < 2 ^ b) :
    (w &&& ((2 ^ scap (.base b) - 1) ^^^ (1 <<< x))).testBit j
      = (w.testBit j && !(j == x)) := by
  have hW : scap (.base b) = 2 ^ b := rfl
  rw [Nat.one_shiftLeft, Nat.testBit_and, Nat.testBit_xor, hW,
    Nat.testBit_two_pow_sub_one, Nat.testBit_two_pow]
  by_cases hjW : j < 2 ^ b
  · by_cases hjx : x = j
    · subst hjx
      simp [hjW]
    · have : (j == x) = false := by simp [Ne.symm hjx]
      simp [hjW, hjx, this]
  · have h0 : w.testBit j = false :=
      Nat.testBit_lt_two_pow (lt_of_lt_of_le hw (Nat.pow_le_pow_right (by omega) (by omega)))
    simp [h0]

theorem clusters_empty_of_subMem_false {ls : Shape} {lows : List (St ls)}
    (hInv : ∀ l ∈ lows, TreeInv ls l)
    (hsub : ∀ y, subMem ls lows y = false) :
    ∀ l ∈ lows, ∀ z, melem ls l z = false := by
  intro l hl z
  rcases hb : melem ls l z with _ | _
  · rfl
  · exfalso
    obtain ⟨u, hu, he⟩ := List.getElem_of_mem hl
    have hzcap : z < scap ls := melem_lt ls _ (treeInv_toSM ls _ (hInv _ hl)) z hb
    have hmem : subMem ls lows (u * 2 ^ sbits ls + z) = true := by
      rw [subMem_encode lows hzcap, getD_eq_getElem lows _ hu, he]
      exact hb
    rw [hsub] at hmem
    exact absurd hmem (by simp)

theorem singleton_sub_empty {us ls : Shape} {up : St us} {lows : List (St ls)} {mn mx : Nat}
    (hIfull : TreeInv (.comp us ls) ⟨up, lows, mn, mx⟩)
    (hmn : mn ≠ SENTINEL) (hmnmx : mn = mx) :
    ∀ y, subMem ls lows y = false := by
  have hI := hIfull
  simp only [TreeInv] at hI
  obtain ⟨h1, h2, h3, h4, h5, h6⟩ := hI
  obtain ⟨hm1, hm2, hm3, hm4, hm5, hm6⟩ := h6 hmn
  intro y
  rcases hb : subMem ls lows y with _ | _
  · rfl
  · have := hm2 y hb
    have := hm5 y hb
    omega

theorem remove_go_spec (us ls : Shape) (up : St us) (lows : List (St ls)) (mn mx x1 : Nat)
    (ihu : ∀ (s2 : St us), TreeInv us s2 → scap us ≤ SENTINEL → ∀ z, z < scap us →
      TreeInv us (remove us s2 z).2 ∧
      (remove us s2 z).1 = melem us s2 z ∧
      (∀ y, melem us (remove us s2 z).2 y = (melem us s2 y && !(y == z))))
    (ihl : ∀ (s2 : St ls), TreeInv ls s2 → scap ls ≤ SENTINEL → ∀ z, z < scap ls →
      TreeInv ls (remove ls s2 z).2 ∧
      (remove ls s2 z).1 = melem ls s2 z ∧
      (∀ y, melem ls (remove ls s2 z).2 y = (melem ls s2 y && !(y == z))))
    (hIfull : TreeInv (.comp us ls) ⟨up, lows, mn, mx⟩)
    (hS : scap (.comp us ls) ≤ SENTINEL)
    (hx1cap : x1 < scap (.comp us ls)) :
    (remove ls (lows.getD (x1 / 2 ^ sbits ls) (emptySt ls)) (x1 % 2 ^ sbits ls)).1
      = subMem ls lows x1 ∧
    (∀ y, subMem ls
        (lows.set (x1 / 2 ^ sbits ls)
          (remove ls (lows.getD (x1 / 2 ^ sbits ls) (emptySt ls)) (x1 % 2 ^ sbits ls)).2) y
      = (subMem ls lows y && !(y == x1))) ∧
    TreeInv us
      (if isEmpty ls (remove ls (lows.getD (x1 / 2 ^ sbits ls) (emptySt ls))
            (x1 % 2 ^ sbits ls)).2
        then (remove us up (x1 / 2 ^ sbits ls)).2 else up) ∧
    UpperTracks us ls
      (if isEmpty ls (remove ls (lows.getD (x1 / 2 ^ sbits ls) (emptySt ls))
            (x1 % 2 ^ sbits ls)).2
        then (remove us up (x1 / 2 ^ sbits ls)).2 else up)
      (lows.set (x1 / 2 ^ sbits ls)
        (remove ls (lows.getD (x1 / 2 ^ sbits ls) (emptySt ls)) (x1 % 2 ^ sbits ls)).2) ∧
    (∀ l ∈ lows.set (x1 / 2 ^ sbits ls)
        (remove ls (lows.getD (x1 / 2 ^ sbits ls) (emptySt ls)) (x1 % 2 ^ sbits ls)).2,
      TreeInv ls l) := by
  have hI := hIfull
  simp only [TreeInv] at hI
  obtain ⟨h1, h2, h3, h4, h5, h6⟩ := hI
  have hx1capm : x1 < scap us * 2 ^ sbits ls := by rw [scap_comp] at hx1cap; exact hx1cap
  have hux1 : x1 / 2 ^ sbits ls < scap us := div_lt_of_lt_mul hx1capm
  have hlen1 : x1 / 2 ^ sbits ls < lows.length := by omega
  have hlx1 : x1 % 2 ^ sbits ls < scap ls := Nat.mod_lt _ (Nat.two_pow_pos _)
  have hlowI : TreeInv ls (lows.getD (x1 / 2 ^ sbits ls) (emptySt ls)) :=
    h3 _ (getD_mem lows _ hlen1)
  obtain ⟨rInv, rret, rmel⟩ :=
    ihl _ hlowI (le_trans (scap_ls_le us ls) hS) (x1 % 2 ^ sbits ls) hlx1
  have hsub1 : ∀ y, subMem ls
      (lows.set (x1 / 2 ^ sbits ls)
        (remove ls (lows.getD (x1 / 2 ^ sbits ls) (emptySt ls)) (x1 % 2 ^ sbits ls)).2) y
      = (subMem ls lows y && !(y == x1)) := by
    intro y
    rw [subMem_set lows _ hlen1]
    by_cases he : y / 2 ^ sbits ls = x1 / 2 ^ sbits ls
    · rw [if_pos he, rmel]
      rw [subMem_decomp, he]
      congr 1
      have : (y == x1) = (y % 2 ^ sbits ls == x1 % 2 ^ sbits ls) := by
        rcases hb : (y % 2 ^ sbits ls == x1 % 2 ^ sbits ls) with _ | _
        · simp only [beq_eq_false_iff_ne] at hb
          simp only [beq_eq_false_iff_ne]
          intro hyx
          exact hb (by rw [hyx])
        · simp only [beq_iff_eq] at hb
          simp only [beq_iff_eq]
          have hdy := decomp_eq y (sbits ls)
          have hdx1 := decomp_eq x1 (sbits ls)
          rw [he] at hdy
          omega
      rw [this]
    · rw [if_neg he]
      have : (y == x1) = false := by
        simp only [beq_eq_false_iff_ne]
        intro hyx
        exact he (by rw [hyx])
      rw [this]
      simp
  refine ⟨by rw [rret]; rfl, hsub1, ?_, ?_, ?_⟩
  · rcases hemp : isEmpty ls (remove ls (lows.getD (x1 / 2 ^ sbits ls) (emptySt ls))
        (x1 % 2 ^ sbits ls)).2 with _ | _
    · rw [if_neg (by simp)]
      exact h1
    · rw [if_pos rfl]
      exact (ihu up h1 (le_trans (scap_us_le us ls) hS) _ hux1).1
  · intro u hu
    have hup1mel : melem us
        (if isEmpty ls (remove ls (lows.getD (x1 / 2 ^ sbits ls) (emptySt ls))
              (x1 % 2 ^ sbits ls)).2
          then (remove us up (x1 / 2 ^ sbits ls)).2 else up) u
        = (if isEmpty ls (remove ls (lows.getD (x1 / 2 ^ sbits ls) (emptySt ls))
              (x1 % 2 ^ sbits ls)).2 = true
          then (melem us up u && !(u == x1 / 2 ^ sbits ls)) else melem us up u) := by
      rcases hemp : isEmpty ls (remove ls (lows.getD (x1 / 2 ^ sbits ls) (emptySt ls))
          (x1 % 2 ^ sbits ls)).2 with _ | _
      · rw [if_neg (by simp), if_neg (by simp)]
      · rw [if_pos rfl, if_pos rfl]
        exact (ihu up h1 (le_trans (scap_us_le us ls) hS) _ hux1).2.2 u
    rw [hup1mel]
    by_cases he : u = x1 / 2 ^ sbits ls
    · subst he
      rw [getD_set_self lows _ _ hlen1]
      rcases hemp : isEmpty ls (remove ls (lows.getD (x1 / 2 ^ sbits ls) (emptySt ls))
          (x1 % 2 ^ sbits ls)).2 with _ | _
      · rw [if_neg (by simp)]
        constructor
        · intro hmem
          exact cluster_nonempty_of_not_isEmpty (treeInv_toSM ls _ rInv) hemp
        · intro hex
          apply (h4 _ hu).2
          obtain ⟨z, hz⟩ := hex
          rw [rmel z] at hz
          simp only [Bool.and_eq_true] at hz
          exact ⟨z, hz.1⟩
      · rw [if_pos rfl]
        constructor
        · intro hmem
          simp only [Bool.and_eq_true] at hmem
          exact absurd hmem.2 (by simp)
        · intro hex
          exfalso
          obtain ⟨z, hz⟩ := hex
          have hall := (isEmpty_iff_no_melem ls _ (treeInv_toSM ls _ rInv)).1 hemp
          rw [hall z] at hz
          exact absurd hz (by simp)
    · rw [getD_set_ne lows _ _ (Ne.symm he)]
      have hne : (u == x1 / 2 ^ sbits ls) = false := by simp [he]
      have : (if isEmpty ls (remove ls (lows.getD (x1 / 2 ^ sbits ls) (emptySt ls))
            (x1 % 2 ^ sbits ls)).2 = true
          then (melem us up u && !(u == x1 / 2 ^ sbits ls)) else melem us up u)
          = melem us up u := by
        rw [hne]
        simp
      rw [this]
      exact h4 u hu
  · intro l hl
    rcases List.mem_or_eq_of_mem_set hl with hmem | rfl
    · exact h3 _ hmem
    · exact rInv

/-- `remove` preserves the invariant, returns whether the element was
present, and deletes exactly the requested element (`outer.rs` lines
155-188, `small_set.rs` lines 98-102). -/
theorem remove_spec :
    ∀ (sh : Shape) (s : St sh), TreeInv sh s → scap sh ≤ SENTINEL → ∀ x, x < scap sh →
      TreeInv sh (remove sh s x).2 ∧
      (remove sh s x).1 = melem sh s x ∧
      (∀ y, melem sh (remove sh s x).2 y = (melem sh s y && !(y == x))) := by
  intro sh
  induction sh with
  | base b =>
    intro w hI hS x hx
    have hxb : x < 2 ^ b := hx
    have hW : (w : Nat) < 2 ^ 2 ^ b := hI
    have hchar := fun j => remove_base_char b w x j hW hxb
    refine ⟨?_, ?_, ?_⟩
    · show (w &&& ((2 ^ scap (.base b) - 1) ^^^ (1 <<< x)) : Nat) < 2 ^ 2 ^ b
      apply Nat.lt_pow_two_of_testBit
      intro i hi
      rw [hchar i]
      have h1 : Nat.testBit w i = false :=
        Nat.testBit_lt_two_pow (lt_of_lt_of_le hW (Nat.pow_le_pow_right (by omega) hi))
      rw [h1]
      rfl
    · show ((w >>> x) &&& 1 != 0) = melem (.base b) w x
      rw [bitProj]
      rfl
    · intro y
      exact hchar y
  | comp us ls ihu ihl =>
    intro s hI hS x hx
    obtain ⟨up, lows, mn, mx⟩ := s
    have hIfull := hI
    simp only [TreeInv] at hI
    obtain ⟨h1, h2, h3, h4, h5, h6⟩ := hI
    have hxS : x < SENTINEL := by
      have := scap_pos (.comp us ls)
      omega
    by_cases hmm : mn = mx
    · by_cases hxmn : x = mn
      · have hmnne : mn ≠ SENTINEL := by omega
        have hunf : remove (.comp us ls) ⟨up, lows, mn, mx⟩ x = (true, ⟨up, lows, SENTINEL, 0⟩) := by
          simp only [remove]
          rw [if_pos hmm, if_pos hxmn]
        have hsubF := singleton_sub_empty hIfull hmnne hmm
        have hclempty := clusters_empty_of_subMem_false h3 hsubF
        rw [hunf]
        refine ⟨?_, ?_, ?_⟩
        · simp only [TreeInv]
          exact ⟨h1, h2, h3, h4, fun _ => hclempty, fun habs => absurd rfl habs⟩
        · rw [melem_comp, if_neg hmnne]
          have he : (x == mn) = true := by simp [hxmn]
          rw [he]
          simp
        · intro y
          rw [melem_comp, melem_comp, if_pos rfl, if_neg hmnne, hsubF y]
          by_cases hy : y = mn
          · have e1 : (y == mn) = true := by simp [hy]
            have e2 : (y == x) = true := by simp [hy, hxmn]
            rw [e1, e2]
            rfl
          · have e1 : (y == mn) = false := by simp [hy]
            rw [e1]
            rfl
      · have hunf : remove (.comp us ls) ⟨up, lows, mn, mx⟩ x = (false, ⟨up, lows, mn, mx⟩) := by
          simp only [remove]
          rw [if_pos hmm, if_neg hxmn]
        rw [hunf]
        have hmelx : melem (.comp us ls) ⟨up, lows, mn, mx⟩ x = false := by
          rw [melem_comp]
          by_cases hmn : mn = SENTINEL
          · rw [if_pos hmn]
          · rw [if_neg hmn]
            have e1 : (x == mn) = false := by simp [hxmn]
            rw [e1, Bool.false_or]
            exact singleton_sub_empty hIfull hmn hmm x
        refine ⟨hIfull, hmelx ▸ rfl, ?_⟩
        intro y
        by_cases hy : y = x
        · rw [hy, hmelx]
          rfl
        · have e2 : (y == x) = false := by simp [hy]
          rw [e2]
          simp
    · by_cases hmn : mn = SENTINEL
      · have hxmn : ¬ (x = mn) := by omega
        have hclempty := h5 hmn
        have hsubF : ∀ y, subMem ls lows y = false := by
          intro y
          exact subMem_all_false hclempty y
        have hxcapm : x < scap us * 2 ^ sbits ls := by rw [scap_comp] at hx; exact hx
        have hux : x / 2 ^ sbits ls < scap us := div_lt_of_lt_mul hxcapm
        have hlen : x / 2 ^ sbits ls < lows.length := by omega
        have hlowI : TreeInv ls (lows.getD (x / 2 ^ sbits ls) (emptySt ls)) :=
          h3 _ (getD_mem lows _ hlen)
        obtain ⟨rInv, rret, rmel⟩ :=
          ihl _ hlowI (le_trans (scap_ls_le us ls) hS) (x % 2 ^ sbits ls)
            (Nat.mod_lt _ (Nat.two_pow_pos _))
        have hr1 : (remove ls (lows.getD (x / 2 ^ sbits ls) (emptySt ls)) (x % 2 ^ sbits ls)).1
            = false := by
          rw [rret]
          exact hsubF x
        have hr2empty : ∀ z, melem ls
            (remove ls (lows.getD (x / 2 ^ sbits ls) (emptySt ls)) (x % 2 ^ sbits ls)).2 z
            = false := by
          intro z
          rw [rmel z, hclempty _ (getD_mem lows _ hlen) z]
          rfl
        have hunf : remove (.comp us ls) ⟨up, lows, mn, mx⟩ x =
            (false, ⟨up, lows.set (x / 2 ^ sbits ls)
              (remove ls (lows.getD (x / 2 ^ sbits ls) (emptySt ls)) (x % 2 ^ sbits ls)).2,
              mn, mx⟩) := by
          simp only [remove, Nat.shiftRight_eq_div_pow, Nat.shiftLeft_eq,
            show scap ls - 1 = 2 ^ sbits ls - 1 from rfl, Nat.and_pow_two_sub_one_eq_mod,
            if_neg hmm, if_neg hxmn, hr1]
          simp
        rw [hunf]
        have hnewempty : ∀ l ∈ lows.set (x / 2 ^ sbits ls)
            (remove ls (lows.getD (x / 2 ^ sbits ls) (emptySt ls)) (x % 2 ^ sbits ls)).2,
            ∀ z, melem ls l z = false := by
          intro l hl z
          rcases List.mem_or_eq_of_mem_set hl with hmem | rfl
          · exact hclempty _ hmem z
          · exact hr2empty z
        refine ⟨?_, ?_, ?_⟩
        · simp only [TreeInv]
          refine ⟨h1, by simpa using h2, ?_, ?_, fun _ => hnewempty, fun habs => absurd hmn habs⟩
          · intro l hl
            rcases List.mem_or_eq_of_mem_set hl with hmem | rfl
            · exact h3 _ hmem
            · exact rInv
          · intro u hu
            constructor
            · intro hmem
              obtain ⟨z, hz⟩ := (h4 u hu).1 hmem
              rw [hclempty _ (getD_mem lows _ (by omega)) z] at hz
              exact absurd hz (by simp)
            · intro hex
              obtain ⟨z, hz⟩ := hex
              rw [hnewempty _ (getD_mem _ _ (by simp; omega)) z] at hz
              exact absurd hz (by simp)
        · rw [melem_comp, if_pos hmn]
        · intro y
          rw [melem_comp, melem_comp, if_pos hmn, if_pos hmn]
          rfl
      · obtain ⟨hm1, hm2, hm3, hm4, hm5, hm6⟩ := h6 hmn
        have hmnmx : mn < mx := by omega
        have hsubmx := hm6 hmnmx
        by_cases hxmn : x = mn
        · have hnx := next_spec (.comp us ls) ⟨up, lows, mn, mx⟩ hIfull (x + 1) (by omega)
          rcases hnv : next (.comp us ls) ⟨up, lows, mn, mx⟩ (x + 1) with _ | v
          · rw [hnv] at hnx
            exfalso
            have hmxmem : melem (.comp us ls) ⟨up, lows, mn, mx⟩ mx = true := by
              rw [melem_comp_iff hmn]
              right
              exact hsubmx
            have := hnx mx (by omega)
            rw [hmxmem] at this
            exact absurd this (by simp)
          · rw [hnv] at hnx
            obtain ⟨hv1, hv2, hv3⟩ := hnx
            have hvcap : v < scap (.comp us ls) := melem_lt _ _ (treeInv_toSM _ _ hIfull) v hv2
            have hvne : v ≠ mn := by omega
            have hsubv : subMem ls lows v = true := by
              rw [melem_comp_iff hmn] at hv2
              rcases hv2 with h | h
              · exact absurd h hvne
              · exact h
            obtain ⟨gret, gsub1, gupI, gtrack, gcl⟩ :=
              remove_go_spec us ls up lows mn mx v ihu ihl hIfull hS hvcap
            have hr1 : (remove ls (lows.getD (v / 2 ^ sbits ls) (emptySt ls))
                (v % 2 ^ sbits ls)).1 = true := by
              rw [gret]
              exact hsubv
            have hunf : remove (.comp us ls) ⟨up, lows, mn, mx⟩ x =
                (true, ⟨(if isEmpty ls (remove ls (lows.getD (v / 2 ^ sbits ls) (emptySt ls))
                      (v % 2 ^ sbits ls)).2 = true
                    then (remove us up (v / 2 ^ sbits ls)).2 else up),
                  lows.set (v / 2 ^ sbits ls)
                    (remove ls (lows.getD (v / 2 ^ sbits ls) (emptySt ls)) (v % 2 ^ sbits ls)).2,
                  v, mx⟩) := by
              simp only [remove, Nat.shiftRight_eq_div_pow, Nat.shiftLeft_eq,
                show scap ls - 1 = 2 ^ sbits ls - 1 from rfl, Nat.and_pow_two_sub_one_eq_mod,
                if_neg hmm, if_pos hxmn, hnv, Option.getD_some, hr1]
              simp
            rw [hunf]
            have hvSENT : v ≠ SENTINEL := by omega
            refine ⟨?_, ?_, ?_⟩
            · simp only [TreeInv]
              refine ⟨gupI, by simpa using h2, gcl, gtrack, fun habs => absurd habs hvSENT, ?_⟩
              rintro -
              refine ⟨hvcap, ?_, hm5 v hsubv, hm4, ?_, ?_⟩
              · intro y hy
                rw [gsub1 y] at hy
                simp only [Bool.and_eq_true] at hy
                obtain ⟨hy1, hy2⟩ := hy
                have hyne : y ≠ v := by
                  intro he
                  rw [he] at hy2
                  simp at hy2
                have hymel : melem (.comp us ls) ⟨up, lows, mn, mx⟩ y = true := by
                  rw [melem_comp_iff hmn]
                  right
                  exact hy1
                have hygt : mn < y := hm2 y hy1
                have := hv3 y (by omega) hymel
                omega
              · intro y hy
                rw [gsub1 y] at hy
                simp only [Bool.and_eq_true] at hy
                exact hm5 y hy.1
              · intro hvmx
                rw [gsub1 mx, hsubmx]
                have he : (mx == v) = false := by simp; omega
                rw [he]
                rfl
            · rw [melem_comp, if_neg hmn]
              have he : (x == mn) = true := by simp [hxmn]
              rw [he]
              simp
            · intro y
              rw [melem_comp, if_neg hvSENT, gsub1 y, melem_comp, if_neg hmn]
              by_cases hy1 : y = mn
              · have e1 : (y == v) = false := by simp [hy1]; omega
                have e2 : subMem ls lows y = false := by
                  rcases hb : subMem ls lows y with _ | _
                  · rfl
                  · have := hm2 y hb
                    omega
                have e3 : (y == mn) = true := by simp [hy1]
                have e4 : (y == x) = true := by simp [hy1, hxmn]
                rw [e1, e2, e3, e4]
                rfl
              · by_cases hy2 : y = v
                · have e1 : (y == v) = true := by simp [hy2]
                  have e2 : (y == mn) = false := by simp [hy1]
                  have e3 : subMem ls lows y = true := by rw [hy2]; exact hsubv
                  have e4 : (y == x) = false := by simp [hy1, hxmn]
                  rw [e1, e2, e3, e4]
                  rfl
                · have e1 : (y == v) = false := by simp [hy2]
                  have e2 : (y == mn) = false := by simp [hy1]
                  have e4 : (y == x) = false := by simp [hy1, hxmn]
                  rw [e1, e2, e4]
                  cases subMem ls lows y <;> rfl
        · obtain ⟨gret, gsub1, gupI, gtrack, gcl⟩ :=
            remove_go_spec us ls up lows mn mx x ihu ihl hIfull hS hx
          have hmelx : melem (.comp us ls) ⟨up, lows, mn, mx⟩ x = subMem ls lows x := by
            rw [melem_comp, if_neg hmn]
            have e : (x == mn) = false := by simp [hxmn]
            rw [e, Bool.false_or]
          rcases hsx : subMem ls lows x with _ | _
          · have hxcapm : x < scap us * 2 ^ sbits ls := by rw [scap_comp] at hx; exact hx
            have hux : x / 2 ^ sbits ls < scap us := div_lt_of_lt_mul hxcapm
            have hlen : x / 2 ^ sbits ls < lows.length := by omega
            have hlowI : TreeInv ls (lows.getD (x / 2 ^ sbits ls) (emptySt ls)) :=
              h3 _ (getD_mem lows _ hlen)
            obtain ⟨rInv, rret, rmel⟩ :=
              ihl _ hlowI (le_trans (scap_ls_le us ls) hS) (x % 2 ^ sbits ls)
                (Nat.mod_lt _ (Nat.two_pow_pos _))
            have hr1 : (remove ls (lows.getD (x / 2 ^ sbits ls) (emptySt ls))
                (x % 2 ^ sbits ls)).1 = false := by
              rw [gret]
              exact hsx
            have hmelF : melem ls (lows.getD (x / 2 ^ sbits ls) (emptySt ls))
                (x % 2 ^ sbits ls) = false := by
              rw [← rret]
              exact hr1
            have hr2same : ∀ z, melem ls
                (remove ls (lows.getD (x / 2 ^ sbits ls) (emptySt ls)) (x % 2 ^ sbits ls)).2 z
                = melem ls (lows.getD (x / 2 ^ sbits ls) (emptySt ls)) z := by
              intro z
              rw [rmel z]
              by_cases hz : z = x % 2 ^ sbits ls
              · rw [hz, hmelF]
                rfl
              · have e : (z == x % 2 ^ sbits ls) = false := by simp [hz]
                rw [e]
                simp
            have hunf : remove (.comp us ls) ⟨up, lows, mn, mx⟩ x =
                (false, ⟨up, lows.set (x / 2 ^ sbits ls)
                  (remove ls (lows.getD (x / 2 ^ sbits ls) (emptySt ls)) (x % 2 ^ sbits ls)).2,
                  mn, mx⟩) := by
              simp only [remove, Nat.shiftRight_eq_div_pow, Nat.shiftLeft_eq,
                show scap ls - 1 = 2 ^ sbits ls - 1 from rfl, Nat.and_pow_two_sub_one_eq_mod,
                if_neg hmm, if_neg hxmn, hr1]
              simp
            rw [hunf]
            have hsub1id : ∀ y, subMem ls
                (lows.set (x / 2 ^ sbits ls)
                  (remove ls (lows.getD (x / 2 ^ sbits ls) (emptySt ls)) (x % 2 ^ sbits ls)).2) y
                = subMem ls lows y := by
              intro y
              rw [gsub1 y]
              by_cases hy : y = x
              · rw [hy, hsx]
                rfl
              · have e : (y == x) = false := by simp [hy]
                rw [e]
                simp
            refine ⟨?_, ?_, ?_⟩
            · simp only [TreeInv]
              refine ⟨h1, by simpa using h2, gcl, ?_, fun habs => absurd habs hmn, ?_⟩
              · intro u hu
                by_cases hu2 : u = x / 2 ^ sbits ls
                · have hex : (∃ z, melem ls
                      ((lows.set (x / 2 ^ sbits ls)
                        (remove ls (lows.getD (x / 2 ^ sbits ls) (emptySt ls))
                          (x % 2 ^ sbits ls)).2).getD u (emptySt ls)) z = true) ↔
                      (∃ z, melem ls (lows.getD u (emptySt ls)) z = true) := by
                    rw [hu2, getD_set_self lows _ _ hlen]
                    constructor
                    · rintro ⟨z, hz⟩
                      rw [hr2same z] at hz
                      exact ⟨z, hz⟩
                    · rintro ⟨z, hz⟩
                      refine ⟨z, ?_⟩
                      rw [hr2same z]
                      exact hz
                  rw [hex]
                  exact h4 u hu
                · rw [getD_set_ne lows _ _ (fun he => hu2 he.symm)]
                  exact h4 u hu
              · rintro -
                refine ⟨hm1, ?_, hm3, hm4, ?_, ?_⟩
                · intro y hy
                  rw [hsub1id y] at hy
                  exact hm2 y hy
                · intro y hy
                  rw [hsub1id y] at hy
                  exact hm5 y hy
                · intro hlt
                  rw [hsub1id mx]
                  exact hm6 hlt
            · rw [hmelx, hsx]
            · intro y
              rw [melem_comp, if_neg hmn, hsub1id y, melem_comp, if_neg hmn]
              by_cases hy : y = x
              · have e1 : (y == x) = true := by simp [hy]
                have e2 : (y == mn) = false := by simp [hy, hxmn]
                have e3 : subMem ls lows y = false := by rw [hy]; exact hsx
                rw [e1, e2, e3]
                rfl
              · have e1 : (y == x) = false := by simp [hy]
                rw [e1]
                simp
          · have hr1 : (remove ls (lows.getD (x / 2 ^ sbits ls) (emptySt ls))
                (x % 2 ^ sbits ls)).1 = true := by
              rw [gret]
              exact hsx
            have hxgt : mn < x := hm2 x hsx
            have hInterSM : TreeInvSM (.comp us ls)
                ⟨(if isEmpty ls (remove ls (lows.getD (x / 2 ^ sbits ls) (emptySt ls))
                      (x % 2 ^ sbits ls)).2 = true
                    then (remove us up (x / 2 ^ sbits ls)).2 else up),
                  lows.set (x / 2 ^ sbits ls)
                    (remove ls (lows.getD (x / 2 ^ sbits ls) (emptySt ls)) (x % 2 ^ sbits ls)).2,
                  mn, mx⟩ := by
              simp only [TreeInvSM]
              refine ⟨gupI, by simpa using h2, gcl, gtrack, fun habs => absurd habs hmn, ?_⟩
              rintro -
              refine ⟨hm1, ?_⟩
              intro y hy
              rw [gsub1 y] at hy
              simp only [Bool.and_eq_true] at hy
              exact hm2 y hy.1
            have hmelnew : ∀ (mx2 : Nat) (y : Nat), melem (.comp us ls)
                (⟨(if isEmpty ls (remove ls (lows.getD (x / 2 ^ sbits ls) (emptySt ls))
                      (x % 2 ^ sbits ls)).2 = true
                    then (remove us up (x / 2 ^ sbits ls)).2 else up),
                  lows.set (x / 2 ^ sbits ls)
                    (remove ls (lows.getD (x / 2 ^ sbits ls) (emptySt ls)) (x % 2 ^ sbits ls)).2,
                  mn, mx2⟩ : St (.comp us ls)) y
                = (melem (.comp us ls) ⟨up, lows, mn, mx⟩ y && !(y == x)) := by
              intro mx2 y
              rw [melem_comp, if_neg hmn, gsub1 y, melem_comp, if_neg hmn]
              by_cases hy : y = mn
              · have e1 : (y == mn) = true := by simp [hy]
                have e2 : (y == x) = false := by simp [hy, hxmn]; omega
                rw [e1, e2]
                cases subMem ls lows y <;> rfl
              · have e1 : (y == mn) = false := by simp [hy]
                rw [e1]
                cases subMem ls lows y <;> cases (y == x) <;> rfl
            by_cases hxmx : x = mx
            · have hpv := prev_spec (.comp us ls) _ hInterSM (x - 1) (by omega)
              rcases hpm : prev (.comp us ls)
                  ⟨(if isEmpty ls (remove ls (lows.getD (x / 2 ^ sbits ls) (emptySt ls))
                        (x % 2 ^ sbits ls)).2 = true
                      then (remove us up (x / 2 ^ sbits ls)).2 else up),
                    lows.set (x / 2 ^ sbits ls)
                      (remove ls (lows.getD (x / 2 ^ sbits ls) (emptySt ls))
                        (x % 2 ^ sbits ls)).2,
                    mn, mx⟩ (x - 1) with _ | m2
              · rw [hpm] at hpv
                exfalso
                have hmnmem : melem (.comp us ls)
                    (⟨(if isEmpty ls (remove ls (lows.getD (x / 2 ^ sbits ls) (emptySt ls))
                          (x % 2 ^ sbits ls)).2 = true
                        then (remove us up (x / 2 ^ sbits ls)).2 else up),
                      lows.set (x / 2 ^ sbits ls)
                        (remove ls (lows.getD (x / 2 ^ sbits ls) (emptySt ls))
                          (x % 2 ^ sbits ls)).2,
                      mn, mx⟩ : St (.comp us ls)) mn = true := by
                  rw [melem_comp_iff hmn]
                  left
                  rfl
                have := hpv mn (by omega)
                rw [hmnmem] at this
                exact absurd this (by simp)
              · rw [hpm] at hpv
                obtain ⟨hp1, hp2, hp3⟩ := hpv
                have hunf : remove (.comp us ls) ⟨up, lows, mn, mx⟩ x =
                    (true, ⟨(if isEmpty ls (remove ls (lows.getD (x / 2 ^ sbits ls)
                            (emptySt ls)) (x % 2 ^ sbits ls)).2 = true
                        then (remove us up (x / 2 ^ sbits ls)).2 else up),
                      lows.set (x / 2 ^ sbits ls)
                        (remove ls (lows.getD (x / 2 ^ sbits ls) (emptySt ls))
                          (x % 2 ^ sbits ls)).2,
                      mn, m2⟩) := by
                  simp only [remove, Nat.shiftRight_eq_div_pow, Nat.shiftLeft_eq,
                    show scap ls - 1 = 2 ^ sbits ls - 1 from rfl,
                    Nat.and_pow_two_sub_one_eq_mod,
                    if_neg hmm, if_neg hxmn, hr1, hpm, Option.getD_some]
                  simp [hxmn, hxmx]
                  intro he
                  exact absurd (hxmx.trans he) hxmn
                rw [hunf]
                have hp2iff := (melem_comp_iff hmn).1 hp2
                refine ⟨?_, ?_, ?_⟩
                · simp only [TreeInv]
                  refine ⟨gupI, by simpa using h2, gcl, gtrack,
                    fun habs => absurd habs hmn, ?_⟩
                  rintro -
                  refine ⟨hm1, ?_, ?_, ?_, ?_, ?_⟩
                  · intro y hy
                    rw [gsub1 y] at hy
                    simp only [Bool.and_eq_true] at hy
                    exact hm2 y hy.1
                  · rcases hp2iff with he | hs
                    · omega
                    · rw [gsub1 m2] at hs
                      simp only [Bool.and_eq_true] at hs
                      exact Nat.le_of_lt (hm2 m2 hs.1)
                  · have := melem_lt _ _ hInterSM m2 hp2
                    omega
                  · intro y hy
                    have hymel : melem (.comp us ls)
                        (⟨(if isEmpty ls (remove ls (lows.getD (x / 2 ^ sbits ls)
                              (emptySt ls)) (x % 2 ^ sbits ls)).2 = true
                            then (remove us up (x / 2 ^ sbits ls)).2 else up),
                          lows.set (x / 2 ^ sbits ls)
                            (remove ls (lows.getD (x / 2 ^ sbits ls) (emptySt ls))
                              (x % 2 ^ sbits ls)).2,
                          mn, mx⟩ : St (.comp us ls)) y = true := by
                      rw [melem_comp_iff hmn]
                      right
                      exact hy
                    have hyx : y ≤ mx := by
                      rw [gsub1 y] at hy
                      simp only [Bool.and_eq_true] at hy
                      exact hm5 y hy.1
                    have hynex : y ≠ x := by
                      intro he
                      rw [gsub1 y, he] at hy
                      simp at hy
                    exact hp3 y (by omega) hymel
                  · intro hlt
                    rcases hp2iff with he | hs
                    · omega
                    · exact hs
                · rw [hmelx, hsx]
                · intro y
                  exact hmelnew m2 y
            · have hunf : remove (.comp us ls) ⟨up, lows, mn, mx⟩ x =
                  (true, ⟨(if isEmpty ls (remove ls (lows.getD (x / 2 ^ sbits ls)
                          (emptySt ls)) (x % 2 ^ sbits ls)).2 = true
                      then (remove us up (x / 2 ^ sbits ls)).2 else up),
                    lows.set (x / 2 ^ sbits ls)
                      (remove ls (lows.getD (x / 2 ^ sbits ls) (emptySt ls))
                        (x % 2 ^ sbits ls)).2,
                    mn, mx⟩) := by
                simp only [remove, Nat.shiftRight_eq_div_pow, Nat.shiftLeft_eq,
                  show scap ls - 1 = 2 ^ sbits ls - 1 from rfl,
                  Nat.and_pow_two_sub_one_eq_mod,
                  if_neg hmm, if_neg hxmn, hr1]
                simp [hxmx]
              rw [hunf]
              refine ⟨?_, ?_, ?_⟩
              · simp only [TreeInv]
                refine ⟨gupI, by simpa using h2, gcl, gtrack,
                  fun habs => absurd habs hmn, ?_⟩
                rintro -
                refine ⟨hm1, ?_, hm3, hm4, ?_, ?_⟩
                · intro y hy
                  rw [gsub1 y] at hy
                  simp only [Bool.and_eq_true] at hy
                  exact hm2 y hy.1
                · intro y hy
                  rw [gsub1 y] at hy
                  simp only [Bool.and_eq_true] at hy
                  exact hm5 y hy.1
                · intro hlt
                  rw [gsub1 mx, hm6 hlt]
                  have he : (mx == x) = false := by simp; omega
                  rw [he]
                  rfl
              · rw [hmelx, hsx]
              · intro y
                exact hmelnew mx y

theorem treeInv_emptySt : ∀ sh : Shape, TreeInv sh (emptySt sh) := by
  intro sh
  induction sh with
  | base b =>
    show (0 : Nat) < 2 ^ 2 ^ b
    exact Nat.two_pow_pos _
  | comp us ls ihu ihl =>
    simp only [emptySt, TreeInv]
    refine ⟨ihu, List.length_replicate _ _, ?_, ?_, ?_, fun habs => absurd rfl habs⟩
    · intro l hl
      rw [List.eq_of_mem_replicate hl]
      exact ihl
    · intro u hu
      rw [melem_emptySt us u]
      constructor
      · intro h
        exact absurd h (by simp)
      · intro hex
        obtain ⟨z, hz⟩ := hex
        rw [getD_replicate, if_pos hu, melem_emptySt ls z] at hz
        exact absurd hz (by simp)
    · intro _ l hl
      rw [List.eq_of_mem_replicate hl]
      exact melem_emptySt ls

theorem applyOps_cons (sh : Shape) (o : Op) (t : List Op) (s : St sh) :
    applyOps sh (o :: t) s = applyOps sh t (applyOp sh s o) := rfl

theorem applyOps_treeInv (sh : Shape) (hS : scap sh ≤ SENTINEL) :
    ∀ (ops : List Op) (s : St sh), TreeInv sh s → OpsOK sh ops →
      TreeInv sh (applyOps sh ops s) := by
  intro ops
  induction ops with
  | nil =>
    intro s hI _
    exact hI
  | cons o t ih =>
    intro s hI hok
    have ho : o.arg < scap sh := hok o (List.mem_cons_self o t)
    rw [applyOps_cons]
    have hI2 : TreeInv sh (applyOp sh s o) := by
      cases o with
      | ins x => exact (insert_spec sh s hI hS x ho).1
      | del x => exact (remove_spec sh s hI hS x ho).1
    exact ih _ hI2 (fun o2 ho2 => hok o2 (List.mem_cons_of_mem _ ho2))

theorem reachable_treeInv {sh : Shape} {s : St sh} (hS : scap sh ≤ SENTINEL)
    (hR : Reachable sh s) : TreeInv sh s := by
  obtain ⟨ops, hok, heq⟩ := hR
  rw [← heq]
  exact applyOps_treeInv sh hS ops (emptySt sh) (treeInv_emptySt sh) hok

theorem insert_false_unchanged :
    ∀ (sh : Shape) (s : St sh), TreeInv sh s → scap sh ≤ SENTINEL → ∀ x, x < scap sh →
      (vebInsert sh s x).1 = false → (vebInsert sh s x).2 = s := by
  intro sh
  induction sh with
  | base b =>
    intro w hI hS x hx hret
    have hbit : w.testBit x = true := by
      have : (!((w >>> x) &&& 1 != 0)) = false := hret
      rw [bitProj] at this
      rcases hb : w.testBit x with _ | _
      · rw [hb] at this
        exact absurd this (by simp)
      · rfl
    show (w ||| (1 <<< x) : Nat) = w
    apply Nat.eq_of_testBit_eq
    intro j
    rw [Nat.testBit_or, Nat.one_shiftLeft, Nat.testBit_two_pow]
    by_cases hj : x = j
    · rw [← hj, hbit]
      simp
    · simp [hj]
  | comp us ls ihu ihl =>
    intro s hI hS x hx hret
    obtain ⟨up, lows, mn, mx⟩ := s
    have hIfull := hI
    simp only [TreeInv] at hI
    obtain ⟨h1, h2, h3, h4, h5, h6⟩ := hI
    have hmelx : melem (.comp us ls) ⟨up, lows, mn, mx⟩ x = true := by
      have := (insert_spec (.comp us ls) ⟨up, lows, mn, mx⟩ hIfull hS x hx).2.1
      rw [hret] at this
      rcases hb : melem (.comp us ls) ⟨up, lows, mn, mx⟩ x with _ | _
      · rw [hb] at this
        exact absurd this.symm (by simp)
      · rfl
    by_cases hmn : mn = SENTINEL
    · rw [melem_comp, if_pos hmn] at hmelx
      exact absurd hmelx (by simp)
    · obtain ⟨hm1, hm2, hm3, hm4, hm5, hm6⟩ := h6 hmn
      rw [melem_comp, if_neg hmn] at hmelx
      by_cases hxmn : x = mn
      · have hunf : vebInsert (.comp us ls) ⟨up, lows, mn, mx⟩ x =
            (false, ⟨up, lows, mn, mx⟩) := by
          simp only [vebInsert, if_neg hmn, if_neg (show ¬ x < mn from by omega)]
          simp [hxmn]
        rw [hunf]
      · have hsubx : subMem ls lows x = true := by
          have he : (x == mn) = false := by simp [hxmn]
          rw [he, Bool.false_or] at hmelx
          exact hmelx
        have hxgt : mn < x := hm2 x hsubx
        have hxcapm : x < scap us * 2 ^ sbits ls := by rw [scap_comp] at hx; exact hx
        have hux : x / 2 ^ sbits ls < scap us := div_lt_of_lt_mul hxcapm
        have hlen : x / 2 ^ sbits ls < lows.length := by omega
        have hlowI : TreeInv ls (lows.getD (x / 2 ^ sbits ls) (emptySt ls)) :=
          h3 _ (getD_mem lows _ hlen)
        have hlmel : melem ls (lows.getD (x / 2 ^ sbits ls) (emptySt ls))
            (x % 2 ^ sbits ls) = true := hsubx
        have hlret : (vebInsert ls (lows.getD (x / 2 ^ sbits ls) (emptySt ls))
            (x % 2 ^ sbits ls)).1 = false := by
          have := (insert_spec ls _ hlowI (le_trans (scap_ls_le us ls) hS)
            (x % 2 ^ sbits ls) (Nat.mod_lt _ (Nat.two_pow_pos _))).2.1
          rw [this, hlmel]
          rfl
        have hlsame : (vebInsert ls (lows.getD (x / 2 ^ sbits ls) (emptySt ls))
            (x % 2 ^ sbits ls)).2 = lows.getD (x / 2 ^ sbits ls) (emptySt ls) :=
          ihl _ hlowI (le_trans (scap_ls_le us ls) hS) (x % 2 ^ sbits ls)
            (Nat.mod_lt _ (Nat.two_pow_pos _)) hlret
        have hnemp : isEmpty ls (lows.getD (x / 2 ^ sbits ls) (emptySt ls)) = false := by
          rcases hb : isEmpty ls (lows.getD (x / 2 ^ sbits ls) (emptySt ls)) with _ | _
          · rfl
          · have hall := (isEmpty_iff_no_melem ls _ (treeInv_toSM ls _ hlowI)).1 hb
            rw [hall _] at hlmel
            exact absurd hlmel (by simp)
        have hunf : vebInsert (.comp us ls) ⟨up, lows, mn, mx⟩ x =
            ((vebInsert ls (lows.getD (x / 2 ^ sbits ls) (emptySt ls))
                (x % 2 ^ sbits ls)).1,
              ⟨up, lows.set (x / 2 ^ sbits ls)
                (vebInsert ls (lows.getD (x / 2 ^ sbits ls) (emptySt ls))
                  (x % 2 ^ sbits ls)).2,
                mn, mx⟩) := by
          simp only [vebInsert, Nat.shiftRight_eq_div_pow, Nat.shiftLeft_eq,
            show scap ls - 1 = 2 ^ sbits ls - 1 from rfl, Nat.and_pow_two_sub_one_eq_mod,
            if_neg hmn, if_neg (show ¬ x < mn from by omega), hnemp,
            if_neg (show ¬ mx < x from by have := hm5 x hsubx; omega)]
          simp [hxmn]
        rw [hunf, hlsame, set_getD_self]

theorem remove_false_unchanged :
    ∀ (sh : Shape) (s : St sh), TreeInv sh s → scap sh ≤ SENTINEL → ∀ x, x < scap sh →
      (remove sh s x).1 = false → (remove sh s x).2 = s := by
  intro sh
  induction sh with
  | base b =>
    intro w hI hS x hx hret
    have hbit : w.testBit x = false := by
      have : ((w >>> x) &&& 1 != 0) = false := hret
      rw [bitProj] at this
      exact this
    show (w &&& ((2 ^ scap (.base b) - 1) ^^^ (1 <<< x)) : Nat) = w
    apply Nat.eq_of_testBit_eq
    intro j
    rw [remove_base_char b w x j hI hx]
    by_cases hj : j = x
    · rw [hj, hbit]
      rfl
    · have e : (j == x) = false := by simp [hj]
      rw [e]
      simp
  | comp us ls ihu ihl =>
    intro s hI hS x hx hret
    obtain ⟨up, lows, mn, mx⟩ := s
    have hIfull := hI
    simp only [TreeInv] at hI
    obtain ⟨h1, h2, h3, h4, h5, h6⟩ := hI
    have hxS : x < SENTINEL := by
      have := scap_pos (.comp us ls)
      omega
    have hmelx : melem (.comp us ls) ⟨up, lows, mn, mx⟩ x = false := by
      have := (remove_spec (.comp us ls) ⟨up, lows, mn, mx⟩ hIfull hS x hx).2.1
      rw [hret] at this
      rcases hb : melem (.comp us ls) ⟨up, lows, mn, mx⟩ x with _ | _
      · rfl
      · rw [hb] at this
        exact absurd this.symm (by simp)
    by_cases hmm : mn = mx
    · by_cases hxmn : x = mn
      · rw [melem_comp] at hmelx
        by_cases hmn : mn = SENTINEL
        · omega
        · rw [if_neg hmn, show (x == mn) = true from by simp [hxmn]] at hmelx
          exact absurd hmelx (by simp)
      · have hunf : remove (.comp us ls) ⟨up, lows, mn, mx⟩ x = (false, ⟨up, lows, mn, mx⟩) := by
          simp only [remove]
          rw [if_pos hmm, if_neg hxmn]
        rw [hunf]
    · have hxmn : ¬ (x = mn) := by
        intro he
        by_cases hmn : mn = SENTINEL
        · omega
        · rw [melem_comp, if_neg hmn, show (x == mn) = true from by simp [he]] at hmelx
          exact absurd hmelx (by simp)
      have hsubx : subMem ls lows x = false := by
        by_cases hmn : mn = SENTINEL
        · exact subMem_all_false (h5 hmn) x
        · rw [melem_comp, if_neg hmn, show (x == mn) = false from by simp [hxmn],
            Bool.false_or] at hmelx
          exact hmelx
      have hxcapm : x < scap us * 2 ^ sbits ls := by rw [scap_comp] at hx; exact hx
      have hux : x / 2 ^ sbits ls < scap us := div_lt_of_lt_mul hxcapm
      have hlen : x / 2 ^ sbits ls < lows.length := by omega
      have hlowI : TreeInv ls (lows.getD (x / 2 ^ sbits ls) (emptySt ls)) :=
        h3 _ (getD_mem lows _ hlen)
      have hlret : (remove ls (lows.getD (x / 2 ^ sbits ls) (emptySt ls))
          (x % 2 ^ sbits ls)).1 = false := by
        have := (remove_spec ls _ hlowI (le_trans (scap_ls_le us ls) hS)
          (x % 2 ^ sbits ls) (Nat.mod_lt _ (Nat.two_pow_pos _))).2.1
        rw [this]
        exact hsubx
      have hlsame : (remove ls (lows.getD (x / 2 ^ sbits ls) (emptySt ls))
          (x % 2 ^ sbits ls)).2 = lows.getD (x / 2 ^ sbits ls) (emptySt ls) :=
        ihl _ hlowI (le_trans (scap_ls_le us ls) hS) (x % 2 ^ sbits ls)
          (Nat.mod_lt _ (Nat.two_pow_pos _)) hlret
      have hunf : remove (.comp us ls) ⟨up, lows, mn, mx⟩ x =
          (false, ⟨up, lows.set (x / 2 ^ sbits ls)
            (remove ls (lows.getD (x / 2 ^ sbits ls) (emptySt ls)) (x % 2 ^ sbits ls)).2,
            mn, mx⟩) := by
        simp only [remove, Nat.shiftRight_eq_div_pow, Nat.shiftLeft_eq,
          show scap ls - 1 = 2 ^ sbits ls - 1 from rfl, Nat.and_pow_two_sub_one_eq_mod,
          if_neg hmm, if_neg hxmn, hlret]
        simp
      rw [hunf, hlsame, set_getD_self]

theorem iterOut_go (sh : Shape) (s : St sh) (hI : TreeInv sh s) :
    ∀ (fuel c : Nat), c ≤ scap sh → scap sh - c < fuel →
      iterOut sh ⟨s, c⟩ fuel
        = (List.range' c (scap sh - c)).filter (fun y => melem sh s y) := by
  intro fuel
  induction fuel with
  | zero =>
    intro c hc hf
    exact absurd hf (by omega)
  | succ fuel ih =>
    intro c hc hf
    by_cases hcs : c = scap sh
    · have hstep : iterStep sh ⟨s, c⟩ = none := by
        simp [iterStep, hcs]
      rw [iterOut, hstep, show scap sh - c = 0 from by omega]
      rfl
    · have hclt : c < scap sh := by omega
      have hnx := next_spec sh s hI c hclt
      rcases hnv : next sh s c with _ | v
      · rw [hnv] at hnx
        have hstep : iterStep sh ⟨s, c⟩ = none := by
          simp [iterStep, hcs, hnv]
        rw [iterOut, hstep]
        symm
        rw [List.filter_eq_nil_iff]
        intro y hy
        have hyr := List.mem_range'_1.1 hy
        rw [hnx y (by omega)]
        simp
      · rw [hnv] at hnx
        obtain ⟨hv1, hv2, hv3⟩ := hnx
        have hvcap : v < scap sh := melem_lt sh s (treeInv_toSM sh s hI) v hv2
        have hstep : iterStep sh ⟨s, c⟩ = some (v, ⟨s, v + 1⟩) := by
          simp [iterStep, hcs, hnv]
        rw [iterOut, hstep]
        show v :: iterOut sh ⟨s, v + 1⟩ fuel
          = (List.range' c (scap sh - c)).filter (fun y => melem sh s y)
        rw [ih (v + 1) (by omega) (by omega)]
        have hsplit : List.range' c (scap sh - c) =
            List.range' c (v - c) ++ List.range' v (scap sh - v) := by
          have := List.range'_append c (v - c) (scap sh - v) 1
          rw [Nat.one_mul, show c + (v - c) = v from by omega] at this
          rw [this, show scap sh - v + (v - c) = scap sh - c from by omega]
        rw [hsplit, List.filter_append]
        have hleft : (List.range' c (v - c)).filter (fun y => melem sh s y) = [] := by
          rw [List.filter_eq_nil_iff]
          intro y hy
          have hyr := List.mem_range'_1.1 hy
          have : melem sh s y = false := by
            rcases hb : melem sh s y with _ | _
            · rfl
            · have := hv3 y (by omega) hb
              omega
          rw [this]
          simp
        rw [hleft, List.nil_append,
          show scap sh - v = (scap sh - (v + 1)) + 1 from by omega, List.range'_succ]
        rw [List.filter_cons]
        rw [hv2]
        rfl

theorem sbits_sizedShapeAux : ∀ (fuel n : Nat), sbits (sizedShapeAux fuel n) = n := by
  intro fuel
  induction fuel with
  | zero =>
    intro n
    rfl
  | succ fuel ih =>
    intro n
    by_cases h : n ≤ 7
    · simp [sizedShapeAux, h, sbits]
    · simp only [sizedShapeAux, if_neg h, sbits, ih]
      omega

theorem sbits_sizedShape (n : Nat) : sbits (sizedShape n) = n :=
  sbits_sizedShapeAux n n

theorem scap_sizedShape (n : Nat) : scap (sizedShape n) = 2 ^ n := by
  show 2 ^ sbits (sizedShape n) = 2 ^ n
  rw [sbits_sizedShape]

theorem sizedShape_cap_le (n : Nat) (h : n ≤ 49) : scap (sizedShape n) ≤ SENTINEL := by
  rw [scap_sizedShape]
  calc 2 ^ n ≤ 2 ^ 49 := Nat.pow_le_pow_right (by omega) h
  _ ≤ SENTINEL := by decide

theorem find?_range'_least (p : Nat → Bool) :
    ∀ (len s m : Nat), (List.range' s len).find? p = some m →
      p m = true ∧ s ≤ m ∧ m < s + len ∧ ∀ k, s ≤ k → k < m → p k = false := by
  intro len
  induction len with
  | zero =>
    intro s m h
    exact absurd h (by simp)
  | succ len ih =>
    intro s m h
    rw [List.range'_succ] at h
    rcases hp : p s with _ | _
    · rw [List.find?_cons_of_neg _ (by simp [hp])] at h
      obtain ⟨h1, h2, h3, h4⟩ := ih (s + 1) m h
      refine ⟨h1, by omega, by omega, ?_⟩
      intro k hk1 hk2
      by_cases hks : k = s
      · rw [hks, hp]
      · exact h4 k (by omega) hk2
    · rw [List.find?_cons_of_pos _ hp] at h
      have hm : m = s := by
        have := h
        simp at this
        omega
      refine ⟨by rw [hm, hp], by omega, by omega, ?_⟩
      intro k hk1 hk2
      omega

theorem rContains_iff (l : List Nat) (y : Nat) : rContains l y = true ↔ y ∈ l := by
  simp [rContains]

theorem rContains_false {l : List Nat} {y : Nat} (h : y ∉ l) : rContains l y = false := by
  rcases hb : rContains l y with _ | _
  · rfl
  · exact absurd ((rContains_iff l y).1 hb) h

theorem rInsert_mem (x : Nat) : ∀ (l : List Nat) (z : Nat), z ∈ rInsert x l ↔ z = x ∨ z ∈ l := by
  intro l
  induction l with
  | nil =>
    intro z
    simp [rInsert]
  | cons y t ih =>
    intro z
    by_cases h1 : x < y
    · simp [rInsert, if_pos h1]
    · by_cases h2 : x = y
      · simp only [rInsert, if_neg h1, if_pos h2, List.mem_cons]
        constructor
        · intro h
          right
          exact h
        · rintro (rfl | h)
          · left
            exact h2
          · exact h
      · simp only [rInsert, if_neg h1, if_neg h2, List.mem_cons, ih z]
        tauto

theorem rInsert_sorted (x : Nat) :
    ∀ (l : List Nat), l.Sorted (· < ·) → (rInsert x l).Sorted (· < ·) := by
  intro l
  induction l with
  | nil =>
    intro _
    exact List.sorted_singleton x
  | cons y t ih =>
    intro hs
    obtain ⟨hy, ht⟩ := List.sorted_cons.1 hs
    by_cases h1 : x < y
    · rw [show rInsert x (y :: t) = x :: y :: t from by simp [rInsert, h1]]
      rw [List.sorted_cons]
      refine ⟨?_, hs⟩
      intro z hz
      rcases List.mem_cons.1 hz with rfl | hz2
      · exact h1
      · exact lt_trans h1 (hy z hz2)
    · by_cases h2 : x = y
      · rw [show rInsert x (y :: t) = y :: t from by simp [rInsert, h1, h2]]
        exact hs
      · rw [show rInsert x (y :: t) = y :: rInsert x t from by simp [rInsert, h1, h2]]
        rw [List.sorted_cons]
        refine ⟨?_, ih ht⟩
        intro z hz
        rcases (rInsert_mem x t z).1 hz with rfl | hz2
        · omega
        · exact hy z hz2

theorem rRemove_mem (x : Nat) :
    ∀ (l : List Nat), l.Sorted (· < ·) → ∀ z, z ∈ rRemove x l ↔ z ∈ l ∧ z ≠ x := by
  intro l
  induction l with
  | nil =>
    intro _ z
    simp [rRemove]
  | cons y t ih =>
    intro hs z
    obtain ⟨hy, ht⟩ := List.sorted_cons.1 hs
    by_cases h1 : x = y
    · rw [show rRemove x (y :: t) = t from by simp [rRemove, h1]]
      simp only [List.mem_cons]
      constructor
      · intro h
        exact ⟨Or.inr h, by have := hy z h; omega⟩
      · rintro ⟨rfl | h, hne⟩
        · exact absurd h1.symm hne
        · exact h
    · rw [show rRemove x (y :: t) = y :: rRemove x t from by simp [rRemove, h1]]
      simp only [List.mem_cons, ih ht z]
      constructor
      · rintro (rfl | ⟨h, hne⟩)
        · exact ⟨Or.inl rfl, fun he => h1 he.symm⟩
        · exact ⟨Or.inr h, hne⟩
      · rintro ⟨rfl | h, hne⟩
        · left
          rfl
        · right
          exact ⟨h, hne⟩

theorem rRemove_sublist (x : Nat) : ∀ (l : List Nat), (rRemove x l).Sublist l := by
  intro l
  induction l with
  | nil => exact List.Sublist.refl []
  | cons y t ih =>
    by_cases h1 : x = y
    · rw [show rRemove x (y :: t) = t from by simp [rRemove, h1]]
      exact List.sublist_cons_self y t
    · rw [show rRemove x (y :: t) = y :: rRemove x t from by simp [rRemove, h1]]
      exact List.Sublist.cons₂ y ih

theorem rRemove_sorted (x : Nat) (l : List Nat) (hs : l.Sorted (· < ·)) :
    (rRemove x l).Sorted (· < ·) :=
  List.Pairwise.sublist (rRemove_sublist x l) hs


theorem rNext_spec (x : Nat) :
    ∀ (l : List Nat), l.Sorted (· < ·) → IsNextOf (fun y => rContains l y) x (rNext l x) := by
  intro l
  induction l with
  | nil =>
    intro _
    show IsNextOf _ x none
    intro y _
    rfl
  | cons y t ih =>
    intro hs
    obtain ⟨hy, ht⟩ := List.sorted_cons.1 hs
    by_cases h1 : x ≤ y
    · rw [show rNext (y :: t) x = some y from by
        simp only [rNext]
        exact List.find?_cons_of_pos _ (by simp [h1])]
      refine ⟨h1, (rContains_iff _ _).2 (List.mem_cons_self y t), ?_⟩
      intro z hz hcz
      have hcz2 : rContains (y :: t) z = true := hcz
      rcases List.mem_cons.1 ((rContains_iff _ _).1 hcz2) with rfl | hz2
      · omega
      · exact Nat.le_of_lt (hy z hz2)
    · have hrec : rNext (y :: t) x = rNext t x := by
        simp only [rNext]
        exact List.find?_cons_of_neg _ (by simp [h1])
      rw [hrec]
      have iht := ih ht
      rcases hn : rNext t x with _ | v
      · rw [hn] at iht
        intro z hz
        show rContains (y :: t) z = false
        apply rContains_false
        intro hm
        rcases List.mem_cons.1 hm with rfl | hz2
        · omega
        · have h3 : rContains t z = true := (rContains_iff t z).2 hz2
          have h4 : rContains t z = false := iht z hz
          rw [h4] at h3
          exact absurd h3 (by simp)
      · rw [hn] at iht
        obtain ⟨hv1, hv2, hv3⟩ := iht
        have hv2b : rContains t v = true := hv2
        refine ⟨hv1, ?_, ?_⟩
        · exact (rContains_iff _ _).2 (List.mem_cons_of_mem y ((rContains_iff t v).1 hv2b))
        · intro z hz hcz
          have hcz2 : rContains (y :: t) z = true := hcz
          rcases List.mem_cons.1 ((rContains_iff _ _).1 hcz2) with rfl | hz2
          · omega
          · exact hv3 z hz ((rContains_iff t z).2 hz2)

theorem rPrev_spec (x : Nat) :
    ∀ (l : List Nat), l.Sorted (· < ·) → IsPrevOf (fun y => rContains l y) x (rPrev l x) := by
  intro l
  induction l with
  | nil =>
    intro _
    show IsPrevOf _ x none
    intro y _
    rfl
  | cons y t ih =>
    intro hs
    obtain ⟨hy, ht⟩ := List.sorted_cons.1 hs
    by_cases h1 : y ≤ x
    · have hfil : (y :: t).filter (fun z => z ≤ x) = y :: t.filter (fun z => z ≤ x) := by
        rw [List.filter_cons, if_pos (by simp [h1])]
      have iht := ih ht
      rcases hn : rPrev t x with _ | v
      · have hemp : t.filter (fun z => z ≤ x) = [] := by
          have h0 : (t.filter (fun z => z ≤ x)).getLast? = none := hn
          rwa [List.getLast?_eq_none_iff] at h0
        have hout : rPrev (y :: t) x = some y := by
          show ((y :: t).filter (fun z => z ≤ x)).getLast? = some y
          rw [hfil, hemp]
          rfl
        rw [hout]
        rw [hn] at iht
        refine ⟨h1, (rContains_iff _ _).2 (List.mem_cons_self y t), ?_⟩
        intro z hz hcz
        have hcz2 : rContains (y :: t) z = true := hcz
        rcases List.mem_cons.1 ((rContains_iff _ _).1 hcz2) with rfl | hz2
        · omega
        · have h3 : rContains t z = true := (rContains_iff t z).2 hz2
          have h4 : rContains t z = false := iht z hz
          rw [h4] at h3
          exact absurd h3 (by simp)
      · have hne : t.filter (fun z => z ≤ x) ≠ [] := by
          intro hf
          have h0 : rPrev t x = none := by
            show (t.filter (fun z => z ≤ x)).getLast? = none
            rw [hf]
            rfl
          rw [hn] at h0
          exact absurd h0 (by simp)
        have hout : rPrev (y :: t) x = some v := by
          show ((y :: t).filter (fun z => z ≤ x)).getLast? = some v
          rw [hfil]
          rcases hf : t.filter (fun z => z ≤ x) with _ | ⟨w, ws⟩
          · exact absurd hf hne
          · rw [List.getLast?_cons_cons]
            have h0 : rPrev t x = ((w :: ws) : List Nat).getLast? := by
              show (t.filter (fun z => z ≤ x)).getLast? = _
              rw [hf]
            rw [← h0, hn]
        rw [hout]
        rw [hn] at iht
        obtain ⟨hv1, hv2, hv3⟩ := iht
        have hv2b : rContains t v = true := hv2
        refine ⟨hv1, ?_, ?_⟩
        · exact (rContains_iff _ _).2 (List.mem_cons_of_mem y ((rContains_iff t v).1 hv2b))
        · intro z hz hcz
          have hcz2 : rContains (y :: t) z = true := hcz
          rcases List.mem_cons.1 ((rContains_iff _ _).1 hcz2) with rfl | hz2
          · exact Nat.le_of_lt (hy v ((rContains_iff t v).1 hv2b))
          · exact hv3 z hz ((rContains_iff t z).2 hz2)
    · have hall : ∀ z ∈ y :: t, ¬ (z ≤ x) := by
        intro z hz
        rcases List.mem_cons.1 hz with rfl | hz2
        · omega
        · have := hy z hz2
          omega
      have hout : rPrev (y :: t) x = none := by
        show ((y :: t).filter (fun z => z ≤ x)).getLast? = none
        rw [List.filter_eq_nil_iff.2 (by intro a ha; simpa using hall a ha)]
        rfl
      rw [hout]
      intro z hz
      show rContains (y :: t) z = false
      apply rContains_false
      intro hm
      exact hall z hm hz

theorem rFirst_spec (l : List Nat) (hs : l.Sorted (· < ·)) :
    IsNextOf (fun y => rContains l y) 0 (rFirst l) := by
  cases l with
  | nil =>
    show IsNextOf _ 0 none
    intro y _
    rfl
  | cons y t =>
    obtain ⟨hy, _⟩ := List.sorted_cons.1 hs
    show IsNextOf _ 0 (some y)
    refine ⟨Nat.zero_le y, (rContains_iff _ _).2 (List.mem_cons_self y t), ?_⟩
    intro z _ hcz
    have hcz2 : rContains (y :: t) z = true := hcz
    rcases List.mem_cons.1 ((rContains_iff _ _).1 hcz2) with rfl | hz2
    · omega
    · exact Nat.le_of_lt (hy z hz2)

theorem rLast_spec (cap : Nat) :
    ∀ (l : List Nat), l.Sorted (· < ·) → (∀ z ∈ l, z < cap) →
      IsPrevOf (fun y => rContains l y) (cap - 1) (rLast l) := by
  intro l
  induction l with
  | nil =>
    intro _ _
    show IsPrevOf _ (cap - 1) none
    intro y _
    rfl
  | cons y t ih =>
    intro hs hb
    obtain ⟨hy, ht⟩ := List.sorted_cons.1 hs
    cases t with
    | nil =>
      show IsPrevOf _ (cap - 1) (some y)
      have hyc : y < cap := hb y (List.mem_cons_self y [])
      refine ⟨by omega, (rContains_iff _ _).2 (List.mem_cons_self y []), ?_⟩
      intro z _ hcz
      have hcz2 : rContains [y] z = true := hcz
      rcases List.mem_cons.1 ((rContains_iff _ _).1 hcz2) with rfl | hz2
      · exact Nat.le_refl z
      · exact absurd hz2 (by simp)
    | cons w ws =>
      have iht := ih ht (fun z hz => hb z (List.mem_cons_of_mem y hz))
      have hout : rLast (y :: w :: ws) = rLast (w :: ws) := List.getLast?_cons_cons
      rw [hout]
      rcases hn : rLast (w :: ws) with _ | v
      · rw [hn] at iht
        exfalso
        have hw : rContains (w :: ws) w = false :=
          iht w (by have := hb w (by simp); omega)
        rw [(rContains_iff _ _).2 (List.mem_cons_self w ws)] at hw
        exact absurd hw (by simp)
      · rw [hn] at iht
        obtain ⟨hv1, hv2, hv3⟩ := iht
        have hv2b : rContains (w :: ws) v = true := hv2
        refine ⟨hv1, ?_, ?_⟩
        · exact (rContains_iff _ _).2 (List.mem_cons_of_mem y ((rContains_iff _ _).1 hv2b))
        · intro z hz hcz
          have hcz2 : rContains (y :: w :: ws) z = true := hcz
          rcases List.mem_cons.1 ((rContains_iff _ _).1 hcz2) with rfl | hz2
          · exact Nat.le_of_lt (hy v ((rContains_iff _ _).1 hv2b))
          · exact hv3 z hz ((rContains_iff _ _).2 hz2)

theorem isNextOf_unique (S : Nat → Bool) (x : Nat) :
    ∀ o1 o2, IsNextOf S x o1 → IsNextOf S x o2 → o1 = o2 := by
  intro o1 o2 h1 h2
  cases o1 with
  | none =>
    cases o2 with
    | none => rfl
    | some v =>
      obtain ⟨hv1, hv2, _⟩ := h2
      rw [h1 v hv1] at hv2
      exact absurd hv2 (by simp)
  | some v =>
    cases o2 with
    | none =>
      obtain ⟨hv1, hv2, _⟩ := h1
      rw [h2 v hv1] at hv2
      exact absurd hv2 (by simp)
    | some w =>
      obtain ⟨hv1, hv2, hv3⟩ := h1
      obtain ⟨hw1, hw2, hw3⟩ := h2
      have e1 := hv3 w hw1 hw2
      have e2 := hw3 v hv1 hv2
      congr 1
      omega

theorem isPrevOf_unique (S : Nat → Bool) (x : Nat) :
    ∀ o1 o2, IsPrevOf S x o1 → IsPrevOf S x o2 → o1 = o2 := by
  intro o1 o2 h1 h2
  cases o1 with
  | none =>
    cases o2 with
    | none => rfl
    | some v =>
      obtain ⟨hv1, hv2, _⟩ := h2
      rw [h1 v hv1] at hv2
      exact absurd hv2 (by simp)
  | some v =>
    cases o2 with
    | none =>
      obtain ⟨hv1, hv2, _⟩ := h1
      rw [h2 v hv1] at hv2
      exact absurd hv2 (by simp)
    | some w =>
      obtain ⟨hv1, hv2, hv3⟩ := h1
      obtain ⟨hw1, hw2, hw3⟩ := h2
      have e1 := hv3 w hw1 hw2
      have e2 := hw3 v hv1 hv2
      congr 1
      omega

theorem not_mem_of_rContains_false {l : List Nat} {y : Nat}
    (h : rContains l y = false) : y ∉ l := by
  intro hm
  rw [(rContains_iff l y).2 hm] at h
  exact absurd h (by simp)

theorem rContains_rInsert (x : Nat) (l : List Nat) (y : Nat) :
    rContains (rInsert x l) y = (rContains l y || (y == x)) := by
  rcases hb : rContains l y with _ | _
  · rcases hc : (y == x) with _ | _
    · have h1 : y ≠ x := by simpa using hc
      have h2 : y ∉ l := not_mem_of_rContains_false hb
      rw [rContains_false (fun hm => by
        rcases (rInsert_mem x l y).1 hm with he | hm2
        · exact h1 he
        · exact h2 hm2)]
      rfl
    · have h1 : y = x := by simpa using hc
      rw [(rContains_iff _ _).2 ((rInsert_mem x l y).2 (Or.inl h1))]
      rfl
  · rw [(rContains_iff _ _).2 ((rInsert_mem x l y).2 (Or.inr ((rContains_iff l y).1 hb)))]
    rfl

theorem rContains_rRemove (x : Nat) (l : List Nat) (hs : l.Sorted (· < ·)) (y : Nat) :
    rContains (rRemove x l) y = (rContains l y && !(y == x)) := by
  rcases hb : rContains l y with _ | _
  · rw [rContains_false (fun hm => by
      exact not_mem_of_rContains_false hb ((rRemove_mem x l hs y).1 hm).1)]
    rfl
  · rcases hc : (y == x) with _ | _
    · have h1 : y ≠ x := by simpa using hc
      rw [(rContains_iff _ _).2 ((rRemove_mem x l hs y).2 ⟨(rContains_iff l y).1 hb, h1⟩)]
      rfl
    · have h1 : y = x := by simpa using hc
      rw [rContains_false (fun hm => ((rRemove_mem x l hs y).1 hm).2 h1)]
      rfl

theorem corr_empty (sh : Shape) : Corr sh (emptySt sh) [] := by
  refine ⟨List.sorted_nil, by simp, ?_⟩
  intro y
  rw [melem_emptySt sh y]
  rfl

theorem corr_step (sh : Shape) (hS : scap sh ≤ SENTINEL) (s : St sh) (l : List Nat)
    (hI : TreeInv sh s) (o : Op) (ho : o.arg < scap sh) (hc : Corr sh s l) :
    Corr sh (applyOp sh s o) (applyRefOp l o) := by
  obtain ⟨hs, hbnd, hmem⟩ := hc
  cases o with
  | ins x =>
    refine ⟨rInsert_sorted x l hs, ?_, ?_⟩
    · intro z hz
      rcases (rInsert_mem x l z).1 hz with rfl | hz2
      · exact ho
      · exact hbnd z hz2
    · intro y
      show melem sh (vebInsert sh s x).2 y = rContains (rInsert x l) y
      rw [(insert_spec sh s hI hS x ho).2.2 y, rContains_rInsert, hmem y]
  | del x =>
    refine ⟨rRemove_sorted x l hs, ?_, ?_⟩
    · intro z hz
      exact hbnd z ((rRemove_mem x l hs z).1 hz).1
    · intro y
      show melem sh (remove sh s x).2 y = rContains (rRemove x l) y
      rw [(remove_spec sh s hI hS x ho).2.2 y, rContains_rRemove x l hs, hmem y]

theorem corr_ops (sh : Shape) (hS : scap sh ≤ SENTINEL) :
    ∀ (ops : List Op) (s : St sh) (l : List Nat), TreeInv sh s → OpsOK sh ops →
      Corr sh s l → Corr sh (applyOps sh ops s) (applyRefOps ops l) := by
  intro ops
  induction ops with
  | nil =>
    intro s l _ _ hc
    exact hc
  | cons o t ih =>
    intro s l hI hok hc
    have ho : o.arg < scap sh := hok o (List.mem_cons_self o t)
    rw [applyOps_cons]
    show Corr sh (applyOps sh t (applyOp sh s o)) (applyRefOps t (applyRefOp l o))
    have hI2 : TreeInv sh (applyOp sh s o) := by
      cases o with
      | ins x => exact (insert_spec sh s hI hS x ho).1
      | del x => exact (remove_spec sh s hI hS x ho).1
    exact ih _ _ hI2 (fun o2 ho2 => hok o2 (List.mem_cons_of_mem _ ho2))
      (corr_step sh hS s l hI o ho hc)

/-- C2: for every reachable state and every `x < capacity`, `insert(x)`
returns `true` iff `contains(x)` was `false` immediately before the call
(and afterwards `contains(x)` is `true`), and `remove(x)` returns `true`
iff `contains(x)` was `true` immediately before the call (and afterwards
`contains(x)` is `false`). -/
theorem C2_insert_remove_return_values (sh : Shape) (s : St sh) (hR : Reachable sh s)
    (hS : scap sh ≤ SENTINEL) (x : Nat) (hx : x < scap sh) :
    (vebInsert sh s x).1 = !contains sh s x ∧
    contains sh (vebInsert sh s x).2 x = true ∧
    (remove sh s x).1 = contains sh s x ∧
    contains sh (remove sh s x).2 x = false := by
  have hI := reachable_treeInv hS hR
  obtain ⟨hIi, hri, hmi⟩ := insert_spec sh s hI hS x hx
  obtain ⟨hIr, hrr, hmr⟩ := remove_spec sh s hI hS x hx
  refine ⟨?_, ?_, ?_, ?_⟩
  · rw [hri, contains_eq_melem sh s hI hS x hx]
  · rw [contains_eq_melem sh _ hIi hS x hx, hmi x]
    simp
  · rw [hrr, contains_eq_melem sh s hI hS x hx]
  · rw [contains_eq_melem sh _ hIr hS x hx, hmr x]
    simp

/-- C3: for every reachable state and every `x < capacity`, `next(x)`
returns `some` of the smallest contained value `≥ x` (`none` when no
contained value is `≥ x`), and `prev(x)` returns `some` of the largest
contained value `≤ x` (`none` when no contained value is `≤ x`). -/
theorem C3_next_prev_semantics (sh : Shape) (s : St sh) (hR : Reachable sh s)
    (hS : scap sh ≤ SENTINEL) (x : Nat) (hx : x < scap sh) :
    ((next sh s x = none → ∀ y, x ≤ y → y < scap sh → contains sh s y = false) ∧
      (∀ v, next sh s x = some v →
        x ≤ v ∧ v < scap sh ∧ contains sh s v = true ∧
        ∀ y, x ≤ y → y < scap sh → contains sh s y = true → v ≤ y)) ∧
    ((prev sh s x = none → ∀ y, y ≤ x → y < scap sh → contains sh s y = false) ∧
      (∀ v, prev sh s x = some v →
        v ≤ x ∧ v < scap sh ∧ contains sh s v = true ∧
        ∀ y, y ≤ x → y < scap sh → contains sh s y = true → y ≤ v)) := by
  have hI := reachable_treeInv hS hR
  have hnx := next_spec sh s hI x hx
  have hpv := prev_spec sh s (treeInv_toSM sh s hI) x hx
  constructor
  · constructor
    · intro hn y hy hycap
      rw [hn] at hnx
      rw [contains_eq_melem sh s hI hS y hycap]
      exact hnx y hy
    · intro v hv
      rw [hv] at hnx
      obtain ⟨h1, h2, h3⟩ := hnx
      have hvcap : v < scap sh := melem_lt sh s (treeInv_toSM sh s hI) v h2
      refine ⟨h1, hvcap, ?_, ?_⟩
      · rw [contains_eq_melem sh s hI hS v hvcap]
        exact h2
      · intro y hy hycap hcy
        rw [contains_eq_melem sh s hI hS y hycap] at hcy
        exact h3 y hy hcy
  · constructor
    · intro hn y hy hycap
      rw [hn] at hpv
      rw [contains_eq_melem sh s hI hS y hycap]
      exact hpv y hy
    · intro v hv
      rw [hv] at hpv
      obtain ⟨h1, h2, h3⟩ := hpv
      have hvcap : v < scap sh := melem_lt sh s (treeInv_toSM sh s hI) v h2
      refine ⟨h1, hvcap, ?_, ?_⟩
      · rw [contains_eq_melem sh s hI hS v hvcap]
        exact h2
      · intro y hy hycap hcy
        rw [contains_eq_melem sh s hI hS y hycap] at hcy
        exact h3 y hy hcy

/-- C8: for every reachable state, `is_empty()` returns `true` iff
`contains(x)` returns `false` for every `x` in `[0, capacity)`. -/
theorem C8_is_empty_iff_no_members (sh : Shape) (s : St sh) (hR : Reachable sh s)
    (hS : scap sh ≤ SENTINEL) :
    (isEmpty sh s = true ↔ ∀ x, x < scap sh → contains sh s x = false) := by
  have hI := reachable_treeInv hS hR
  rw [isEmpty_iff_no_melem sh s (treeInv_toSM sh s hI)]
  constructor
  · intro h x hxcap
    rw [contains_eq_melem sh s hI hS x hxcap]
    exact h x
  · intro h y
    by_cases hy : y < scap sh
    · rw [← contains_eq_melem sh s hI hS y hy]
      exact h y hy
    · rcases hb : melem sh s y with _ | _
      · rfl
      · have := melem_lt sh s (treeInv_toSM sh s hI) y hb
        omega

/-- C10: for every reachable state and in-range `x`, a failed `insert(x)`
(returning `false`) or failed `remove(x)` (returning `false`) leaves the
state, and hence every observable (`contains`, `next`, `prev`, `first`,
`last`), unchanged. -/
theorem C10_failed_ops_leave_state_unchanged (sh : Shape) (s : St sh) (hR : Reachable sh s)
    (hS : scap sh ≤ SENTINEL) (x : Nat) (hx : x < scap sh) :
    ((vebInsert sh s x).1 = false →
      (vebInsert sh s x).2 = s ∧
      (∀ y, contains sh (vebInsert sh s x).2 y = contains sh s y) ∧
      (∀ y, next sh (vebInsert sh s x).2 y = next sh s y) ∧
      (∀ y, prev sh (vebInsert sh s x).2 y = prev sh s y) ∧
      first sh (vebInsert sh s x).2 = first sh s ∧
      last sh (vebInsert sh s x).2 = last sh s) ∧
    ((remove sh s x).1 = false →
      (remove sh s x).2 = s ∧
      (∀ y, contains sh (remove sh s x).2 y = contains sh s y) ∧
      (∀ y, next sh (remove sh s x).2 y = next sh s y) ∧
      (∀ y, prev sh (remove sh s x).2 y = prev sh s y) ∧
      first sh (remove sh s x).2 = first sh s ∧
      last sh (remove sh s x).2 = last sh s) := by
  have hI := reachable_treeInv hS hR
  constructor
  · intro hret
    have he := insert_false_unchanged sh s hI hS x hx hret
    rw [he]
    exact ⟨rfl, fun _ => rfl, fun _ => rfl, fun _ => rfl, rfl, rfl⟩
  · intro hret
    have he := remove_false_unchanged sh s hI hS x hx hret
    rw [he]
    exact ⟨rfl, fun _ => rfl, fun _ => rfl, fun _ => rfl, rfl, rfl⟩

/-- C4: in every reachable state of a composite node the representation
invariant holds — an in-range cluster index is a member of `upper` iff
its cluster is non-empty, and when the node is non-empty only values
strictly greater than the cached `min` appear in `lower` — and the full
invariant is preserved by every in-range operation. -/
theorem C4_representation_invariant (us ls : Shape) (s : St (.comp us ls))
    (hR : Reachable (.comp us ls) s) (hS : scap (.comp us ls) ≤ SENTINEL) :
    (∀ u, u < scap us →
      (contains us s.upper u = true ↔
        isEmpty ls (s.lower.getD u (emptySt ls)) = false)) ∧
    (isEmpty (.comp us ls) s = false →
      ∀ y, subMem ls s.lower y = true → s.mn < y) ∧
    (∀ o : Op, o.arg < scap (.comp us ls) →
      TreeInv (.comp us ls) (applyOp (.comp us ls) s o)) := by
  have hI := reachable_treeInv hS hR
  obtain ⟨up, lows, mn, mx⟩ := s
  have hIfull := hI
  simp only [TreeInv] at hI
  obtain ⟨h1, h2, h3, h4, h5, h6⟩ := hI
  refine ⟨?_, ?_, ?_⟩
  · intro u hu
    have htr := h4 u hu
    have hcl : TreeInv ls (lows.getD u (emptySt ls)) := h3 _ (getD_mem lows _ (by omega))
    rw [contains_eq_melem us up h1 (le_trans (scap_us_le us ls) hS) u hu, htr]
    constructor
    · rintro ⟨z, hz⟩
      rcases hb : isEmpty ls (lows.getD u (emptySt ls)) with _ | _
      · rfl
      · have hall := (isEmpty_iff_no_melem ls _ (treeInv_toSM ls _ hcl)).1 hb
        rw [hall z] at hz
        exact absurd hz (by simp)
    · intro hb
      by_contra hno
      push_neg at hno
      have hemp : isEmpty ls (lows.getD u (emptySt ls)) = true := by
        rw [isEmpty_iff_no_melem ls _ (treeInv_toSM ls _ hcl)]
        intro z
        rcases hz : melem ls (lows.getD u (emptySt ls)) z with _ | _
        · rfl
        · exact absurd hz (hno z)
      rw [hemp] at hb
      exact absurd hb (by simp)
  · intro hne y hy
    have hmn : mn ≠ SENTINEL := by
      intro he
      have : (mn == SENTINEL) = false := hne
      rw [he] at this
      simp at this
    exact (h6 hmn).2.1 y hy
  · intro o ho
    cases o with
    | ins x => exact (insert_spec (.comp us ls) _ hIfull hS x ho).1
    | del x => exact (remove_spec (.comp us ls) _ hIfull hS x ho).1

/-- C5 (amended): `is_empty` checks only `min = SENTINEL`; both cached
fields equal the sentinel in the freshly constructed state and after
`clear()`, but `remove()` on a singleton sets `min` to the sentinel and
`max` to `0`, so an empty reachable state need not have
`max = SENTINEL`. -/
theorem C5_empty_sentinel_corrected (us ls : Shape) (s : St (.comp us ls))
    (hR : Reachable (.comp us ls) s) (hS : scap (.comp us ls) ≤ SENTINEL) :
    (isEmpty (.comp us ls) s = true ↔ s.mn = SENTINEL) ∧
    ((emptySt (.comp us ls)).mn = SENTINEL ∧ (emptySt (.comp us ls)).mx = SENTINEL) ∧
    ((clear (.comp us ls) s).mn = SENTINEL ∧ (clear (.comp us ls) s).mx = SENTINEL) ∧
    (∀ x, x < scap (.comp us ls) → s.mn = s.mx → x = s.mn →
      (remove (.comp us ls) s x).2.mn = SENTINEL ∧
      (remove (.comp us ls) s x).2.mx = 0) := by
  obtain ⟨up, lows, mn, mx⟩ := s
  refine ⟨?_, ⟨rfl, rfl⟩, ⟨rfl, rfl⟩, ?_⟩
  · show (mn == SENTINEL) = true ↔ mn = SENTINEL
    simp
  · intro x hx hmm hxmn
    have hmm2 : mn = mx := hmm
    have hxmn2 : x = mn := hxmn
    have hunf : remove (.comp us ls) ⟨up, lows, mn, mx⟩ x = (true, ⟨up, lows, SENTINEL, 0⟩) := by
      simp only [remove]
      rw [if_pos hmm2, if_pos hxmn2]
    rw [hunf]
    exact ⟨rfl, rfl⟩

/-- C5 (counterexample): on the supported 8-bit composite shape, inserting
`0` and then removing it reaches an empty state whose cached `max` is `0`,
not the sentinel, so min == max == SENTINEL fails for this reachable
empty state. -/
theorem C5_counterexample_singleton_removal :
    isEmpty (Shape.comp (.base 4) (.base 4))
      (applyOps (Shape.comp (.base 4) (.base 4)) [Op.ins 0, Op.del 0]
        (emptySt (Shape.comp (.base 4) (.base 4)))) = true ∧
    Reachable (Shape.comp (.base 4) (.base 4))
      (applyOps (Shape.comp (.base 4) (.base 4)) [Op.ins 0, Op.del 0]
        (emptySt (Shape.comp (.base 4) (.base 4)))) ∧
    ¬ ((applyOps (Shape.comp (.base 4) (.base 4)) [Op.ins 0, Op.del 0]
        (emptySt (Shape.comp (.base 4) (.base 4)))).mx = SENTINEL) := by
  refine ⟨by decide, ⟨[Op.ins 0, Op.del 0], ?_, rfl⟩, by decide⟩
  show ∀ o ∈ [Op.ins 0, Op.del 0], o.arg < scap (Shape.comp (.base 4) (.base 4))
  decide

/-- C6: for every reachable state, the iterator created by `iter` (cursor
`0`, each step returning `next(cursor)` and advancing the cursor to
`value + 1`) yields exactly the contained values in strictly ascending
order, at most `capacity` of them. -/
theorem C6_iterator_yields_sorted_contents (sh : Shape) (s : St sh)
    (hR : Reachable sh s) (hS : scap sh ≤ SENTINEL) :
    iterOut sh (iter sh s) (scap sh + 1)
        = (List.range (scap sh)).filter (fun y => contains sh s y) ∧
    (iterOut sh (iter sh s) (scap sh + 1)).Sorted (· < ·) ∧
    (iterOut sh (iter sh s) (scap sh + 1)).length ≤ scap sh ∧
    (∀ y, y ∈ iterOut sh (iter sh s) (scap sh + 1) ↔
      (y < scap sh ∧ contains sh s y = true)) := by
  have hI := reachable_treeInv hS hR
  have hout : iterOut sh (iter sh s) (scap sh + 1)
      = (List.range (scap sh)).filter (fun y => melem sh s y) := by
    have h0 := iterOut_go sh s hI (scap sh + 1) 0 (Nat.zero_le _) (by omega)
    rw [Nat.sub_zero] at h0
    rw [List.range_eq_range' (scap sh)]
    exact h0
  have hcongr : (List.range (scap sh)).filter (fun y => melem sh s y)
      = (List.range (scap sh)).filter (fun y => contains sh s y) := by
    apply List.filter_congr
    intro a ha
    rw [contains_eq_melem sh s hI hS a (List.mem_range.1 ha)]
  refine ⟨hout.trans hcongr, ?_, ?_, ?_⟩
  · rw [hout]
    exact List.Pairwise.sublist (List.filter_sublist _) (List.pairwise_lt_range _)
  · rw [hout]
    calc ((List.range (scap sh)).filter (fun y => melem sh s y)).length
        ≤ (List.range (scap sh)).length := List.length_filter_le _ _
    _ = scap sh := List.length_range _
  · intro y
    rw [hout, List.mem_filter, List.mem_range]
    constructor
    · rintro ⟨hy1, hy2⟩
      refine ⟨hy1, ?_⟩
      rw [contains_eq_melem sh s hI hS y hy1]
      exact hy2
    · rintro ⟨hy1, hy2⟩
      refine ⟨hy1, ?_⟩
      rw [← contains_eq_melem sh s hI hS y hy1]
      exact hy2

/-- C9: `new_with_capacity` returns the smallest supported size (`BITS`
in 4..=49, capacity `2^BITS`) whose capacity is at least the request,
panics (modelled as `none`) when the request exceeds the largest
supported capacity `2^49`, and `new_with_bits` panics when `bits` is at
least the `usize` bit width. -/
theorem C9_capacity_selection :
    (∀ req : Nat, req ≤ 2 ^ 49 →
      ∃ m, new_with_capacity req = some m ∧ 4 ≤ m ∧ m ≤ 49 ∧
        req ≤ scap (sizedShape m) ∧
        (∀ k, 4 ≤ k → req ≤ scap (sizedShape k) →
          scap (sizedShape m) ≤ scap (sizedShape k))) ∧
    (∀ req : Nat, 2 ^ 49 < req → new_with_capacity req = none) ∧
    (∀ bits : Nat, USIZE_BITS ≤ bits → new_with_bits bits = none) := by
  refine ⟨?_, ?_, ?_⟩
  · intro req hreq
    rcases hf : new_with_capacity req with _ | m
    · exfalso
      have hf2 : (List.range' 4 46).find?
          (fun n => decide (req ≤ scap (sizedShape n))) = none := hf
      have hall := List.find?_eq_none.1 hf2 49 (List.mem_range'_1.2 ⟨by omega, by omega⟩)
      have h49 : req ≤ scap (sizedShape 49) := by
        rw [scap_sizedShape]
        exact hreq
      exact hall (decide_eq_true h49)
    · have hf2 : (List.range' 4 46).find?
          (fun n => decide (req ≤ scap (sizedShape n))) = some m := hf
      obtain ⟨hp, hge, hlt, hmin⟩ := find?_range'_least _ 46 4 m hf2
      have hpm : req ≤ scap (sizedShape m) := of_decide_eq_true hp
      refine ⟨m, rfl, hge, by omega, hpm, ?_⟩
      intro k hk4 hpk
      by_cases hkm : k < m
      · exfalso
        have hfls : decide (req ≤ scap (sizedShape k)) = false := hmin k hk4 hkm
        have htru : decide (req ≤ scap (sizedShape k)) = true := decide_eq_true hpk
        rw [hfls] at htru
        exact absurd htru (by simp)
      · rw [scap_sizedShape, scap_sizedShape]
        exact Nat.pow_le_pow_right (by omega) (by omega)
  · intro req hreq
    show (List.range' 4 46).find? (fun n => decide (req ≤ scap (sizedShape n))) = none
    rw [List.find?_eq_none]
    intro n hn
    have hn2 := List.mem_range'_1.1 hn
    intro hdec
    have hle : req ≤ scap (sizedShape n) := of_decide_eq_true hdec
    rw [scap_sizedShape] at hle
    have hpow : (2 : Nat) ^ n ≤ 2 ^ 49 := Nat.pow_le_pow_right (by omega) (by omega)
    omega
  · intro bits hbits
    show (if bits < USIZE_BITS then new_with_capacity (2 ^ bits) else none) = none
    rw [if_neg (by omega)]

/-- C7: on every reachable composite state the internal
"guaranteed to exist" branches never fail: the min-promotion
`next(x + 1)` in `remove`, the fall-through `upper.next(ux + 1)` and
`lower[ux2].first()` in `next`, and the same-cluster `lower[ux].prev`
and fall-through `lower[ux2].last()` in `prev` all return `some`. -/
theorem C7_expect_branches_never_fail (us ls : Shape) (s : St (.comp us ls))
    (hR : Reachable (.comp us ls) s) (hS : scap (.comp us ls) ≤ SENTINEL) :
    (∀ x, x < scap (.comp us ls) → x = s.mn → s.mn ≠ s.mx →
      next (.comp us ls) s (x + 1) ≠ none) ∧
    (∀ x, x < scap (.comp us ls) → s.mn ≠ SENTINEL → s.mn < x → x ≤ s.mx →
      (∀ l2, last ls (s.lower.getD (x / 2 ^ sbits ls) (emptySt ls)) = some l2 →
        x % 2 ^ sbits ls ≤ l2 →
        next ls (s.lower.getD (x / 2 ^ sbits ls) (emptySt ls)) (x % 2 ^ sbits ls) ≠ none) ∧
      ((∀ l2, last ls (s.lower.getD (x / 2 ^ sbits ls) (emptySt ls)) = some l2 →
          l2 < x % 2 ^ sbits ls) →
        next us s.upper (x / 2 ^ sbits ls + 1) ≠ none ∧
        (∀ u2, next us s.upper (x / 2 ^ sbits ls + 1) = some u2 →
          first ls (s.lower.getD u2 (emptySt ls)) ≠ none))) ∧
    (∀ x, x < scap (.comp us ls) →
      (∀ f, first ls (s.lower.getD (x / 2 ^ sbits ls) (emptySt ls)) = some f →
        f ≤ x % 2 ^ sbits ls →
        prev ls (s.lower.getD (x / 2 ^ sbits ls) (emptySt ls)) (x % 2 ^ sbits ls) ≠ none) ∧
      (∀ u2, 0 < x / 2 ^ sbits ls → prev us s.upper (x / 2 ^ sbits ls - 1) = some u2 →
        last ls (s.lower.getD u2 (emptySt ls)) ≠ none)) := by
  have hI := reachable_treeInv hS hR
  obtain ⟨up, lows, mn, mx⟩ := s
  have hIfull := hI
  simp only [TreeInv] at hI
  obtain ⟨h1, h2, h3, h4, h5, h6⟩ := hI
  refine ⟨?_, ?_, ?_⟩
  · intro x hx hxmn hmm
    have hxmn2 : x = mn := hxmn
    have hmm2 : mn ≠ mx := hmm
    have hmn : mn ≠ SENTINEL := by
      have := scap_pos (.comp us ls)
      omega
    obtain ⟨hm1, hm2, hm3, hm4, hm5, hm6⟩ := h6 hmn
    have hmnmx : mn < mx := by omega
    have hsubmx := hm6 hmnmx
    intro hnone
    have hnx := next_spec (.comp us ls) ⟨up, lows, mn, mx⟩ hIfull (x + 1) (by omega)
    rw [hnone] at hnx
    have hmxmem : melem (.comp us ls) ⟨up, lows, mn, mx⟩ mx = true := by
      rw [melem_comp_iff hmn]
      right
      exact hsubmx
    have := hnx mx (by omega)
    rw [hmxmem] at this
    exact absurd this (by simp)
  · intro x hx hmn hlt hle
    have hmn2 : mn ≠ SENTINEL := hmn
    have hlt2 : mn < x := hlt
    have hle2 : x ≤ mx := hle
    obtain ⟨hm1, hm2, hm3, hm4, hm5, hm6⟩ := h6 hmn2
    have hsubmx := hm6 (by omega)
    have hxcapm : x < scap us * 2 ^ sbits ls := by rw [scap_comp] at hx; exact hx
    have hux : x / 2 ^ sbits ls < scap us := div_lt_of_lt_mul hxcapm
    have hmxcapm : mx < scap us * 2 ^ sbits ls := by rw [scap_comp] at hm4; exact hm4
    have humx : mx / 2 ^ sbits ls < scap us := div_lt_of_lt_mul hmxcapm
    constructor
    · intro l2 hl2 hlel2
      have hcl : TreeInv ls (lows.getD (x / 2 ^ sbits ls) (emptySt ls)) :=
        h3 _ (getD_mem lows _ (by omega))
      have hlast := last_spec ls _ hcl
      rw [hl2] at hlast
      obtain ⟨hp1, hp2, hp3⟩ := hlast
      intro hnone
      have hnx := next_spec ls _ hcl (x % 2 ^ sbits ls) (Nat.mod_lt _ (Nat.two_pow_pos _))
      rw [hnone] at hnx
      have := hnx l2 hlel2
      rw [hp2] at this
      exact absurd this (by simp)
    · intro hfail
      have hdivle : x / 2 ^ sbits ls ≤ mx / 2 ^ sbits ls :=
        Nat.div_le_div_right hle2
      have hdivne : x / 2 ^ sbits ls ≠ mx / 2 ^ sbits ls := by
        intro he
        have hcl : TreeInv ls (lows.getD (x / 2 ^ sbits ls) (emptySt ls)) :=
          h3 _ (getD_mem lows _ (by omega))
        have hmxmel : melem ls (lows.getD (x / 2 ^ sbits ls) (emptySt ls))
            (mx % 2 ^ sbits ls) = true := by
          rw [he]
          exact hsubmx
        have hlast := last_spec ls _ hcl
        rcases hl : last ls (lows.getD (x / 2 ^ sbits ls) (emptySt ls)) with _ | l2
        · rw [hl] at hlast
          have := hlast (mx % 2 ^ sbits ls)
            (by have h0 : mx % 2 ^ sbits ls < scap ls := Nat.mod_lt mx (Nat.two_pow_pos (sbits ls)); omega)
          rw [hmxmel] at this
          exact absurd this (by simp)
        · rw [hl] at hlast
          obtain ⟨hp1, hp2, hp3⟩ := hlast
          have hmxle : mx % 2 ^ sbits ls ≤ l2 :=
            hp3 (mx % 2 ^ sbits ls)
              (by have h0 : mx % 2 ^ sbits ls < scap ls := Nat.mod_lt mx (Nat.two_pow_pos (sbits ls)); omega) hmxmel
          have hl2lt := hfail l2 hl
          have hxlemx : x % 2 ^ sbits ls ≤ mx % 2 ^ sbits ls :=
            (same_cluster_le he).1 hle2
          omega
      have humxmem : melem us up (mx / 2 ^ sbits ls) = true :=
        (h4 (mx / 2 ^ sbits ls) humx).2 ⟨mx % 2 ^ sbits ls, hsubmx⟩
      have hnup := next_spec us up h1 (x / 2 ^ sbits ls + 1) (by omega)
      constructor
      · intro hnone
        rw [hnone] at hnup
        have := hnup (mx / 2 ^ sbits ls) (by omega)
        rw [humxmem] at this
        exact absurd this (by simp)
      · intro u2 hu2
        rw [hu2] at hnup
        obtain ⟨hq1, hq2, hq3⟩ := hnup
        have hu2cap : u2 < scap us := melem_lt us up (treeInv_toSM us up h1) u2 hq2
        obtain ⟨z, hz⟩ := (h4 u2 hu2cap).1 hq2
        have hcl2 : TreeInv ls (lows.getD u2 (emptySt ls)) :=
          h3 _ (getD_mem lows _ (by omega))
        intro hnone
        have hfst := first_spec ls _ (treeInv_toSM ls _ hcl2)
        rw [hnone] at hfst
        have := hfst z (Nat.zero_le z)
        rw [hz] at this
        exact absurd this (by simp)
  · intro x hx
    have hxcapm : x < scap us * 2 ^ sbits ls := by rw [scap_comp] at hx; exact hx
    have hux : x / 2 ^ sbits ls < scap us := div_lt_of_lt_mul hxcapm
    constructor
    · intro f hf hfle
      have hcl : TreeInv ls (lows.getD (x / 2 ^ sbits ls) (emptySt ls)) :=
        h3 _ (getD_mem lows _ (by omega))
      have hfst := first_spec ls _ (treeInv_toSM ls _ hcl)
      rw [hf] at hfst
      obtain ⟨hp1, hp2, hp3⟩ := hfst
      intro hnone
      have hpv := prev_spec ls _ (treeInv_toSM ls _ hcl) (x % 2 ^ sbits ls)
        (Nat.mod_lt _ (Nat.two_pow_pos _))
      rw [hnone] at hpv
      have := hpv f hfle
      rw [hp2] at this
      exact absurd this (by simp)
    · intro u2 hpos hu2
      have hpv := prev_spec us up (treeInv_toSM us up h1) (x / 2 ^ sbits ls - 1) (by omega)
      rw [hu2] at hpv
      obtain ⟨hq1, hq2, hq3⟩ := hpv
      have hu2cap : u2 < scap us := melem_lt us up (treeInv_toSM us up h1) u2 hq2
      obtain ⟨z, hz⟩ := (h4 u2 hu2cap).1 hq2
      have hcl2 : TreeInv ls (lows.getD u2 (emptySt ls)) :=
        h3 _ (getD_mem lows _ (by omega))
      intro hnone
      have hzcap : z < scap ls := melem_lt ls _ (treeInv_toSM ls _ hcl2) z hz
      have hlast := last_spec ls _ hcl2
      rw [hnone] at hlast
      have := hlast z (by omega)
      rw [hz] at this
      exact absurd this (by simp)

/-- C1: on every supported size (`BITS` 4..=49, base `SmallSet` cases and
composite nodes alike), after any in-range sequence of insert/remove
operations applied to the freshly constructed empty instance, the answers
of `contains`, `next`, `prev`, `first` and `last` equal those of the
reference sorted-list implementation driven by the same sequence. -/
theorem C1_queries_match_reference (n : Nat) (h4 : 4 ≤ n) (h49 : n ≤ 49)
    (ops : List Op) (hok : OpsOK (sizedShape n) ops) (x : Nat)
    (hx : x < scap (sizedShape n)) :
    contains (sizedShape n) (applyOps (sizedShape n) ops (emptySt (sizedShape n))) x
      = rContains (applyRefOps ops []) x ∧
    next (sizedShape n) (applyOps (sizedShape n) ops (emptySt (sizedShape n))) x
      = rNext (applyRefOps ops []) x ∧
    prev (sizedShape n) (applyOps (sizedShape n) ops (emptySt (sizedShape n))) x
      = rPrev (applyRefOps ops []) x ∧
    first (sizedShape n) (applyOps (sizedShape n) ops (emptySt (sizedShape n)))
      = rFirst (applyRefOps ops []) ∧
    last (sizedShape n) (applyOps (sizedShape n) ops (emptySt (sizedShape n)))
      = rLast (applyRefOps ops []) := by
  have hS := sizedShape_cap_le n h49
  have hI := applyOps_treeInv (sizedShape n) hS ops (emptySt _) (treeInv_emptySt _) hok
  obtain ⟨hs, hbnd, hmem⟩ :=
    corr_ops (sizedShape n) hS ops (emptySt _) [] (treeInv_emptySt _) hok
      (corr_empty (sizedShape n))
  have hfun : melem (sizedShape n) (applyOps (sizedShape n) ops (emptySt (sizedShape n)))
      = fun y => rContains (applyRefOps ops []) y := funext hmem
  refine ⟨?_, ?_, ?_, ?_, ?_⟩
  · rw [contains_eq_melem (sizedShape n) _ hI hS x hx, hmem x]
  · exact isNextOf_unique (fun y => rContains (applyRefOps ops []) y) x _ _
      (hfun ▸ next_spec (sizedShape n) _ hI x hx)
      (rNext_spec x (applyRefOps ops []) hs)
  · exact isPrevOf_unique (fun y => rContains (applyRefOps ops []) y) x _ _
      (hfun ▸ prev_spec (sizedShape n) _ (treeInv_toSM (sizedShape n) _ hI) x hx)
      (rPrev_spec x (applyRefOps ops []) hs)
  · exact isNextOf_unique (fun y => rContains (applyRefOps ops []) y) 0 _ _
      (hfun ▸ first_spec (sizedShape n) _ (treeInv_toSM (sizedShape n) _ hI))
      (rFirst_spec (applyRefOps ops []) hs)
  · exact isPrevOf_unique (fun y => rContains (applyRefOps ops []) y)
      (scap (sizedShape n) - 1) _ _
      (hfun ▸ last_spec (sizedShape n) _ hI)
      (rLast_spec (scap (sizedShape n)) (applyRefOps ops []) hs hbnd)

theorem opsOK_of_ball (sh : Shape) (ops : List Op) (h : ∀ o ∈ ops, o.arg < scap sh) :
    OpsOK sh ops := h

theorem C1_queries_match_reference_witness :
    4 ≤ 4 ∧ 4 ≤ 49 ∧ OpsOK (sizedShape 4) [Op.ins 3] ∧ 3 < scap (sizedShape 4) ∧
    (contains (sizedShape 4) (applyOps (sizedShape 4) [Op.ins 3] (emptySt (sizedShape 4))) 3
        = rContains (applyRefOps [Op.ins 3] []) 3 ∧
      next (sizedShape 4) (applyOps (sizedShape 4) [Op.ins 3] (emptySt (sizedShape 4))) 3
        = rNext (applyRefOps [Op.ins 3] []) 3 ∧
      prev (sizedShape 4) (applyOps (sizedShape 4) [Op.ins 3] (emptySt (sizedShape 4))) 3
        = rPrev (applyRefOps [Op.ins 3] []) 3 ∧
      first (sizedShape 4) (applyOps (sizedShape 4) [Op.ins 3] (emptySt (sizedShape 4)))
        = rFirst (applyRefOps [Op.ins 3] []) ∧
      last (sizedShape 4) (applyOps (sizedShape 4) [Op.ins 3] (emptySt (sizedShape 4)))
        = rLast (applyRefOps [Op.ins 3] [])) :=
  ⟨by decide, by decide, opsOK_of_ball _ _ (by decide), by decide,
    C1_queries_match_reference 4 (by decide) (by decide) [Op.ins 3]
      (opsOK_of_ball _ _ (by decide)) 3 (by decide)⟩

theorem C2_insert_remove_return_values_witness :
    Reachable (Shape.base 4) (emptySt (Shape.base 4)) ∧
    scap (Shape.base 4) ≤ SENTINEL ∧ 3 < scap (Shape.base 4) ∧
    ((vebInsert (Shape.base 4) (emptySt (Shape.base 4)) 3).1
        = !contains (Shape.base 4) (emptySt (Shape.base 4)) 3 ∧
      contains (Shape.base 4) (vebInsert (Shape.base 4) (emptySt (Shape.base 4)) 3).2 3 = true ∧
      (remove (Shape.base 4) (emptySt (Shape.base 4)) 3).1
        = contains (Shape.base 4) (emptySt (Shape.base 4)) 3 ∧
      contains (Shape.base 4) (remove (Shape.base 4) (emptySt (Shape.base 4)) 3).2 3 = false) :=
  ⟨⟨[], opsOK_of_ball _ _ (by simp), rfl⟩, by decide, by decide,
    C2_insert_remove_return_values (Shape.base 4) (emptySt (Shape.base 4))
      ⟨[], opsOK_of_ball _ _ (by simp), rfl⟩ (by decide) 3 (by decide)⟩

theorem C3_next_prev_semantics_witness :
    Reachable (Shape.base 4) (emptySt (Shape.base 4)) ∧
    scap (Shape.base 4) ≤ SENTINEL ∧ 3 < scap (Shape.base 4) ∧
    (((next (Shape.base 4) (emptySt (Shape.base 4)) 3 = none →
        ∀ y, 3 ≤ y → y < scap (Shape.base 4) →
          contains (Shape.base 4) (emptySt (Shape.base 4)) y = false) ∧
      (∀ v, next (Shape.base 4) (emptySt (Shape.base 4)) 3 = some v →
        3 ≤ v ∧ v < scap (Shape.base 4) ∧
        contains (Shape.base 4) (emptySt (Shape.base 4)) v = true ∧
        ∀ y, 3 ≤ y → y < scap (Shape.base 4) →
          contains (Shape.base 4) (emptySt (Shape.base 4)) y = true → v ≤ y)) ∧
    ((prev (Shape.base 4) (emptySt (Shape.base 4)) 3 = none →
        ∀ y, y ≤ 3 → y < scap (Shape.base 4) →
          contains (Shape.base 4) (emptySt (Shape.base 4)) y = false) ∧
      (∀ v, prev (Shape.base 4) (emptySt (Shape.base 4)) 3 = some v →
        v ≤ 3 ∧ v < scap (Shape.base 4) ∧
        contains (Shape.base 4) (emptySt (Shape.base 4)) v = true ∧
        ∀ y, y ≤ 3 → y < scap (Shape.base 4) →
          contains (Shape.base 4) (emptySt (Shape.base 4)) y = true → y ≤ v))) :=
  ⟨⟨[], opsOK_of_ball _ _ (by simp), rfl⟩, by decide, by decide,
    C3_next_prev_semantics (Shape.base 4) (emptySt (Shape.base 4))
      ⟨[], opsOK_of_ball _ _ (by simp), rfl⟩ (by decide) 3 (by decide)⟩

theorem C4_representation_invariant_witness :
    Reachable (Shape.comp (.base 4) (.base 4))
        (emptySt (Shape.comp (.base 4) (.base 4))) ∧
    scap (Shape.comp (.base 4) (.base 4)) ≤ SENTINEL ∧
    ((∀ u, u < scap (Shape.base 4) →
      (contains (Shape.base 4) (emptySt (Shape.comp (.base 4) (.base 4))).upper u = true ↔
        isEmpty (Shape.base 4)
          ((emptySt (Shape.comp (.base 4) (.base 4))).lower.getD u
            (emptySt (Shape.base 4))) = false)) ∧
    (isEmpty (Shape.comp (.base 4) (.base 4)) (emptySt (Shape.comp (.base 4) (.base 4))) = false →
      ∀ y, subMem (Shape.base 4) (emptySt (Shape.comp (.base 4) (.base 4))).lower y = true →
        (emptySt (Shape.comp (.base 4) (.base 4))).mn < y) ∧
    (∀ o : Op, o.arg < scap (Shape.comp (.base 4) (.base 4)) →
      TreeInv (Shape.comp (.base 4) (.base 4))
        (applyOp (Shape.comp (.base 4) (.base 4))
          (emptySt (Shape.comp (.base 4) (.base 4))) o))) :=
  ⟨⟨[], opsOK_of_ball _ _ (by simp), rfl⟩, by decide,
    C4_representation_invariant (Shape.base 4) (Shape.base 4)
      (emptySt (Shape.comp (.base 4) (.base 4)))
      ⟨[], opsOK_of_ball _ _ (by simp), rfl⟩ (by decide)⟩

theorem C5_empty_sentinel_corrected_witness :
    Reachable (Shape.comp (.base 4) (.base 4))
        (emptySt (Shape.comp (.base 4) (.base 4))) ∧
    scap (Shape.comp (.base 4) (.base 4)) ≤ SENTINEL ∧
    ((isEmpty (Shape.comp (.base 4) (.base 4)) (emptySt (Shape.comp (.base 4) (.base 4))) = true ↔
        (emptySt (Shape.comp (.base 4) (.base 4))).mn = SENTINEL) ∧
    ((emptySt (Shape.comp (.base 4) (.base 4))).mn = SENTINEL ∧
      (emptySt (Shape.comp (.base 4) (.base 4))).mx = SENTINEL) ∧
    ((clear (Shape.comp (.base 4) (.base 4)) (emptySt (Shape.comp (.base 4) (.base 4)))).mn
        = SENTINEL ∧
      (clear (Shape.comp (.base 4) (.base 4)) (emptySt (Shape.comp (.base 4) (.base 4)))).mx
        = SENTINEL) ∧
    (∀ x, x < scap (Shape.comp (.base 4) (.base 4)) →
      (emptySt (Shape.comp (.base 4) (.base 4))).mn
          = (emptySt (Shape.comp (.base 4) (.base 4))).mx →
      x = (emptySt (Shape.comp (.base 4) (.base 4))).mn →
      (remove (Shape.comp (.base 4) (.base 4)) (emptySt (Shape.comp (.base 4) (.base 4))) x).2.mn
          = SENTINEL ∧
      (remove (Shape.comp (.base 4) (.base 4)) (emptySt (Shape.comp (.base 4) (.base 4))) x).2.mx
          = 0)) :=
  ⟨⟨[], opsOK_of_ball _ _ (by simp), rfl⟩, by decide,
    C5_empty_sentinel_corrected (Shape.base 4) (Shape.base 4)
      (emptySt (Shape.comp (.base 4) (.base 4)))
      ⟨[], opsOK_of_ball _ _ (by simp), rfl⟩ (by decide)⟩

theorem C6_iterator_yields_sorted_contents_witness :
    Reachable (Shape.base 4) (emptySt (Shape.base 4)) ∧
    scap (Shape.base 4) ≤ SENTINEL ∧
    (iterOut (Shape.base 4) (iter (Shape.base 4) (emptySt (Shape.base 4)))
        (scap (Shape.base 4) + 1)
      = (List.range (scap (Shape.base 4))).filter
          (fun y => contains (Shape.base 4) (emptySt (Shape.base 4)) y) ∧
    (iterOut (Shape.base 4) (iter (Shape.base 4) (emptySt (Shape.base 4)))
        (scap (Shape.base 4) + 1)).Sorted (· < ·) ∧
    (iterOut (Shape.base 4) (iter (Shape.base 4) (emptySt (Shape.base 4)))
        (scap (Shape.base 4) + 1)).length ≤ scap (Shape.base 4) ∧
    (∀ y, y ∈ iterOut (Shape.base 4) (iter (Shape.base 4) (emptySt (Shape.base 4)))
        (scap (Shape.base 4) + 1) ↔
      (y < scap (Shape.base 4) ∧ contains (Shape.base 4) (emptySt (Shape.base 4)) y = true))) :=
  ⟨⟨[], opsOK_of_ball _ _ (by simp), rfl⟩, by decide,
    C6_iterator_yields_sorted_contents (Shape.base 4) (emptySt (Shape.base 4))
      ⟨[], opsOK_of_ball _ _ (by simp), rfl⟩ (by decide)⟩

theorem C7_expect_branches_never_fail_witness :
    Reachable (Shape.comp (.base 4) (.base 4))
        (emptySt (Shape.comp (.base 4) (.base 4))) ∧
    scap (Shape.comp (.base 4) (.base 4)) ≤ SENTINEL ∧
    ((∀ x, x < scap (Shape.comp (.base 4) (.base 4)) →
        x = (emptySt (Shape.comp (.base 4) (.base 4))).mn →
        (emptySt (Shape.comp (.base 4) (.base 4))).mn
            ≠ (emptySt (Shape.comp (.base 4) (.base 4))).mx →
        next (Shape.comp (.base 4) (.base 4)) (emptySt (Shape.comp (.base 4) (.base 4)))
          (x + 1) ≠ none) ∧
    (∀ x, x < scap (Shape.comp (.base 4) (.base 4)) →
        (emptySt (Shape.comp (.base 4) (.base 4))).mn ≠ SENTINEL →
        (emptySt (Shape.comp (.base 4) (.base 4))).mn < x →
        x ≤ (emptySt (Shape.comp (.base 4) (.base 4))).mx →
      (∀ l2, last (Shape.base 4)
            ((emptySt (Shape.comp (.base 4) (.base 4))).lower.getD
              (x / 2 ^ sbits (Shape.base 4)) (emptySt (Shape.base 4))) = some l2 →
          x % 2 ^ sbits (Shape.base 4) ≤ l2 →
          next (Shape.base 4)
            ((emptySt (Shape.comp (.base 4) (.base 4))).lower.getD
              (x / 2 ^ sbits (Shape.base 4)) (emptySt (Shape.base 4)))
            (x % 2 ^ sbits (Shape.base 4)) ≠ none) ∧
      ((∀ l2, last (Shape.base 4)
            ((emptySt (Shape.comp (.base 4) (.base 4))).lower.getD
              (x / 2 ^ sbits (Shape.base 4)) (emptySt (Shape.base 4))) = some l2 →
          l2 < x % 2 ^ sbits (Shape.base 4)) →
        next (Shape.base 4) (emptySt (Shape.comp (.base 4) (.base 4))).upper
          (x / 2 ^ sbits (Shape.base 4) + 1) ≠ none ∧
        (∀ u2, next (Shape.base 4) (emptySt (Shape.comp (.base 4) (.base 4))).upper
            (x / 2 ^ sbits (Shape.base 4) + 1) = some u2 →
          first (Shape.base 4)
            ((emptySt (Shape.comp (.base 4) (.base 4))).lower.getD u2
              (emptySt (Shape.base 4))) ≠ none))) ∧
    (∀ x, x < scap (Shape.comp (.base 4) (.base 4)) →
      (∀ f, first (Shape.base 4)
            ((emptySt (Shape.comp (.base 4) (.base 4))).lower.getD
              (x / 2 ^ sbits (Shape.base 4)) (emptySt (Shape.base 4))) = some f →
          f ≤ x % 2 ^ sbits (Shape.base 4) →
          prev (Shape.base 4)
            ((emptySt (Shape.comp (.base 4) (.base 4))).lower.getD
              (x / 2 ^ sbits (Shape.base 4)) (emptySt (Shape.base 4)))
            (x % 2 ^ sbits (Shape.base 4)) ≠ none) ∧
      (∀ u2, 0 < x / 2 ^ sbits (Shape.base 4) →
          prev (Shape.base 4) (emptySt (Shape.comp (.base 4) (.base 4))).upper
            (x / 2 ^ sbits (Shape.base 4) - 1) = some u2 →
          last (Shape.base 4)
            ((emptySt (Shape.comp (.base 4) (.base 4))).lower.getD u2
              (emptySt (Shape.base 4))) ≠ none))) :=
  ⟨⟨[], opsOK_of_ball _ _ (by simp), rfl⟩, by decide,
    C7_expect_branches_never_fail (Shape.base 4) (Shape.base 4)
      (emptySt (Shape.comp (.base 4) (.base 4)))
      ⟨[], opsOK_of_ball _ _ (by simp), rfl⟩ (by decide)⟩

theorem C8_is_empty_iff_no_members_witness :
    Reachable (Shape.base 4) (emptySt (Shape.base 4)) ∧
    scap (Shape.base 4) ≤ SENTINEL ∧
    (isEmpty (Shape.base 4) (emptySt (Shape.base 4)) = true ↔
      ∀ x, x < scap (Shape.base 4) →
        contains (Shape.base 4) (emptySt (Shape.base 4)) x = false) :=
  ⟨⟨[], opsOK_of_ball _ _ (by simp), rfl⟩, by decide,
    C8_is_empty_iff_no_members (Shape.base 4) (emptySt (Shape.base 4))
      ⟨[], opsOK_of_ball _ _ (by simp), rfl⟩ (by decide)⟩

theorem C10_failed_ops_leave_state_unchanged_witness :
    Reachable (Shape.base 4) (emptySt (Shape.base 4)) ∧
    scap (Shape.base 4) ≤ SENTINEL ∧ 3 < scap (Shape.base 4) ∧
    (((vebInsert (Shape.base 4) (emptySt (Shape.base 4)) 3).1 = false →
      (vebInsert (Shape.base 4) (emptySt (Shape.base 4)) 3).2 = emptySt (Shape.base 4) ∧
      (∀ y, contains (Shape.base 4) (vebInsert (Shape.base 4) (emptySt (Shape.base 4)) 3).2 y
          = contains (Shape.base 4) (emptySt (Shape.base 4)) y) ∧
      (∀ y, next (Shape.base 4) (vebInsert (Shape.base 4) (emptySt (Shape.base 4)) 3).2 y
          = next (Shape.base 4) (emptySt (Shape.base 4)) y) ∧
      (∀ y, prev (Shape.base 4) (vebInsert (Shape.base 4) (emptySt (Shape.base 4)) 3).2 y
          = prev (Shape.base 4) (emptySt (Shape.base 4)) y) ∧
      first (Shape.base 4) (vebInsert (Shape.base 4) (emptySt (Shape.base 4)) 3).2
          = first (Shape.base 4) (emptySt (Shape.base 4)) ∧
      last (Shape.base 4) (vebInsert (Shape.base 4) (emptySt (Shape.base 4)) 3).2
          = last (Shape.base 4) (emptySt (Shape.base 4))) ∧
    ((remove (Shape.base 4) (emptySt (Shape.base 4)) 3).1 = false →
      (remove (Shape.base 4) (emptySt (Shape.base 4)) 3).2 = emptySt (Shape.base 4) ∧
      (∀ y, contains (Shape.base 4) (remove (Shape.base 4) (emptySt (Shape.base 4)) 3).2 y
          = contains (Shape.base 4) (emptySt (Shape.base 4)) y) ∧
      (∀ y, next (Shape.base 4) (remove (Shape.base 4) (emptySt (Shape.base 4)) 3).2 y
          = next (Shape.base 4) (emptySt (Shape.base 4)) y) ∧
      (∀ y, prev (Shape.base 4) (remove (Shape.base 4) (emptySt (Shape.base 4)) 3).2 y
          = prev (Shape.base 4) (emptySt (Shape.base 4)) y) ∧
      first (Shape.base 4) (remove (Shape.base 4) (emptySt (Shape.base 4)) 3).2
          = first (Shape.base 4) (emptySt (Shape.base 4)) ∧
      last (Shape.base 4) (remove (Shape.base 4) (emptySt (Shape.base 4)) 3).2
          = last (Shape.base 4) (emptySt (Shape.base 4)))) :=
  ⟨⟨[], opsOK_of_ball _ _ (by simp), rfl⟩, by decide, by decide,
    C10_failed_ops_leave_state_unchanged (Shape.base 4) (emptySt (Shape.base 4))
      ⟨[], opsOK_of_ball _ _ (by simp), rfl⟩ (by decide) 3 (by decide)⟩
